import Mathlib

/-! # Ko-fi chapter scraper: text pipeline

A shallow embedding of the pure text functions of `src/scripts/kofi_scraper.js`
(`cleanText`, `parseChapterInfo`, `splitIntoChapters`, `exportToXML`,
`escapeXML`) together with the fragment of the ECMAScript string and regular
expression semantics they rely on.

JavaScript strings are sequences of UTF-16 code units; they are modelled as
lists of natural numbers. The integer Numbers of the program are naturals and
integers: `parseInt` rounds to the nearest double (`roundToDouble`) and a
template literal renders a Number as `Number::toString` does (`intToString`), so
that both agree with JavaScript below and above `2 ^ 53`.
-/

namespace KofiScraper

/-! ## Strings -/

/-- A JavaScript string, as its sequence of UTF-16 code units. -/
abbrev JSString := List Nat

/-- UTF-16 encoding of one Unicode scalar value. -/
def utf16 (c : Char) : List Nat :=
  if c.toNat < 65536 then [c.toNat]
  else [0xD800 + (c.toNat - 65536) / 1024, 0xDC00 + (c.toNat - 65536) % 1024]

/-- The JavaScript string denoted by a literal. -/
def js (s : String) : JSString := s.toList.flatMap utf16

/-- ECMAScript `WhiteSpace` and `LineTerminator` code units: the set removed by
`String.prototype.trim` and matched by the regular expression escape `\s`. -/
def isWhiteSpace (c : Nat) : Bool :=
  c == 9 || c == 10 || c == 11 || c == 12 || c == 13 || c == 32 || c == 0xA0 ||
  c == 0x1680 || (0x2000 ≤ c && c ≤ 0x200A) || c == 0x2028 || c == 0x2029 ||
  c == 0x202F || c == 0x205F || c == 0x3000 || c == 0xFEFF

/-- The regular expression escape `\d`: the ASCII digits. -/
def isDigit (c : Nat) : Bool := 48 ≤ c && c ≤ 57

/-- The method `String.prototype.trimStart`. -/
def trimStart (s : JSString) : JSString := s.dropWhile isWhiteSpace

/-- The method `String.prototype.trimEnd`. -/
def trimEnd (s : JSString) : JSString := (s.reverse.dropWhile isWhiteSpace).reverse

/-- The method `String.prototype.trim`. -/
def trim (s : JSString) : JSString := trimEnd (trimStart s)

/-- The method `String.prototype.substring(start, end)`: both indices are clamped to the
length and swapped when `start > end`. -/
def substring (s : JSString) (start stop : Nat) : JSString :=
  let a := min start s.length
  let b := min stop s.length
  (s.drop (min a b)).take (max a b - min a b)

/-- The method `String.prototype.split` with a one-code-unit separator. -/
def split (sep : Nat) : JSString → List JSString
  | [] => [[]]
  | c :: cs =>
    if c = sep then [] :: split sep cs
    else
      match split sep cs with
      | [] => [[c]]
      | l :: ls => (c :: l) :: ls

/-- The method `Array.prototype.join`. -/
def join (sep : JSString) : List JSString → JSString
  | [] => []
  | [l] => l
  | l :: l2 :: ls => l ++ sep ++ join sep (l2 :: ls)

/-- The digits of `n` in base `b`, least significant first, read off by at most
`fuel` divisions. -/
def digitsFrom (b : Nat) : Nat → Nat → List Nat
  | 0, _ => []
  | fuel + 1, n => if n = 0 then [] else (n % b) :: digitsFrom b fuel (n / b)

/-- The digits of `n` in base `b`, least significant first; none for `0`. -/
def digitsOf (b n : Nat) : List Nat := digitsFrom b n n

/-- The decimal value of the leading run of digits of `s`, as an exact integer. -/
def decimalValue (s : JSString) : Nat :=
  (s.takeWhile isDigit).foldl (fun acc c => acc * 10 + (c - 48)) 0

/-- The Number value of a natural number, the conversion of ECMA-262 (6.1.6.1) to
the nearest double with ties to the even significand: `n` itself below `2 ^ 53`,
and from there on the nearest multiple of `2 ^ e` that has 53 significant bits,
where `e` is the bit length of `n` less 53. The values from `2 ^ 1024` on, which a
Number holds as `Infinity`, stay finite here; they take a run of more than 308
digits. -/
def roundToDouble (n : Nat) : Nat :=
  if n < 2 ^ 53 then n
  else
    let e := (digitsOf 2 n).length - 53
    let q := n / 2 ^ e
    let r := n % 2 ^ e
    if 2 * r < 2 ^ e ∨ (2 * r = 2 ^ e ∧ q % 2 = 0) then q * 2 ^ e else (q + 1) * 2 ^ e

/-- The function `parseInt` on the digit strings captured by `(\d+)`: the Number
value of the decimal value of the leading run of digits. It is exact below
`2 ^ 53` and rounded to the nearest double above. -/
def parseInt (s : JSString) : Nat := roundToDouble (decimalValue s)

/-- Decimal rendering of a natural number, as in a template literal. -/
def natToString (n : Nat) : JSString :=
  if n = 0 then [48] else ((digitsOf 10 n).reverse.map (fun d => d + 48))

/-! ## Regular expressions

Backtracking matcher in continuation-passing style, after the `Matcher` and
`MatcherContinuation` of ECMA-262 (22.2.2). Only the constructs used by the
patterns of the program are present; every pattern carries the `i` flag and none
carries `m`, `s` or `u`. -/

/-- A match state: the index reached, the input from that index on, and the
captures recorded so far (most recent first). -/
structure MState where
  endIndex : Nat
  rest : JSString
  captures : List (Nat × JSString)

/-- Pattern syntax. `star` and `plus` are the greedy quantifiers `*` and `+`
applied to a one-code-unit atom (a class or an escape), `opt` is the greedy
quantifier `?`. The classes of the program (`\s`, `\d`, `[-–]`, `[^\n]`) hold
caseless code units only, so a class is given by its membership test. -/
inductive Regex where
  | empty : Regex
  | chr (c : Nat) : Regex
  | cls (p : Nat → Bool) : Regex
  | seq (a b : Regex) : Regex
  | opt (a : Regex) : Regex
  | star (p : Nat → Bool) : Regex
  | plus (p : Nat → Bool) : Regex
  | group (n : Nat) (a : Regex) : Regex
  | bol : Regex
  | eol : Regex

/-- The operation `Canonicalize` under the `i` flag without `u`: upper-casing, where a code unit
outside ASCII never maps into ASCII. Exact on ASCII; outside ASCII it is
the identity, which gives the same comparisons against the (ASCII, caseless en
dash apart) characters of the patterns below. -/
def canonicalize (c : Nat) : Nat := if 97 ≤ c ∧ c ≤ 122 then c - 32 else c

/-- Greedy repetition of a one-code-unit atom: take the atom while it matches,
then try the continuation from the longest run back to the empty one. -/
def repeatMatcher (p : Nat → Bool) (k : MState → Option MState)
    (caps : List (Nat × JSString)) : Nat → JSString → Option MState
  | i, [] => k ⟨i, [], caps⟩
  | i, c :: cs =>
    if p c then
      match repeatMatcher p k caps (i + 1) cs with
      | some r => some r
      | none => k ⟨i, c :: cs, caps⟩
    else k ⟨i, c :: cs, caps⟩

/-- The matcher of a pattern: run it from state `s` and hand every state it can
reach, in priority order, to the continuation `k` until one succeeds. -/
def run : Regex → MState → (MState → Option MState) → Option MState
  | .empty, s, k => k s
  | .chr c, s, k =>
    match s.rest with
    | [] => none
    | x :: xs => if canonicalize x = canonicalize c then k ⟨s.endIndex + 1, xs, s.captures⟩ else none
  | .cls p, s, k =>
    match s.rest with
    | [] => none
    | x :: xs => if p x then k ⟨s.endIndex + 1, xs, s.captures⟩ else none
  | .seq a b, s, k => run a s (fun s1 => run b s1 k)
  | .opt a, s, k =>
    match run a s (fun s1 => if s1.endIndex = s.endIndex then none else k s1) with
    | some r => some r
    | none => k s
  | .star p, s, k => repeatMatcher p k s.captures s.endIndex s.rest
  | .plus p, s, k =>
    match s.rest with
    | [] => none
    | x :: xs => if p x then repeatMatcher p k s.captures (s.endIndex + 1) xs else none
  | .group n a, s, k =>
    run a s (fun s1 =>
      k ⟨s1.endIndex, s1.rest, (n, s.rest.take (s1.endIndex - s.endIndex)) :: s1.captures⟩)
  | .bol, s, k => if s.endIndex = 0 then k s else none
  | .eol, s, k =>
    match s.rest with
    | [] => k s
    | _ :: _ => none

/-- Sequence of patterns. -/
def Regex.cat : List Regex → Regex
  | [] => .empty
  | r :: rs => .seq r (Regex.cat rs)

/-- A run of literal pattern characters. -/
def Regex.lit (s : String) : Regex := Regex.cat ((js s).map Regex.chr)

/-- The result of a successful match: `index`, the matched text `m[0]` and the
captures. -/
structure MatchResult where
  index : Nat
  text : JSString
  captures : List (Nat × JSString)
  deriving DecidableEq, Repr

/-- The capture `m[n]` for `n ≥ 1` (`none` is `undefined`). -/
def MatchResult.capture (m : MatchResult) (n : Nat) : Option JSString :=
  (m.captures.find? (fun c => c.1 == n)).map Prod.snd

/-- One match attempt of `r` at index `i`, where `input` is the text from `i` on. -/
def matchAt (r : Regex) (i : Nat) (input : JSString) : Option MatchResult :=
  match run r ⟨i, input, []⟩ some with
  | some e => some ⟨i, input.take (e.endIndex - i), e.captures⟩
  | none => none

/-- The operation `RegExpBuiltinExec` for a pattern without `g` or `y`: the attempt is made at
index `i`, then at every later index, until one succeeds. -/
def execFrom (r : Regex) : Nat → JSString → Option MatchResult
  | i, [] => matchAt r i []
  | i, c :: cs =>
    match matchAt r i (c :: cs) with
    | some m => some m
    | none => execFrom r (i + 1) cs

/-- The method `String.prototype.match` with a pattern without `g`. -/
def exec (r : Regex) (s : JSString) : Option MatchResult := execFrom r 0 s

/-- The method `RegExp.prototype.test`. -/
def test (r : Regex) (s : JSString) : Bool := (exec r s).isSome

/-- The successive matches of a `g` pattern from `lastIndex` on: indices below
`lastIndex` are skipped, the first index at which an attempt succeeds yields a
match, and `lastIndex` becomes the end of that match (one more after an empty
match). -/
def matchAllFrom (r : Regex) (lastIndex : Nat) : Nat → JSString → List MatchResult
  | i, [] =>
    if i < lastIndex then []
    else
      match matchAt r i [] with
      | some m => [m]
      | none => []
  | i, c :: cs =>
    if i < lastIndex then matchAllFrom r lastIndex (i + 1) cs
    else
      match matchAt r i (c :: cs) with
      | some m =>
        m :: matchAllFrom r (if m.text.length = 0 then i + 1 else i + m.text.length) (i + 1) cs
      | none => matchAllFrom r lastIndex (i + 1) cs

/-- The method `String.prototype.matchAll` with a `g` pattern, spread into an array. -/
def matchAll (r : Regex) (s : JSString) : List MatchResult := matchAllFrom r 0 0 s

/-! ## The program -/

/-- The pattern `/Vol\.?\s*(\d+)/i` of `parseChapterInfo`. -/
def volPattern : Regex :=
  .cat [.lit "Vol", .opt (.chr 46), .star isWhiteSpace, .group 1 (.plus isDigit)]

/-- The class `[-–]`: hyphen-minus or en dash. -/
def isDash (c : Nat) : Bool := c == 45 || c == 0x2013

/-- The pattern `/Chapter\s*(\d+)(?:\s*[-–]\s*(\d+))?/i` of `parseChapterInfo`. -/
def chapterRangePattern : Regex :=
  .cat [.lit "Chapter", .star isWhiteSpace, .group 1 (.plus isDigit),
    .opt (.cat [.star isWhiteSpace, .cls isDash, .star isWhiteSpace, .group 2 (.plus isDigit)])]

/-- The result of `parseChapterInfo`; `none` is `null`. -/
structure ChapterInfo where
  volume : Nat
  chapterStart : Option Nat
  chapterEnd : Option Nat
  deriving DecidableEq, Repr

/-- The function `parseChapterInfo` of `kofi_scraper.js`. -/
def parseChapterInfo (title : JSString) : ChapterInfo :=
  let volMatch := exec volPattern title
  let chapterMatch := exec chapterRangePattern title
  { volume :=
      match volMatch with
      | some m => parseInt ((m.capture 1).getD [])
      | none => 1
    chapterStart :=
      match chapterMatch with
      | some m => some (parseInt ((m.capture 1).getD []))
      | none => none
    chapterEnd :=
      match chapterMatch with
      | some m =>
        match m.capture 2 with
        | some c => if c.length = 0 then none else some (parseInt c)
        | none => none
      | none => none }

/-- The expression `x || d` for `x` a number or `null`: `d` replaces the falsy
values `null` and `0`. -/
def orDefault (x : Option Nat) (d : Nat) : Nat :=
  match x with
  | none => d
  | some n => if n = 0 then d else n

/-- The class `[^\n]`. -/
def notNewline (c : Nat) : Bool := c != 10

/-- The pattern `/\[Vol\.\s*\d+\]\s*Chapter\s*(\d+):\s*([^\n]+)/gi` of
`splitIntoChapters`. -/
def chapterPattern : Regex :=
  .cat [.lit "[Vol.", .star isWhiteSpace, .plus isDigit, .chr 93, .star isWhiteSpace,
    .lit "Chapter", .star isWhiteSpace, .group 1 (.plus isDigit), .chr 58,
    .star isWhiteSpace, .group 2 (.plus notNewline)]

/-- A chapter record. -/
structure Chapter where
  id : Int
  volume : Int
  title : JSString
  content : JSString
  deriving DecidableEq, Repr

/-- The function `splitIntoChapters` of `kofi_scraper.js`. The `for` loop over
the match indices is the `map` over `List.range`. -/
def splitIntoChapters (content title : JSString) : List Chapter :=
  let info := parseChapterInfo title
  let ms := matchAll chapterPattern content
  if ms.length > 0 then
    (List.range ms.length).map (fun i =>
      let m := ms.getD i ⟨0, [], []⟩
      let chapterNum := parseInt ((m.capture 1).getD [])
      let chapterTitle := trim ((m.capture 2).getD [])
      let startIndex := m.index + m.text.length
      let endIndex :=
        if i < ms.length - 1 then (ms.getD (i + 1) ⟨0, [], []⟩).index else content.length
      let chapterContent := trim (substring content startIndex endIndex)
      { id := chapterNum, volume := info.volume, title := chapterTitle,
        content := chapterContent })
  else
    [{ id := orDefault info.chapterStart 1, volume := info.volume, title := title,
       content := content }]

/-- The list `skipPatterns` of `cleanText`. -/
def skipPatterns : List Regex :=
  [ .cat [.bol, .lit ">> Next Chapter"],
    .cat [.bol, .lit "<< Previous Chapter"],
    .cat [.bol, .lit "Support me"],
    .cat [.bol, .lit "Buy me a coffee"],
    .cat [.bol, .lit "Ko-fi"],
    .cat [.bol, .lit "See all", .eol],
    .cat [.bol, .lit "Terms", .eol],
    .cat [.bol, .lit "Privacy", .eol],
    .cat [.bol, .plus isDigit, .lit " comment", .opt (.chr 115), .eol],
    .cat [.bol, .lit "Share", .eol],
    .cat [.bol, .lit "Like", .eol],
    .cat [.bol, .lit "Your page", .eol] ]

/-- The callback of `lines.filter` in `cleanText`: `true` keeps the line. -/
def keepLine (line : JSString) : Bool :=
  let trimmed := trim line
  if trimmed.length = 0 then false
  else if trimmed.length < 3 then false
  else if skipPatterns.any (fun pattern => test pattern trimmed) then false
  else true

/-- The function `cleanText` of `kofi_scraper.js`. -/
def cleanText (text : JSString) : JSString :=
  let lines := split 10 text
  let lines := lines.filter keepLine
  join [10, 10] lines

/-- Replacement of every occurrence of one code unit: `text.replace(/c/g, by)`. -/
def replaceAll (c : Nat) (by_ : JSString) (text : JSString) : JSString :=
  text.flatMap (fun x => if x = c then by_ else [x])

/-- The function `escapeXML` of `kofi_scraper.js`. -/
def escapeXML (text : JSString) : JSString :=
  replaceAll 39 (js "&apos;")
    (replaceAll 34 (js "&quot;")
      (replaceAll 62 (js "&gt;")
        (replaceAll 60 (js "&lt;")
          (replaceAll 38 (js "&amp;") text))))

/-- The decimal numbers with `k` significant digits next to `x`, below and above,
that convert to the Number `x`: the closer one when both do, the one with the even
last digit when they are equally close. -/
def decimalCandidate (x k : Nat) : Option Nat :=
  let p := 10 ^ ((digitsOf 10 x).length - k)
  let lo := x / p * p
  let hi := lo + p
  if roundToDouble lo = x then
    if roundToDouble hi = x then
      if x - lo < hi - x then some lo
      else if hi - x < x - lo then some hi
      else if (x / p) % 2 = 0 then some lo
      else some hi
    else some lo
  else if roundToDouble hi = x then some hi
  else none

/-- The decimal number that `Number::toString` of ECMA-262 (6.1.6.1.20) writes
for the Number `x`: among the decimal numbers that convert to `x`, one with the
least count of significant digits. Below `2 ^ 53` it is `x` itself. -/
def shortestDecimal (x : Nat) : Nat :=
  ((List.range (digitsOf 10 x).length).findSome? (fun i => decimalCandidate x (i + 1))).getD x

/-- The rendering of a non-negative integer Number in a template literal,
`Number::toString` with radix 10: the digits of the shortest decimal when there
are at most 21 of them, and from `1e21` on the exponent notation. -/
def numberDigits (x : Nat) : JSString :=
  let ds := natToString (shortestDecimal x)
  let n := ds.length
  if n ≤ 21 then ds
  else
    match (ds.reverse.dropWhile (fun c => c == 48)).reverse with
    | [] => ds
    | [c] => c :: (js "e+" ++ natToString (n - 1))
    | c :: rest => c :: 46 :: (rest ++ js "e+" ++ natToString (n - 1))

/-- The function `Number.isSafeInteger` on integers: the absolute value is below
`2 ^ 53`. -/
def isSafeInteger (z : Int) : Bool := decide (z.natAbs < 2 ^ 53)

/-- The rendering of an integer Number in a template literal: the decimal digits
for every safe integer. -/
def intToString (z : Int) : JSString :=
  if z < 0 then 45 :: numberDigits z.natAbs else numberDigits z.natAbs

/-- The text appended to `xml` for one chapter by the loop of `exportToXML`. -/
def chapterXML (chapter : Chapter) : JSString :=
  js "  <chapter number=\"" ++ intToString chapter.id ++ js "\" volume=\"" ++
    intToString chapter.volume ++ js "\">\n" ++
  (js "    <title>" ++ escapeXML chapter.title ++ js "</title>\n") ++
  (js "    <text>" ++ escapeXML chapter.content ++ js "</text>\n") ++
  js "  </chapter>\n"

/-- The function `exportToXML` of `kofi_scraper.js`. -/
def exportToXML (chapters : List Chapter) : JSString :=
  let xml := js "<?xml version=\"1.0\" encoding=\"UTF-8\"?>\n<chapters>\n"
  let xml := chapters.foldl (fun xml chapter => xml ++ chapterXML chapter) xml
  xml ++ js "</chapters>"

/-! ## Declarative reading of the patterns -/

/-- What a pattern can match, without priorities: `Matches r s t` holds when `r`
can take the matcher from state `s` to state `t`. -/
def Matches : Regex → MState → MState → Prop
  | .empty, s, t => t = s
  | .chr c, s, t =>
    ∃ x xs, s.rest = x :: xs ∧ canonicalize x = canonicalize c ∧
      t = ⟨s.endIndex + 1, xs, s.captures⟩
  | .cls p, s, t =>
    ∃ x xs, s.rest = x :: xs ∧ p x = true ∧ t = ⟨s.endIndex + 1, xs, s.captures⟩
  | .seq a b, s, t => ∃ u, Matches a s u ∧ Matches b u t
  | .opt a, s, t => t = s ∨ Matches a s t
  | .star p, s, t =>
    ∃ xs, s.rest = xs ++ t.rest ∧ (∀ x ∈ xs, p x = true) ∧
      t.endIndex = s.endIndex + xs.length ∧ t.captures = s.captures
  | .plus p, s, t =>
    ∃ xs, xs ≠ [] ∧ s.rest = xs ++ t.rest ∧ (∀ x ∈ xs, p x = true) ∧
      t.endIndex = s.endIndex + xs.length ∧ t.captures = s.captures
  | .group n a, s, t =>
    ∃ u, Matches a s u ∧
      t = ⟨u.endIndex, u.rest, (n, s.rest.take (u.endIndex - s.endIndex)) :: u.captures⟩
  | .bol, s, t => s.endIndex = 0 ∧ t = s
  | .eol, s, t => s.rest = [] ∧ t = s

/-- State `t` lies ahead of state `s` in the same input. -/
def Reaches (s t : MState) : Prop :=
  ∃ pre : JSString, s.rest = pre ++ t.rest ∧ t.endIndex = s.endIndex + pre.length

/-- The matches of a list lie in `[lo, hi]`, in order and without overlap. -/
def Ordered (lo hi : Nat) : List MatchResult → Prop
  | [] => True
  | m :: ms =>
    lo ≤ m.index ∧ m.index + m.text.length ≤ hi ∧ Ordered (m.index + m.text.length) hi ms

/-- Equality of two strings up to the case of ASCII letters. -/
def eqIgnoreCase (a b : JSString) : Prop := a.map canonicalize = b.map canonicalize

instance (a b : JSString) : Decidable (eqIgnoreCase a b) := by
  unfold eqIgnoreCase; infer_instance

/-- The text `text` is a heading marker `[Vol. <n>] Chapter <m>: <title-text>` with
chapter number `num` and title text `title`: the words up to case, optional white
space where the pattern allows it, non-empty digit runs and a non-empty title text
without a line break. -/
def IsHeadingMarker (text num title : JSString) : Prop :=
  ∃ vol ws1 n ws2 chap ws3 ws4 : JSString,
    text = vol ++ ws1 ++ n ++ [93] ++ ws2 ++ chap ++ ws3 ++ num ++ [58] ++ ws4 ++ title ∧
    eqIgnoreCase vol (js "[Vol.") ∧ eqIgnoreCase chap (js "Chapter") ∧
    (∀ x ∈ ws1, isWhiteSpace x = true) ∧ (∀ x ∈ ws2, isWhiteSpace x = true) ∧
    (∀ x ∈ ws3, isWhiteSpace x = true) ∧ (∀ x ∈ ws4, isWhiteSpace x = true) ∧
    n ≠ [] ∧ (∀ x ∈ n, isDigit x = true) ∧
    num ≠ [] ∧ (∀ x ∈ num, isDigit x = true) ∧
    title ≠ [] ∧ (∀ x ∈ title, x ≠ 10)

/-- The string `s` starts with the word `w`, up to the case of ASCII letters. -/
def startsWithIgnoreCase : JSString → JSString → Bool
  | [], _ => true
  | _ :: _, [] => false
  | c :: cs, x :: xs => canonicalize x == canonicalize c && startsWithIgnoreCase cs xs

/-- The first position of `s` at which a marker stands, reading `s` from left to
right, with the value of that marker. -/
def firstMarker {α : Type} (marker : JSString → Option α) : JSString → Option α
  | [] => marker []
  | c :: cs =>
    match marker (c :: cs) with
    | some v => some v
    | none => firstMarker marker cs

/-- A volume marker at the start of `s`, in the words of the specification: the
word "Vol" (case-insensitive), an optional period, optional white space and an
integer, which is the value of the marker. -/
def volMarker (s : JSString) : Option Nat :=
  if startsWithIgnoreCase (js "Vol") s then
    let r := s.drop 3
    let r := if r.head? = some 46 then r.tail else r
    let r := r.dropWhile isWhiteSpace
    if r.takeWhile isDigit = [] then none else some (parseInt r)
  else none

/-- A chapter marker at the start of `s`, in the words of the specification: the
word "Chapter" (case-insensitive), optional white space and an integer,
optionally followed by a dash (hyphen or en dash, white space allowed around it)
and a second integer. The value is the first integer and, if present, the
second. -/
def chapterMarker (s : JSString) : Option (Nat × Option Nat) :=
  if startsWithIgnoreCase (js "Chapter") s then
    let r := (s.drop 7).dropWhile isWhiteSpace
    if r.takeWhile isDigit = [] then none
    else
      let r2 := (r.dropWhile isDigit).dropWhile isWhiteSpace
      match r2 with
      | [] => some (parseInt r, none)
      | c :: r3 =>
        if isDash c then
          let r4 := r3.dropWhile isWhiteSpace
          if r4.takeWhile isDigit = [] then some (parseInt r, none)
          else some (parseInt r, some (parseInt r4))
        else some (parseInt r, none)
  else none

/-- The title parser in the words of the specification: the volume is the first
integer following a "Vol" marker and defaults to 1, the chapter range is the
integer following the first "Chapter" marker and the optional second integer. -/
def specChapterInfo (title : JSString) : ChapterInfo :=
  { volume := (firstMarker volMarker title).getD 1
    chapterStart := (firstMarker chapterMarker title).map Prod.fst
    chapterEnd := (firstMarker chapterMarker title).bind Prod.snd }

/-- What `parseChapterInfo` reads off a match of the chapter pattern. -/
def rangeOfMatch (m : MatchResult) : Nat × Option Nat :=
  (parseInt ((m.capture 1).getD []),
    match m.capture 2 with
    | some c => if c.length = 0 then none else some (parseInt c)
    | none => none)

/-- The boilerplate labels that drop a line starting with them (navigation labels
and donation prompts). -/
def startLabels : List JSString :=
  [js ">> Next Chapter", js "<< Previous Chapter", js "Support me", js "Buy me a coffee",
    js "Ko-fi"]

/-- The boilerplate labels that drop a line equal to them (links and buttons). -/
def wholeLabels : List JSString :=
  [js "See all", js "Terms", js "Privacy", js "Share", js "Like", js "Your page"]

/-- A comment counter: a number, one space and the word "comment" or "comments". -/
def isCommentCounter (t : JSString) : Bool :=
  !(t.takeWhile isDigit).isEmpty &&
    (decide (eqIgnoreCase (t.dropWhile isDigit) (js " comment")) ||
      decide (eqIgnoreCase (t.dropWhile isDigit) (js " comments")))

/-- The trimmed line `t` is boilerplate, in the words of the specification: it
starts with a navigation or donation label, or is one of the link and button
labels, or is a comment counter; case is ignored throughout. -/
def isBoilerplate (t : JSString) : Bool :=
  startLabels.any (fun w => startsWithIgnoreCase w t) ||
    wholeLabels.any (fun w => decide (eqIgnoreCase t w)) || isCommentCounter t

/-- The line filter in the words of the specification: a line is kept when its
trimmed form has at least 3 characters and is not boilerplate. -/
def specKeepLine (line : JSString) : Bool :=
  decide (3 ≤ (trim line).length) && !isBoilerplate (trim line)

/-- The trimmed line `t` is a comment counter `<n> comment` or `<n> comments` in
some casing of the word, or some casing of one of the fixed labels. -/
def IsCounterOrLabel (t : JSString) : Prop :=
  (∃ (n : Nat) (w : JSString),
      (eqIgnoreCase w (js "comment") ∨ eqIgnoreCase w (js "comments")) ∧
        t = natToString n ++ 32 :: w) ∨
    (∃ w ∈ startLabels ++ wholeLabels, eqIgnoreCase t w)

/-! ## Reading the exported document back

The reader of the exported file is not part of the sources; the definitions of
this section follow the round-trip property of the specification. -/

/-- Modelled from the spec: standard unescaping of the five predefined XML
entities `&amp;`, `&lt;`, `&gt;`, `&quot;` and `&apos;`, in one pass from left to
right (the reader of the exported file is not among the sources). -/
def unescapeXML : JSString → JSString
  | [] => []
  | c :: rest =>
    if c = 38 then
      match rest with
      | 97 :: 109 :: 112 :: 59 :: r => 38 :: unescapeXML r
      | 108 :: 116 :: 59 :: r => 60 :: unescapeXML r
      | 103 :: 116 :: 59 :: r => 62 :: unescapeXML r
      | 113 :: 117 :: 111 :: 116 :: 59 :: r => 34 :: unescapeXML r
      | 97 :: 112 :: 111 :: 115 :: 59 :: r => 39 :: unescapeXML r
      | r => 38 :: unescapeXML r
    else c :: unescapeXML rest

/-- Modelled from the spec: the reader expects the literal text `w` and returns
what follows it. -/
def expect (w : JSString) (s : JSString) : Option JSString :=
  if s.take w.length = w then some (s.drop w.length) else none

/-- Modelled from the spec: reading a numeric attribute value, an optional minus
sign and a run of digits. -/
def readInt (s : JSString) : Int × JSString :=
  if s.head? = some 45 then (-(decimalValue s.tail : Int), s.tail.dropWhile isDigit)
  else ((decimalValue s : Int), s.dropWhile isDigit)

/-- Modelled from the spec: reading the text content of an element, up to the next
tag, with the entities unescaped. -/
def readText (s : JSString) : JSString × JSString :=
  (unescapeXML (s.takeWhile (fun c => c != 60)), s.dropWhile (fun c => c != 60))

/-- Modelled from the spec: reading one `<chapter>` element, its `number` and
`volume` attributes and the content of its `<title>` and `<text>` children. -/
def readChapter (s : JSString) : Option (Chapter × JSString) :=
  match expect (js "  <chapter number=\"") s with
  | none => none
  | some s1 =>
    match expect (js "\" volume=\"") (readInt s1).2 with
    | none => none
    | some s2 =>
      match expect (js "\">\n    <title>") (readInt s2).2 with
      | none => none
      | some s3 =>
        match expect (js "</title>\n    <text>") (readText s3).2 with
        | none => none
        | some s4 =>
          match expect (js "</text>\n  </chapter>\n") (readText s4).2 with
          | none => none
          | some s5 =>
            some (⟨(readInt s1).1, (readInt s2).1, (readText s3).1, (readText s4).1⟩, s5)

/-- Modelled from the spec: reading `<chapter>` elements up to the closing root
tag; `fuel` bounds the number of elements. -/
def readChapters : Nat → JSString → Option (List Chapter)
  | 0, _ => none
  | fuel + 1, s =>
    if s = js "</chapters>" then some []
    else
      match readChapter s with
      | none => none
      | some (c, rest) =>
        match readChapters fuel rest with
        | none => none
        | some cs => some (c :: cs)

/-- Modelled from the spec: re-parsing an exported document into its chapters. -/
def parseXML (s : JSString) : Option (List Chapter) :=
  match expect (js "<?xml version=\"1.0\" encoding=\"UTF-8\"?>\n<chapters>\n") s with
  | none => none
  | some s1 => readChapters (s1.length + 1) s1

/-- The markup escape of one code unit. -/
def escapeChar (c : Nat) : JSString :=
  if c = 38 then js "&amp;"
  else if c = 60 then js "&lt;"
  else if c = 62 then js "&gt;"
  else if c = 34 then js "&quot;"
  else if c = 39 then js "&apos;"
  else [c]

/-! ## Pages, links and the multi-page walker

The document is modelled by what the script reads from it: the resolved post
title, the text of the content region, and the anchors with their `innerText` and
`href`. `String.prototype.toLowerCase` is a parameter of the definitions. -/

/-- An anchor element: its rendered text and its `href` property. -/
structure Link where
  innerText : JSString
  href : JSString
  deriving DecidableEq, Repr

/-- The shadow root of `.article-host`: the text read from it (the `.fr-view`
inner text, else the root's text content) and its anchors. -/
structure ShadowRoot where
  text : JSString
  links : List Link
  deriving DecidableEq, Repr

/-- The page as the script sees it: `window.location.href`, the post title (first
`h1`, else `h2`, else the document title), the shadow root of `.article-host` when
there is one, the inner text of the fallback container, and the anchors of the
main document. -/
structure Page where
  url : JSString
  postTitle : JSString
  shadow : Option ShadowRoot
  containerText : JSString
  links : List Link
  deriving DecidableEq, Repr

/-- The string `s` starts with `w`. -/
def startsWith : JSString → JSString → Bool
  | [], _ => true
  | _ :: _, [] => false
  | c :: cs, x :: xs => x == c && startsWith cs xs

/-- The method `String.prototype.includes`. -/
def includes : JSString → JSString → Bool
  | [], sub => startsWith sub []
  | c :: cs, sub => startsWith sub (c :: cs) || includes cs sub

/-- The test of both link loops: the lower-cased text includes `next chapter` or
`>> next`. -/
def isNextText (toLowerCase : JSString → JSString) (link : Link) : Bool :=
  let text := toLowerCase link.innerText
  includes text (js "next chapter") || includes text (js ">> next")

/-- The loop over anchors that stops at the first one with a next-chapter text and
yields its `href`; `none` is `null`. -/
def firstNextHref (toLowerCase : JSString → JSString) : List Link → Option JSString
  | [] => none
  | link :: rest =>
    if isNextText toLowerCase link then some link.href else firstNextHref toLowerCase rest

/-- The function `findNextChapterLink` of `kofi_scraper.js`. -/
def findNextChapterLink (toLowerCase : JSString → JSString) (links : List Link) :
    Option JSString :=
  match firstNextHref toLowerCase links with
  | some href => some href
  | none =>
    let postLinks := links.filter (fun l => includes l.href (js "ko-fi.com/post"))
    if postLinks.length > 0 then (postLinks[postLinks.length - 1]?).map Link.href
    else none

/-- Truthiness of a value that is `null` or a string. -/
def truthy (x : Option JSString) : Bool :=
  match x with
  | none => false
  | some s => !s.isEmpty

/-- The object returned by `extractChapterContent` (without the time stamp). -/
structure PageData where
  title : JSString
  url : JSString
  content : JSString
  nextChapterUrl : Option JSString
  deriving DecidableEq, Repr

/-- The function `extractChapterContent` of `kofi_scraper.js`. -/
def extractChapterContent (toLowerCase : JSString → JSString) (page : Page) : PageData :=
  let rawText :=
    match page.shadow with
    | some root => root.text
    | none => page.containerText
  let nextChapterLink :=
    match page.shadow with
    | some root => firstNextHref toLowerCase root.links
    | none => none
  let nextChapterLink :=
    if !truthy nextChapterLink then findNextChapterLink toLowerCase page.links
    else nextChapterLink
  { title := page.postTitle, url := page.url, content := cleanText rawText,
    nextChapterUrl := nextChapterLink }

/-- The lines written to the console. -/
inductive LogMessage where
  | extracting (url : JSString)
  | extracted (count : Nat)
  | chapterLine (id : Int) (title : JSString) (length : Nat)
  | nextChapter (url : JSString)
  | start (count : Nat)
  | processing (index count : Nat)
  | waiting (ms : Nat)
  | noNextLink
  | completed (count : Nat)
  deriving DecidableEq, Repr

/-- The walk state written to the key-value store. -/
structure WalkState where
  currentIndex : Nat
  totalCount : Nat
  chapters : List Chapter
  deriving DecidableEq, Repr

/-- The effects of the script on its host, in the order they are issued. -/
inductive Effect where
  | log (message : LogMessage)
  | delay (ms : Nat)
  | navigate (url : JSString)
  | setItem (key : JSString) (value : WalkState)
  deriving DecidableEq, Repr

/-- The function `scrapeChapter` of `kofi_scraper.js`: the page data, the chapters
and the lines it writes to the console. -/
def scrapeChapter (toLowerCase : JSString → JSString) (page : Page) :
    PageData × List Chapter × List LogMessage :=
  let data := extractChapterContent toLowerCase page
  let chapters := splitIntoChapters data.content data.title
  let messages :=
    [LogMessage.extracting page.url, LogMessage.extracted chapters.length] ++
    chapters.map (fun ch => LogMessage.chapterLine ch.id ch.title ch.content.length) ++
    (if truthy data.nextChapterUrl then
      [LogMessage.nextChapter (data.nextChapterUrl.getD [])] else [])
  (data, chapters, messages)

/-- The value returned by `scrapeMultipleChapters`: the object with `message`,
`chapters` and `nextUrl` returned after navigating, or the object with `chapters`
and `totalChapters`. -/
inductive WalkResult where
  | navigating (chapters : List Chapter) (nextUrl : JSString)
  | finished (chapters : List Chapter) (totalChapters : Nat)
  deriving DecidableEq, Repr

/-- What an invocation finds: the current page and the value stored under
`kofi_scraper_progress`, if any. -/
structure Env where
  page : Page
  stored : Option WalkState
  deriving DecidableEq, Repr

/-- The configured `CONFIG.delayBetweenChapters`. -/
def delayBetweenChapters : Nat := 2000

/-- The `for` loop of `scrapeMultipleChapters`: `fuel` is `count - i`, the number of
iterations left; the page does not change during an invocation. -/
def walkLoop (toLowerCase : JSString → JSString) (env : Env) (count : Nat) :
    Nat → Nat → List Chapter → List Effect → List Effect × WalkResult
  | 0, _, allChapters, effects =>
    (effects ++ [Effect.log (.completed allChapters.length)],
      .finished allChapters allChapters.length)
  | fuel + 1, i, allChapters, effects =>
    let effects := effects ++ [Effect.log (.processing (i + 1) count)]
    let scraped := scrapeChapter toLowerCase env.page
    let data := scraped.1
    let effects := effects ++ scraped.2.2.map Effect.log
    let allChapters := allChapters ++ scraped.2.1
    if truthy data.nextChapterUrl && decide (i < count - 1) then
      (effects ++
        [Effect.log (.waiting delayBetweenChapters), Effect.delay delayBetweenChapters,
          Effect.navigate (data.nextChapterUrl.getD []),
          Effect.setItem (js "kofi_scraper_progress") ⟨i + 1, count, allChapters⟩],
        .navigating allChapters (data.nextChapterUrl.getD []))
    else if !truthy data.nextChapterUrl then
      (effects ++ [Effect.log .noNextLink, Effect.log (.completed allChapters.length)],
        .finished allChapters allChapters.length)
    else walkLoop toLowerCase env count fuel (i + 1) allChapters effects

/-- The function `scrapeMultipleChapters` of `kofi_scraper.js`. -/
def scrapeMultipleChapters (toLowerCase : JSString → JSString) (count : Nat) (env : Env) :
    List Effect × WalkResult :=
  walkLoop toLowerCase env count count 0 [] [Effect.log (.start count)]

/-- The value under `kofi_scraper_progress` after a list of effects. -/
def storeAfter (stored : Option WalkState) : List Effect → Option WalkState
  | [] => stored
  | .setItem _ value :: rest => storeAfter (some value) rest
  | _ :: rest => storeAfter stored rest

/-- A walk: the script is run on a page; when it navigates it is run again, with
the same `count`, on the page it navigated to. The chain lists the pages in the
order the next-chapter links lead through them. -/
def runWalk (toLowerCase : JSString → JSString) (count : Nat) :
    List Page → Option WalkState → List (List Effect × WalkResult)
  | [], _ => []
  | page :: rest, stored =>
    let r := scrapeMultipleChapters toLowerCase count ⟨page, stored⟩
    match r.2 with
    | .navigating _ _ => r :: runWalk toLowerCase count rest (storeAfter stored r.1)
    | .finished _ _ => [r]

/-- The number of pages an invocation extracted: its calls of `scrapeChapter`. -/
def pagesProcessed (effects : List Effect) : Nat :=
  (effects.filter (fun e =>
    match e with
    | .log (.extracting _) => true
    | _ => false)).length

/-- The walk states an invocation wrote to the store, in order. -/
def persisted : List Effect → List WalkState
  | [] => []
  | .setItem _ value :: rest => value :: persisted rest
  | _ :: rest => persisted rest

/-- The navigations an invocation issued, in order. -/
def navigations : List Effect → List JSString
  | [] => []
  | .navigate url :: rest => url :: navigations rest
  | _ :: rest => navigations rest

/-- Some effect satisfying `p` is issued before some effect satisfying `q`. -/
def precedes (p q : Effect → Bool) : List Effect → Bool
  | [] => false
  | e :: rest => (p e && rest.any q) || precedes p q rest

/-- The effect is a write to the key-value store. -/
def Effect.isSetItem : Effect → Bool
  | .setItem _ _ => true
  | _ => false

/-- The effect is a navigation. -/
def Effect.isNavigate : Effect → Bool
  | .navigate _ => true
  | _ => false

/-- The ASCII part of `toLowerCase`, for examples whose link texts are ASCII. -/
def asciiLower (s : JSString) : JSString :=
  s.map (fun c => if 65 ≤ c ∧ c ≤ 90 then c + 32 else c)

/-- The next-chapter link in the words of the specification, with the guard of the
program: the first region anchor with a next-chapter text wins when its
destination is not empty; otherwise the first main-document anchor with such a
text; otherwise the last main-document anchor whose destination contains
`ko-fi.com/post`; otherwise none. -/
def specNextChapterUrl (toLowerCase : JSString → JSString) (regionLinks mainLinks : List Link) :
    Option JSString :=
  let mainSearch :=
    match mainLinks.find? (isNextText toLowerCase) with
    | some link => some link.href
    | none =>
      ((mainLinks.filter (fun l => includes l.href (js "ko-fi.com/post"))).getLast?).map
        Link.href
  match regionLinks.find? (isNextText toLowerCase) with
  | some link => if link.href = [] then mainSearch else some link.href
  | none => mainSearch

/-- The number type of `Math.min` and `Math.max` on integers: an integer or one of
the two infinities. -/
inductive JSNumber where
  | finite (z : Int)
  | posInf
  | negInf
  deriving DecidableEq, Repr

/-- The function `Math.min` on integer arguments: `Infinity` without arguments. -/
def mathMin : List Int → JSNumber
  | [] => .posInf
  | x :: xs => .finite (xs.foldl (fun lowest n => if n < lowest then n else lowest) x)

/-- The function `Math.max` on integer arguments: `-Infinity` without arguments. -/
def mathMax : List Int → JSNumber
  | [] => .negInf
  | x :: xs => .finite (xs.foldl (fun highest n => if n > highest then n else highest) x)

/-- The rendering of a number in a template literal. -/
def numberToString : JSNumber → JSString
  | .finite z => intToString z
  | .posInf => js "Infinity"
  | .negInf => js "-Infinity"

/-- The file name computed by `scrapeAndExport` from `result.chapters`. -/
def exportFilename (chapters : List Chapter) : JSString :=
  let chapterIds := chapters.map (fun c => c.id)
  let minCh := mathMin chapterIds
  let maxCh := mathMax chapterIds
  if minCh = maxCh then js "ch" ++ numberToString minCh ++ js ".vn.txt"
  else js "ch" ++ numberToString minCh ++ js "_" ++ numberToString maxCh ++ js ".vn.txt"

/-- The chapter element of the exported document, in the words of the
specification: the `number` and `volume` attributes, then the title and the text
with each code unit escaped. -/
def chapterElement (c : Chapter) : JSString :=
  js "  <chapter number=\"" ++ intToString c.id ++ js "\" volume=\"" ++ intToString c.volume ++
    js "\">\n" ++
  js "    <title>" ++ c.title.flatMap escapeChar ++ js "</title>\n" ++
  js "    <text>" ++ c.content.flatMap escapeChar ++ js "</text>\n" ++
  js "  </chapter>\n"

/-- The console lines every invocation with `count ≥ 1` starts with: the start line,
the line of the first iteration and the lines of `scrapeChapter`. -/
def invocationPrelude (toLowerCase : JSString → JSString) (count : Nat) (page : Page) :
    List Effect :=
  (LogMessage.start count :: LogMessage.processing 1 count ::
    (scrapeChapter toLowerCase page).2.2).map Effect.log

/-- The chapters extracted from a page. -/
def pageChapters (page : Page) : List Chapter :=
  splitIntoChapters
    (cleanText
      (match page.shadow with
        | some root => root.text
        | none => page.containerText))
    page.postTitle

/-- The `chapters` field of the value returned by `scrapeMultipleChapters`. -/
def WalkResult.chapters : WalkResult → List Chapter
  | .navigating chapters _ => chapters
  | .finished chapters _ => chapters

/-- The chapter list `next` starts with all of `prev`, in order. -/
def carriesOver (prev next : List Chapter) : Bool :=
  decide (next.take prev.length = prev)

/-- Every persisted state of a sequence carries over the chapters of the one
before it. -/
def appendOnly : List WalkState → Bool
  | [] => true
  | [_] => true
  | s1 :: s2 :: rest => carriesOver s1.chapters s2.chapters && appendOnly (s2 :: rest)

/-- An example page: post `k` of a chain, with a next-chapter anchor in the main
document when `hasNext` holds. -/
def examplePage (k : Nat) (hasNext : Bool) : Page :=
  { url := js "https://ko-fi.com/post/" ++ natToString k
    postTitle := js "Chapter " ++ natToString k
    shadow := none
    containerText := js "Text of chapter " ++ natToString k
    links :=
      if hasNext then [⟨js "Next Chapter", js "https://ko-fi.com/post/" ++ natToString (k + 1)⟩]
      else [] }

/-- An example chain with two next-chapter links: three pages, the third without
a next link. -/
def exampleChain : List Page :=
  [examplePage 1 true, examplePage 2 true, examplePage 3 false]

/-! ## Stored state of the reading site

The functions `ProgressManager.getProgress` and `getLastChapter` of `app.js` and
`ReaderSettings.getSettings` of `reader.js`. The parser behind `JSON.parse` is a
parameter: it returns the parsed value, or `none` where `JSON.parse` throws. -/

/-- JavaScript values, as far as the stored state needs them. Numbers are
rationals; the order of the properties of an object is the order of the list. -/
inductive JSValue where
  | undefined : JSValue
  | null : JSValue
  | bool (b : Bool) : JSValue
  | number (q : ℚ) : JSValue
  | string (s : JSString) : JSValue
  | array (items : List JSValue) : JSValue
  | object (fields : List (JSString × JSValue)) : JSValue

/-- Truthiness of a value. -/
def JSValue.truthy : JSValue → Bool
  | .undefined => false
  | .null => false
  | .bool b => b
  | .number q => decide (q ≠ 0)
  | .string s => !s.isEmpty
  | .array _ => true
  | .object _ => true

/-- Property access `value.key` for a key that is not built in. -/
def JSValue.get (value : JSValue) (key : JSString) : JSValue :=
  match value with
  | .object fields =>
    match fields.find? (fun f => f.1 == key) with
    | some f => f.2
    | none => .undefined
  | _ => .undefined

/-- The array index a property key stands for, if any: the key is the decimal
rendering of an integer below `2 ^ 32 - 1`. -/
def arrayIndex (key : JSString) : Option Nat :=
  if !key.isEmpty && key.all isDigit && decide (natToString (decimalValue key) = key) &&
      decide (decimalValue key < 2 ^ 32 - 1) then some (decimalValue key)
  else none

/-- A new array-index key takes its place among the array-index keys, which
precede the other keys in ascending order. -/
def insertIndexKey (i : Nat) (key : JSString) (value : JSValue) :
    List (JSString × JSValue) → List (JSString × JSValue)
  | [] => [(key, value)]
  | f :: rest =>
    match arrayIndex f.1 with
    | some j => if i < j then (key, value) :: f :: rest else f :: insertIndexKey i key value rest
    | none => (key, value) :: f :: rest

/-- Assignment of one property in an object literal, with the properties listed in
the order JavaScript enumerates them: an existing key keeps its place and takes
the new value; a new key that is an array index goes among the array indices, in
ascending order before the other keys; any other new key is added at the end. -/
def setField (fields : List (JSString × JSValue)) (key : JSString) (value : JSValue) :
    List (JSString × JSValue) :=
  if fields.any (fun f => f.1 == key) then
    fields.map (fun f => if f.1 == key then (key, value) else f)
  else
    match arrayIndex key with
    | some i => insertIndexKey i key value fields
    | none => fields ++ [(key, value)]

/-- The own enumerable properties a spread `...value` copies: those of an object,
the indexed elements of an array or string, nothing for the other values. -/
def ownProperties : JSValue → List (JSString × JSValue)
  | .object fields => fields
  | .array items => items.enum.map (fun p => (natToString p.1, p.2))
  | .string s => s.enum.map (fun p => (natToString p.1, JSValue.string [p.2]))
  | _ => []

/-- The spread `...value` inside an object literal that holds `fields` so far. -/
def spread (fields : List (JSString × JSValue)) (value : JSValue) : List (JSString × JSValue) :=
  (ownProperties value).foldl (fun acc p => setField acc p.1 p.2) fields

/-- The call `JSON.parse(localStorage.getItem(key))`: an absent item is `null`,
which `JSON.parse` reads as the text `null`; `none` is a thrown `SyntaxError`. -/
def parseItem (jsonParse : JSString → Option JSValue) (localStorage : JSString → Option JSString)
    (key : JSString) : Option JSValue :=
  match localStorage key with
  | none => jsonParse (js "null")
  | some text => jsonParse text

/-- The constant `BOOK_ID`. -/
def BOOK_ID : JSString := js "max-level-priest"

/-- The method `ProgressManager.getStorageKey`. -/
def getStorageKey : JSString := BOOK_ID ++ js "_progress"

/-- The method `ProgressManager.getProgress` of `app.js`. -/
def getProgress (jsonParse : JSString → Option JSValue)
    (localStorage : JSString → Option JSString) : JSValue :=
  match parseItem jsonParse localStorage getStorageKey with
  | some value => if value.truthy then value else .object []
  | none => .object []

/-- The method `ProgressManager.getLastChapter` of `app.js`. -/
def getLastChapter (jsonParse : JSString → Option JSValue)
    (localStorage : JSString → Option JSString) : JSValue :=
  let progress := getProgress jsonParse localStorage
  if (progress.get (js "lastChapter")).truthy then progress.get (js "lastChapter") else .null

/-- The field `ReaderSettings.storageKey`. -/
def readerSettingsKey : JSString := js "library_readerSettings"

/-- The field `ReaderSettings.defaults`. -/
def defaults : List (JSString × JSValue) :=
  [(js "fontSize", .number 18), (js "lineHeight", .number (9 / 5)), (js "maxWidth", .number 720),
    (js "theme", .string (js "dark"))]

/-- The method `ReaderSettings.getSettings` of `reader.js`. -/
def getSettings (jsonParse : JSString → Option JSValue)
    (localStorage : JSString → Option JSString) : JSValue :=
  match parseItem jsonParse localStorage readerSettingsKey with
  | some saved => .object (spread (spread [] (.object defaults)) saved)
  | none => .object (spread [] (.object defaults))

/-- A parser that reads the text `null` and rejects everything else, for
examples. -/
def parseNullOnly (text : JSString) : Option JSValue :=
  if text = js "null" then some .null else none


/-! ## The book form of the library page

The methods `AddBookManager.generateSlug` and `AddBookManager.saveBookToLibrary`
and `LibraryLoader.loadSavedBooks` of `add-book.js`. The built-ins
`String.prototype.toLowerCase`, `String.prototype.normalize('NFD')` and
`JSON.parse` are parameters; an exception is the `error` of `Except`. -/

/-- The class `[a-z0-9]`. -/
def isSlugChar (c : Nat) : Bool := (97 ≤ c && c ≤ 122) || (48 ≤ c && c ≤ 57)

/-- The class of the combining marks, U+0300 to U+036F. -/
def isCombiningMark (c : Nat) : Bool := 0x300 ≤ c && c ≤ 0x36f

/-- The first `replace` of `generateSlug`, global and with the empty replacement:
the code units of the class of combining marks are removed. -/
def removeMarks (s : JSString) : JSString := s.filter (fun c => !isCombiningMark c)

/-- The call `s.replace(/[^a-z0-9]+/g, '-')` read from left to right: a code unit
outside `[a-z0-9]` starts a match, which the greedy `+` extends over the whole run
of such code units, and the run is replaced by one hyphen. `inRun` holds while
the code units read belong to a run whose hyphen is already written. -/
def hyphenateFrom (inRun : Bool) : JSString → JSString
  | [] => []
  | c :: cs =>
    if isSlugChar c then c :: hyphenateFrom false cs
    else if inRun then hyphenateFrom true cs
    else 45 :: hyphenateFrom true cs

/-- The call `s.replace(/[^a-z0-9]+/g, '-')`. -/
def hyphenate (s : JSString) : JSString := hyphenateFrom false s

/-- The call `s.replace(/^-+|-+$/g, '')`: the first alternative matches the run of
hyphens at index 0, the second the run of hyphens that reaches the end of the
string; both are removed. -/
def stripHyphens (s : JSString) : JSString :=
  ((s.dropWhile (fun c => c == 45)).reverse.dropWhile (fun c => c == 45)).reverse

/-- The method `AddBookManager.generateSlug` of `add-book.js`. -/
def generateSlug (toLowerCase normalizeNFD : JSString → JSString) (title : JSString) :
    JSString :=
  substring
    (stripHyphens
      (hyphenate
        (replaceAll 0x111 (js "d")
          (removeMarks (normalizeNFD (toLowerCase title))))))
    0 50

/-- An ASCII string: every code unit is below 128. -/
def isAscii (s : JSString) : Bool := s.all (fun c => decide (c < 128))

/-- An exception thrown by a built-in. -/
inductive JSError where
  | syntaxError
  | typeError
  deriving DecidableEq, Repr

/-- The operator `===` on the values of this model. Two arrays or two objects are
equal only when they are the same object, which two values read from different
places are not. -/
def strictEquals : JSValue → JSValue → Bool
  | .undefined, .undefined => true
  | .null, .null => true
  | .bool a, .bool b => a == b
  | .number a, .number b => decide (a = b)
  | .string a, .string b => a == b
  | _, _ => false

/-- The expression `localStorage.getItem('library_books') || '[]'`: an absent item
is `null` and the empty string is falsy. -/
def storedBooksText (localStorage : JSString → Option JSString) : JSString :=
  match localStorage (js "library_books") with
  | none => js "[]"
  | some text => if text.isEmpty then js "[]" else text

/-- The book record passed to `saveBookToLibrary`: its slug and its other
properties. -/
structure BookData where
  slug : JSString
  others : List (JSString × JSValue)

/-- The book record as a value. -/
def BookData.toValue (bookData : BookData) : JSValue :=
  .object (bookData.others ++ [(js "slug", .string bookData.slug)])

/-- The call `books.findIndex(b => b.slug === slug) >= 0` on the elements of an
array: reading `b.slug` of `null` or `undefined` throws a `TypeError`; the search
stops at the first hit. -/
def slugExists (slug : JSString) : List JSValue → Except JSError Bool
  | [] => .ok false
  | b :: rest =>
    match b with
    | .null => .error .typeError
    | .undefined => .error .typeError
    | _ => if strictEquals (b.get (js "slug")) (.string slug) then .ok true
      else slugExists slug rest

/-- The method `AddBookManager.saveBookToLibrary` of `add-book.js`, with
`Date.now()` as `now`. The result is the array written under `library_books`; a
parsed value that is not an array has no method `findIndex`, a `TypeError`. -/
def saveBookToLibrary (jsonParse : JSString → Option JSValue)
    (localStorage : JSString → Option JSString) (now : Nat) (bookData : BookData) :
    Except JSError (List JSValue) :=
  match jsonParse (storedBooksText localStorage) with
  | none => .error .syntaxError
  | some (.array books) =>
    match slugExists bookData.slug books with
    | .error e => .error e
    | .ok existing =>
      let bookData : BookData :=
        if existing then { bookData with slug := bookData.slug ++ js "-" ++ natToString now }
        else bookData
      .ok (books ++ [bookData.toValue])
  | some _ => .error .typeError

/-- The method `LibraryLoader.loadSavedBooks` of `add-book.js`. The result is the
list of the records handed to `addBookToGrid`, in order; a parsed value that is
not an array has no method `forEach`, a `TypeError`. -/
def loadSavedBooks (jsonParse : JSString → Option JSValue)
    (localStorage : JSString → Option JSString) : Except JSError (List JSValue) :=
  match jsonParse (storedBooksText localStorage) with
  | none => .error .syntaxError
  | some (.array books) => .ok books
  | some _ => .error .typeError

/-- A parser that reads the texts `null` and `[]` and rejects everything else,
for examples. -/
def parseNullOrEmptyArray (text : JSString) : Option JSValue :=
  if text = js "null" then some .null
  else if text = js "[]" then some (.array [])
  else none
/-! ## The matcher is sound for the declarative reading -/

theorem Reaches.refl (s : MState) : Reaches s s := ⟨[], by simp⟩

theorem Reaches.trans {s t u : MState} (h1 : Reaches s t) (h2 : Reaches t u) : Reaches s u := by
  obtain ⟨p1, e1, l1⟩ := h1
  obtain ⟨p2, e2, l2⟩ := h2
  exact ⟨p1 ++ p2, by simp [e1, e2], by simp [l1, l2]; omega⟩

theorem repeatMatcher_sound (p : Nat → Bool) (k : MState → Option MState)
    (caps : List (Nat × JSString)) (rest : JSString) :
    ∀ (i : Nat) (t : MState), repeatMatcher p k caps i rest = some t →
      ∃ xs ys, rest = xs ++ ys ∧ (∀ x ∈ xs, p x = true) ∧
        k ⟨i + xs.length, ys, caps⟩ = some t := by
  induction rest with
  | nil =>
    intro i t h
    exact ⟨[], [], rfl, by simp, h⟩
  | cons c cs ih =>
    intro i t h
    unfold repeatMatcher at h
    by_cases hp : p c = true
    · simp only [hp, if_true] at h
      cases hr : repeatMatcher p k caps (i + 1) cs with
      | some r =>
        rw [hr] at h
        obtain ⟨xs, ys, hxy, hall, hk⟩ := ih (i + 1) r hr
        refine ⟨c :: xs, ys, by simp [hxy], ?_, ?_⟩
        · intro x hx
          rcases List.mem_cons.mp hx with rfl | hx
          · exact hp
          · exact hall x hx
        · have : i + (c :: xs).length = i + 1 + xs.length := by simp; omega
          rw [this, hk]; exact h
      | none =>
        rw [hr] at h
        exact ⟨[], c :: cs, rfl, by simp, h⟩
    · simp only [hp] at h
      exact ⟨[], c :: cs, rfl, by simp, h⟩

theorem run_sound (r : Regex) :
    ∀ (s : MState) (k : MState → Option MState) (t : MState), run r s k = some t →
      ∃ u, Matches r s u ∧ k u = some t := by
  induction r with
  | empty =>
    intro s k t h
    exact ⟨s, rfl, h⟩
  | chr c =>
    intro s k t h
    obtain ⟨i, rest, caps⟩ := s
    cases rest with
    | nil => simp [run] at h
    | cons x xs =>
      simp only [run] at h
      split at h
      · next hc => exact ⟨_, ⟨x, xs, rfl, hc, rfl⟩, h⟩
      · cases h
  | cls p =>
    intro s k t h
    obtain ⟨i, rest, caps⟩ := s
    cases rest with
    | nil => simp [run] at h
    | cons x xs =>
      simp only [run] at h
      split at h
      · next hc => exact ⟨_, ⟨x, xs, rfl, hc, rfl⟩, h⟩
      · cases h
  | seq a b iha ihb =>
    intro s k t h
    simp only [run] at h
    obtain ⟨u, hu, hk⟩ := iha s _ t h
    obtain ⟨v, hv, hk2⟩ := ihb u k t hk
    exact ⟨v, ⟨u, hu, hv⟩, hk2⟩
  | opt a iha =>
    intro s k t h
    simp only [run] at h
    split at h
    · next r hr =>
      cases h
      obtain ⟨u, hu, hk⟩ := iha s _ _ hr
      refine ⟨u, Or.inr hu, ?_⟩
      split at hk
      · cases hk
      · exact hk
    · exact ⟨s, Or.inl rfl, h⟩
  | star p =>
    intro s k t h
    simp only [run] at h
    obtain ⟨xs, ys, hxy, hall, hk⟩ := repeatMatcher_sound p k s.captures s.rest s.endIndex t h
    exact ⟨⟨s.endIndex + xs.length, ys, s.captures⟩, ⟨xs, hxy, hall, rfl, rfl⟩, hk⟩
  | plus p =>
    intro s k t h
    obtain ⟨i, rest, caps⟩ := s
    cases rest with
    | nil => simp [run] at h
    | cons x xs =>
      simp only [run] at h
      split at h
      · next hp =>
        obtain ⟨ys, zs, hxy, hall, hk⟩ := repeatMatcher_sound p k caps xs (i + 1) t h
        refine ⟨⟨i + 1 + ys.length, zs, caps⟩, ⟨x :: ys, by simp, by simp [hxy], ?_, ?_, rfl⟩, hk⟩
        · intro y hy
          rcases List.mem_cons.mp hy with rfl | hy
          · exact hp
          · exact hall y hy
        · simp; omega
      · cases h
  | group n a iha =>
    intro s k t h
    simp only [run] at h
    obtain ⟨u, hu, hk⟩ := iha s _ t h
    exact ⟨⟨u.endIndex, u.rest, (n, s.rest.take (u.endIndex - s.endIndex)) :: u.captures⟩,
      ⟨u, hu, rfl⟩, hk⟩
  | bol =>
    intro s k t h
    simp only [run] at h
    split at h
    · next h0 => exact ⟨s, ⟨h0, rfl⟩, h⟩
    · cases h
  | eol =>
    intro s k t h
    obtain ⟨i, rest, caps⟩ := s
    cases rest with
    | nil => exact ⟨_, ⟨rfl, rfl⟩, h⟩
    | cons x xs => simp [run] at h

/-- Whatever a pattern matches lies ahead in the same input. -/
theorem Matches.reaches (r : Regex) : ∀ (s t : MState), Matches r s t → Reaches s t := by
  induction r with
  | empty => intro s t h; cases h; exact Reaches.refl _
  | chr c =>
    intro s t h
    obtain ⟨x, xs, hr, -, rfl⟩ := h
    exact ⟨[x], by simp [hr], by simp⟩
  | cls p =>
    intro s t h
    obtain ⟨x, xs, hr, -, rfl⟩ := h
    exact ⟨[x], by simp [hr], by simp⟩
  | seq a b iha ihb =>
    intro s t h
    obtain ⟨u, h1, h2⟩ := h
    exact Reaches.trans (iha _ _ h1) (ihb _ _ h2)
  | opt a iha =>
    intro s t h
    rcases h with rfl | h
    · exact Reaches.refl _
    · exact iha _ _ h
  | star p =>
    intro s t h
    obtain ⟨xs, hr, -, hl, -⟩ := h
    exact ⟨xs, hr, hl⟩
  | plus p =>
    intro s t h
    obtain ⟨xs, -, hr, -, hl, -⟩ := h
    exact ⟨xs, hr, hl⟩
  | group n a iha =>
    intro s t h
    obtain ⟨u, h1, rfl⟩ := h
    exact iha s u h1
  | bol => intro s t h; obtain ⟨-, rfl⟩ := h; exact Reaches.refl _
  | eol => intro s t h; obtain ⟨-, rfl⟩ := h; exact Reaches.refl _

/-- A successful attempt at index `i` comes from a declarative match; it reports
index `i` and a text that starts the input it was given. -/
theorem matchAt_sound {r : Regex} {i : Nat} {input : JSString} {m : MatchResult}
    (h : matchAt r i input = some m) :
    ∃ e, Matches r ⟨i, input, []⟩ e ∧ m.index = i ∧ input = m.text ++ e.rest ∧
      e.endIndex = i + m.text.length ∧ m.captures = e.captures := by
  unfold matchAt at h
  split at h
  · next e he =>
    cases h
    obtain ⟨u, hm, hk⟩ := run_sound r _ _ _ he
    cases hk
    obtain ⟨pre, hpre, hlen⟩ := hm.reaches
    simp only at hpre hlen
    refine ⟨e, hm, rfl, ?_, ?_, rfl⟩
    · simp [hlen, hpre]
    · simp [hlen, hpre]
  · cases h

theorem Ordered.mono {lo lo2 hi : Nat} {ms : List MatchResult} (h : Ordered lo hi ms)
    (hle : lo2 ≤ lo) : Ordered lo2 hi ms := by
  cases ms with
  | nil => trivial
  | cons m ms => exact ⟨le_trans hle h.1, h.2.1, h.2.2⟩

theorem matchAllFrom_ordered (r : Regex) (input : JSString) :
    ∀ (i lastIndex : Nat),
      Ordered (max lastIndex i) (i + input.length) (matchAllFrom r lastIndex i input) := by
  induction input with
  | nil =>
    intro i lastIndex
    unfold matchAllFrom
    split
    · trivial
    · next hlt =>
      split
      · next m hm =>
        obtain ⟨e, -, hi, htext, -, -⟩ := matchAt_sound hm
        have hlen : m.text.length = 0 := by
          have := congrArg List.length htext
          simp at this; omega
        refine ⟨by omega, by simp [hi, hlen], trivial⟩
      · trivial
  | cons c cs ih =>
    intro i lastIndex
    unfold matchAllFrom
    split
    · next hlt =>
      have e1 : i + (c :: cs).length = i + 1 + cs.length := by simp; omega
      rw [e1]
      exact (ih (i + 1) lastIndex).mono (by omega)
    · next hlt =>
      have e1 : i + (c :: cs).length = i + 1 + cs.length := by simp; omega
      split
      · next m hm =>
        obtain ⟨e, -, hi, htext, -, -⟩ := matchAt_sound hm
        have hlen : m.text.length ≤ (c :: cs).length := by
          have := congrArg List.length htext
          simp at this; simp; omega
        refine ⟨by omega, by omega, ?_⟩
        rw [e1]
        refine (ih (i + 1) _).mono ?_
        split <;> omega
      · rw [e1]
        exact (ih (i + 1) lastIndex).mono (by omega)


/-! ## Numbers: digits, the Number value of an integer, and its rendering -/

theorem digitsFrom_eq_digits (b : Nat) (hb : 2 ≤ b) :
    ∀ fuel n : Nat, n ≤ fuel → digitsFrom b fuel n = Nat.digits b n := by
  intro fuel
  induction fuel with
  | zero =>
    intro n hn
    obtain rfl : n = 0 := by omega
    simp [digitsFrom]
  | succ fuel ih =>
    intro n hn
    unfold digitsFrom
    by_cases h0 : n = 0
    · subst h0
      simp
    · simp only [h0, if_false]
      rw [Nat.digits_def' (by omega) (by omega), ih]
      have : n / b < n := Nat.div_lt_self (by omega) (by omega)
      omega

theorem digitsOf_eq_digits (b : Nat) (hb : 2 ≤ b) (n : Nat) : digitsOf b n = Nat.digits b n :=
  digitsFrom_eq_digits b hb n n (le_refl n)

theorem natToString_eq (n : Nat) :
    natToString n = if n = 0 then [48] else ((Nat.digits 10 n).reverse.map (fun d => d + 48)) := by
  unfold natToString
  rw [digitsOf_eq_digits 10 (by norm_num)]

theorem roundToDouble_of_lt {n : Nat} (h : n < 2 ^ 53) : roundToDouble n = n := by
  unfold roundToDouble
  simp only [h, if_true]

theorem roundToDouble_ge {n : Nat} (h : 2 ^ 53 ≤ n) : 2 ^ 53 ≤ roundToDouble n := by
  have hn0 : n ≠ 0 := by
    intro h0
    rw [h0] at h
    simp at h
  have hlog : 53 ≤ Nat.log 2 n := (Nat.pow_le_iff_le_log (by norm_num) hn0).mp h
  have hlen : (digitsOf 2 n).length = Nat.log 2 n + 1 := by
    rw [digitsOf_eq_digits 2 (le_refl 2), Nat.digits_len 2 n (by norm_num) hn0]
  have hpow : 2 ^ Nat.log 2 n ≤ n := Nat.pow_log_le_self 2 hn0
  have he : (digitsOf 2 n).length - 53 = Nat.log 2 n - 52 := by omega
  have hsplit : 2 ^ Nat.log 2 n = 2 ^ 52 * 2 ^ (Nat.log 2 n - 52) := by
    rw [← Nat.pow_add]
    congr 1
    omega
  have hq : 2 ^ 52 ≤ n / 2 ^ (Nat.log 2 n - 52) := by
    rw [Nat.le_div_iff_mul_le (by positivity)]
    rw [← hsplit]
    exact hpow
  have hbase : 2 ^ 53 ≤ n / 2 ^ (Nat.log 2 n - 52) * 2 ^ (Nat.log 2 n - 52) := by
    calc 2 ^ 53 ≤ 2 ^ Nat.log 2 n := Nat.pow_le_pow_right (by norm_num) hlog
      _ = 2 ^ 52 * 2 ^ (Nat.log 2 n - 52) := hsplit
      _ ≤ n / 2 ^ (Nat.log 2 n - 52) * 2 ^ (Nat.log 2 n - 52) := Nat.mul_le_mul_right _ hq
  unfold roundToDouble
  simp only [Nat.not_lt.mpr h, if_false, he]
  split
  · exact hbase
  · exact le_trans hbase (Nat.mul_le_mul_right _ (Nat.le_succ _))

theorem roundToDouble_eq_of_lt {x y : Nat} (h : roundToDouble y = x) (hx : x < 2 ^ 53) :
    y = x := by
  by_cases hy : y < 2 ^ 53
  · rw [roundToDouble_of_lt hy] at h
    exact h
  · have := roundToDouble_ge (Nat.not_lt.mp hy)
    omega

theorem decimalCandidate_sound {x k y : Nat} (h : decimalCandidate x k = some y) :
    roundToDouble y = x := by
  unfold decimalCandidate at h
  simp only at h
  split at h
  · rename_i hlo
    split at h
    · rename_i hhi
      split at h
      · cases h; exact hlo
      · split at h
        · cases h; exact hhi
        · split at h
          · cases h; exact hlo
          · cases h; exact hhi
    · cases h; exact hlo
  · split at h
    · rename_i hhi
      cases h; exact hhi
    · cases h

theorem shortestDecimal_of_lt {x : Nat} (hx : x < 2 ^ 53) : shortestDecimal x = x := by
  unfold shortestDecimal
  cases h : (List.range (digitsOf 10 x).length).findSome? (fun i => decimalCandidate x (i + 1)) with
  | none => rfl
  | some y =>
    obtain ⟨i, -, hi⟩ := List.exists_of_findSome?_eq_some h
    exact roundToDouble_eq_of_lt (decimalCandidate_sound hi) hx

theorem natToString_length_le {x : Nat} (hx : x < 2 ^ 53) : (natToString x).length ≤ 21 := by
  unfold natToString
  split
  · simp
  · rw [List.length_map, List.length_reverse, digitsOf_eq_digits 10 (by norm_num)]
    rename_i h0
    rw [Nat.digits_len 10 x (by norm_num) h0]
    have : Nat.log 10 x < 16 :=
      Nat.log_lt_of_lt_pow h0 (lt_of_lt_of_le hx (by norm_num))
    omega

theorem numberDigits_of_lt {x : Nat} (hx : x < 2 ^ 53) : numberDigits x = natToString x := by
  unfold numberDigits
  simp only [shortestDecimal_of_lt hx, natToString_length_le hx, if_true]

theorem intToString_of_safe {z : Int} (hz : isSafeInteger z = true) :
    intToString z = if z < 0 then 45 :: natToString z.natAbs else natToString z.natAbs := by
  unfold isSafeInteger at hz
  unfold intToString
  rw [numberDigits_of_lt (of_decide_eq_true hz)]
/-! ## The shape of what the patterns match -/

theorem Matches.lit_chars (w : JSString) :
    ∀ (s t : MState), Matches (Regex.cat (w.map Regex.chr)) s t →
      ∃ seg, s.rest = seg ++ t.rest ∧ t.endIndex = s.endIndex + seg.length ∧
        t.captures = s.captures ∧ eqIgnoreCase seg w := by
  induction w with
  | nil =>
    intro s t h
    simp only [List.map, Regex.cat, Matches] at h
    subst h
    exact ⟨[], by simp, by simp, rfl, rfl⟩
  | cons c cs ih =>
    intro s t h
    simp only [List.map, Regex.cat, Matches] at h
    obtain ⟨u, ⟨x, xs, hr, hc, rfl⟩, h2⟩ := h
    obtain ⟨seg, hseg, hlen, hcap, heq⟩ := ih _ _ h2
    simp only at hseg hlen hcap
    refine ⟨x :: seg, by simp [hr, hseg], by simp [hlen]; omega, hcap, ?_⟩
    unfold eqIgnoreCase at heq ⊢
    simp [hc, heq]

theorem Matches.lit (w : String) (s t : MState) (h : Matches (Regex.lit w) s t) :
    ∃ seg, s.rest = seg ++ t.rest ∧ t.endIndex = s.endIndex + seg.length ∧
      t.captures = s.captures ∧ eqIgnoreCase seg (js w) :=
  Matches.lit_chars (js w) s t h

theorem Matches.cat_cons {r : Regex} {rs : List Regex} {s t : MState}
    (h : Matches (Regex.cat (r :: rs)) s t) :
    ∃ u, Matches r s u ∧ Matches (Regex.cat rs) u t := by
  simpa only [Regex.cat, Matches] using h

theorem Matches.cat_nil {s t : MState} (h : Matches (Regex.cat []) s t) : t = s := by
  simpa only [Regex.cat, Matches] using h

theorem Matches.group_plus (n : Nat) (p : Nat → Bool) (s t : MState)
    (h : Matches (.group n (.plus p)) s t) :
    ∃ seg, seg ≠ [] ∧ s.rest = seg ++ t.rest ∧ (∀ x ∈ seg, p x = true) ∧
      t.endIndex = s.endIndex + seg.length ∧ t.captures = (n, seg) :: s.captures := by
  simp only [Matches] at h
  obtain ⟨u, ⟨seg, hne, hr, hall, hl, hc⟩, rfl⟩ := h
  refine ⟨seg, hne, hr, hall, hl, ?_⟩
  simp [hl, hr, hc]

theorem canonicalize_eq_of_not_letter {x c : Nat} (hc : c < 65 ∨ (90 < c ∧ c < 97) ∨ 122 < c)
    (h : canonicalize x = canonicalize c) : x = c := by
  unfold canonicalize at h
  split at h <;> split at h <;> omega

/-- Every match of the heading pattern is a heading marker, and its two captures
are the chapter number and the title text of that marker. -/
theorem chapterPattern_shape {i : Nat} {input : JSString} {m : MatchResult}
    (h : matchAt chapterPattern i input = some m) :
    ∃ num title, m.capture 1 = some num ∧ m.capture 2 = some title ∧
      IsHeadingMarker m.text num title := by
  obtain ⟨e, hm, -, htext, -, hcaps⟩ := matchAt_sound h
  unfold chapterPattern at hm
  obtain ⟨u1, h1, hm⟩ := Matches.cat_cons hm
  obtain ⟨u2, h2, hm⟩ := Matches.cat_cons hm
  obtain ⟨u3, h3, hm⟩ := Matches.cat_cons hm
  obtain ⟨u4, h4, hm⟩ := Matches.cat_cons hm
  obtain ⟨u5, h5, hm⟩ := Matches.cat_cons hm
  obtain ⟨u6, h6, hm⟩ := Matches.cat_cons hm
  obtain ⟨u7, h7, hm⟩ := Matches.cat_cons hm
  obtain ⟨u8, h8, hm⟩ := Matches.cat_cons hm
  obtain ⟨u9, h9, hm⟩ := Matches.cat_cons hm
  obtain ⟨u10, h10, hm⟩ := Matches.cat_cons hm
  obtain ⟨u11, h11, hm⟩ := Matches.cat_cons hm
  have hm := Matches.cat_nil hm
  rw [← hm] at h11
  simp only [Matches] at h2 h3 h4 h5 h7 h9 h10
  obtain ⟨vol, r1, -, c1, q1⟩ := Matches.lit _ _ _ h1
  obtain ⟨ws1, r2, a2, -, c2⟩ := h2
  obtain ⟨n, ne3, r3, a3, -, c3⟩ := h3
  obtain ⟨x4, xs4, r4, q4, rfl⟩ := h4
  obtain ⟨ws2, r5, a5, -, c5⟩ := h5
  obtain ⟨chap, r6, -, c6, q6⟩ := Matches.lit _ _ _ h6
  obtain ⟨ws3, r7, a7, -, c7⟩ := h7
  obtain ⟨num, ne8, r8, a8, -, c8⟩ := Matches.group_plus _ _ _ _ h8
  obtain ⟨x9, xs9, r9, q9, rfl⟩ := h9
  obtain ⟨ws4, r10, a10, -, c10⟩ := h10
  obtain ⟨title, ne11, r11, a11, -, c11⟩ := Matches.group_plus _ _ _ _ h11
  have e4 : x4 = 93 := canonicalize_eq_of_not_letter (by omega) q4
  have e9 : x9 = 58 := canonicalize_eq_of_not_letter (by omega) q9
  subst e4 e9
  simp only at r1 r2 r3 r4 r5 r6 r7 r8 r9 r10 r11 c1 c2 c3 c5 c6 c7 c8 c10 c11
  have hcap : m.captures = [(2, title), (1, num)] := by
    rw [hcaps, c11, c10, c8, c7, c6, c5, c3, c2, c1]
  have hin : input =
      (vol ++ ws1 ++ n ++ [93] ++ ws2 ++ chap ++ ws3 ++ num ++ [58] ++ ws4 ++ title) ++
        e.rest := by
    rw [r1, r2, r3, r4, r5, r6, r7, r8, r9, r10, r11]
    simp
  have htxt : m.text = vol ++ ws1 ++ n ++ [93] ++ ws2 ++ chap ++ ws3 ++ num ++ [58] ++ ws4 ++
      title := by
    rw [htext] at hin
    exact List.append_cancel_right hin
  refine ⟨num, title, by simp [MatchResult.capture, hcap], by simp [MatchResult.capture, hcap],
    vol, ws1, n, ws2, chap, ws3, ws4, htxt, q1, q6, a2, a5, a7, a10, ne3, a3, ne8, a8, ne11, ?_⟩
  intro x hx
  have := a11 x hx
  simpa [notNewline] using this

/-! ## `splitIntoChapters` -/

theorem substring_of_le (s : JSString) {a b : Nat} (hab : a ≤ b) (hb : b ≤ s.length) :
    substring s a b = (s.drop a).take (b - a) := by
  unfold substring
  have h1 : min a s.length = a := by omega
  have h2 : min b s.length = b := by omega
  have h3 : min a b = a := by omega
  have h4 : max a b = b := by omega
  simp only [h1, h2, h3, h4]

theorem Ordered.index {hi : Nat} (ms : List MatchResult) :
    ∀ (lo i : Nat) (m : MatchResult), Ordered lo hi ms → ms[i]? = some m →
      m.index + m.text.length ≤
          (match ms[i + 1]? with
            | some m2 => m2.index
            | none => hi) ∧
        (match ms[i + 1]? with
          | some m2 => m2.index
          | none => hi) ≤ hi := by
  induction ms with
  | nil => intro lo i m _ h; simp at h
  | cons m0 rest ih =>
    intro lo i m ho h
    cases i with
    | zero =>
      simp only [List.getElem?_cons_zero, Option.some.injEq] at h
      subst h
      cases rest with
      | nil => exact ⟨ho.2.1, le_refl _⟩
      | cons m1 rest2 =>
        have h1 := ho.2.2
        simp only [List.getElem?_cons_succ, List.getElem?_cons_zero]
        exact ⟨h1.1, by have := h1.2.1; omega⟩
    | succ j =>
      simp only [List.getElem?_cons_succ] at h ⊢
      exact ih _ j m ho.2.2 h

theorem matchAllFrom_mem (r : Regex) (input : JSString) :
    ∀ (i lastIndex : Nat) (m : MatchResult), m ∈ matchAllFrom r lastIndex i input →
      ∃ k, matchAt r (i + k) (input.drop k) = some m := by
  induction input with
  | nil =>
    intro i lastIndex m hm
    unfold matchAllFrom at hm
    split at hm
    · simp at hm
    · split at hm
      · next m2 h2 =>
        simp only [List.mem_singleton] at hm
        subst hm
        exact ⟨0, by simpa using h2⟩
      · simp at hm
  | cons c cs ih =>
    intro i lastIndex m hm
    have shift : ∀ L, m ∈ matchAllFrom r L (i + 1) cs →
        ∃ k, matchAt r (i + k) ((c :: cs).drop k) = some m := by
      intro L hL
      obtain ⟨k, hk⟩ := ih (i + 1) L m hL
      refine ⟨k + 1, ?_⟩
      have e : i + (k + 1) = i + 1 + k := by omega
      rw [e]
      simpa using hk
    unfold matchAllFrom at hm
    split at hm
    · exact shift _ hm
    · split at hm
      · next m2 h2 =>
        rcases List.mem_cons.mp hm with rfl | hm
        · exact ⟨0, by simpa using h2⟩
        · exact shift _ hm
      · exact shift _ hm

/-- Every match found by `matchAll` is a match attempt that succeeded at its own
index. -/
theorem matchAll_mem {r : Regex} {content : JSString} {m : MatchResult}
    (h : m ∈ matchAll r content) :
    matchAt r m.index (content.drop m.index) = some m := by
  obtain ⟨k, hk⟩ := matchAllFrom_mem r content 0 0 m h
  have := (matchAt_sound hk).choose_spec.2.1
  simp only [Nat.zero_add] at hk this
  rw [this]
  exact hk

theorem matchAll_text {r : Regex} {content : JSString} {m : MatchResult}
    (h : m ∈ matchAll r content) :
    (content.drop m.index).take m.text.length = m.text := by
  obtain ⟨e, -, -, htext, -, -⟩ := matchAt_sound (matchAll_mem h)
  rw [htext]
  simp

theorem matchAll_ordered (r : Regex) (content : JSString) :
    Ordered 0 content.length (matchAll r content) := by
  have := matchAllFrom_ordered r content 0 0
  simpa [matchAll] using this

/-- The chapter built by the loop of `splitIntoChapters` for the `i`-th match. -/
theorem splitIntoChapters_getElem? (content title : JSString) (i : Nat) (m : MatchResult)
    (hm : (matchAll chapterPattern content)[i]? = some m) :
    (splitIntoChapters content title)[i]? = some
      { id := parseInt ((m.capture 1).getD [])
        volume := (parseChapterInfo title).volume
        title := trim ((m.capture 2).getD [])
        content := trim ((content.drop (m.index + m.text.length)).take
          ((match (matchAll chapterPattern content)[i + 1]? with
            | some m2 => m2.index
            | none => content.length) - (m.index + m.text.length))) } := by
  obtain ⟨hi, hget⟩ := List.getElem?_eq_some.mp hm
  have hpos : (matchAll chapterPattern content).length > 0 := by omega
  obtain ⟨h1, h2⟩ := Ordered.index _ 0 i m (matchAll_ordered chapterPattern content) hm
  unfold splitIntoChapters
  simp only [hpos, if_true, List.getElem?_map, List.getElem?_range hi, Option.map_some',
    List.getD_eq_getElem?_getD, hm, Option.getD_some]
  congr 2
  by_cases hlt : i < (matchAll chapterPattern content).length - 1
  · have hi2 : i + 1 < (matchAll chapterPattern content).length := by omega
    have hg : (matchAll chapterPattern content)[i + 1]? =
        some ((matchAll chapterPattern content)[i + 1]) := List.getElem?_eq_getElem hi2
    rw [hg] at h1 h2 ⊢
    simp only [hlt, if_true, Option.getD_some] at h1 h2 ⊢
    rw [substring_of_le content h1 h2]
  · have hi2 : (matchAll chapterPattern content).length ≤ i + 1 := by omega
    have hg : (matchAll chapterPattern content)[i + 1]? = none := List.getElem?_eq_none hi2
    rw [hg] at h1 h2 ⊢
    simp only [hlt, if_false] at h1 h2 ⊢
    rw [substring_of_le content h1 h2]

theorem splitIntoChapters_length (content title : JSString)
    (h : matchAll chapterPattern content ≠ []) :
    (splitIntoChapters content title).length = (matchAll chapterPattern content).length := by
  have hpos : (matchAll chapterPattern content).length > 0 := List.length_pos.mpr h
  unfold splitIntoChapters
  simp only [hpos, if_true, List.length_map, List.length_range]

theorem splitIntoChapters_nil (content title : JSString)
    (h : matchAll chapterPattern content = []) :
    splitIntoChapters content title =
      [{ id := orDefault (parseChapterInfo title).chapterStart 1
         volume := (parseChapterInfo title).volume, title := title, content := content }] := by
  unfold splitIntoChapters
  simp [h]

/-! ## Evaluating the matcher -/

theorem run_cat_cons (r : Regex) (rs : List Regex) (s : MState) (k : MState → Option MState) :
    run (Regex.cat (r :: rs)) s k = run r s (fun s1 => run (Regex.cat rs) s1 k) := rfl

theorem run_cat_nil (s : MState) (k : MState → Option MState) :
    run (Regex.cat []) s k = k s := rfl

theorem run_opt (a : Regex) (s : MState) (k : MState → Option MState) :
    run (.opt a) s k =
      match run a s (fun s1 => if s1.endIndex = s.endIndex then none else k s1) with
      | some r => some r
      | none => k s := rfl

theorem run_lit_chars (w : JSString) :
    ∀ (s : MState) (k : MState → Option MState),
      run (Regex.cat (w.map Regex.chr)) s k =
        if startsWithIgnoreCase w s.rest then
          k ⟨s.endIndex + w.length, s.rest.drop w.length, s.captures⟩
        else none := by
  induction w with
  | nil => intro s k; simp [startsWithIgnoreCase, Regex.cat, run]
  | cons c cs ih =>
    intro s k
    obtain ⟨i, rest, caps⟩ := s
    cases rest with
    | nil => simp [startsWithIgnoreCase, Regex.cat, run]
    | cons x xs =>
      simp only [List.map, Regex.cat, run, startsWithIgnoreCase]
      by_cases hc : canonicalize x = canonicalize c
      · simp only [hc, if_true, ih, beq_self_eq_true, Bool.true_and, List.length_cons,
          List.drop_succ_cons]
        have : i + 1 + cs.length = i + (cs.length + 1) := by omega
        rw [this]
      · simp [hc]

theorem run_lit (w : String) (s : MState) (k : MState → Option MState) :
    run (Regex.lit w) s k =
      if startsWithIgnoreCase (js w) s.rest then
        k ⟨s.endIndex + (js w).length, s.rest.drop (js w).length, s.captures⟩
      else none :=
  run_lit_chars (js w) s k

/-- Greedy choice: when the continuation accepts the longest run, that is the
result. -/
theorem repeatMatcher_greedy (p : Nat → Bool) (k : MState → Option MState)
    (caps : List (Nat × JSString)) (rest : JSString) :
    ∀ (i : Nat) (r : MState),
      k ⟨i + (rest.takeWhile p).length, rest.dropWhile p, caps⟩ = some r →
      repeatMatcher p k caps i rest = some r := by
  induction rest with
  | nil => intro i r h; simpa [repeatMatcher] using h
  | cons c cs ih =>
    intro i r h
    unfold repeatMatcher
    by_cases hp : p c = true
    · simp only [hp, if_true, List.takeWhile_cons_of_pos, List.dropWhile_cons_of_pos,
        List.length_cons] at h ⊢
      have e : i + ((cs.takeWhile p).length + 1) = i + 1 + (cs.takeWhile p).length := by omega
      rw [e] at h
      rw [ih (i + 1) r h]
    · have hp2 : p c = false := by simpa using hp
      simp only [hp2, List.takeWhile_cons, List.dropWhile_cons] at h ⊢
      simpa using h

/-- No choice: when the continuation rejects every state that still starts with
the repeated atom, only the longest run is handed on. -/
theorem repeatMatcher_of_fail (p : Nat → Bool) (k : MState → Option MState)
    (caps : List (Nat × JSString))
    (hk : ∀ (j c : Nat) (cs : JSString), p c = true → k ⟨j, c :: cs, caps⟩ = none)
    (rest : JSString) :
    ∀ (i : Nat),
      repeatMatcher p k caps i rest =
        k ⟨i + (rest.takeWhile p).length, rest.dropWhile p, caps⟩ := by
  induction rest with
  | nil => intro i; simp [repeatMatcher]
  | cons c cs ih =>
    intro i
    unfold repeatMatcher
    by_cases hp : p c = true
    · simp only [hp, if_true, List.takeWhile_cons_of_pos, List.dropWhile_cons_of_pos,
        List.length_cons]
      have e : i + ((cs.takeWhile p).length + 1) = i + 1 + (cs.takeWhile p).length := by omega
      rw [e, ih (i + 1)]
      cases hres : k ⟨i + 1 + (cs.takeWhile p).length, cs.dropWhile p, caps⟩ with
      | some r => rfl
      | none => simp [hk i c cs hp]
    · simp [hp]

theorem takeWhile_eq_nil_cases (p : Nat → Bool) (rest : JSString) (h : rest.takeWhile p = []) :
    rest = [] ∨ ∃ x xs, rest = x :: xs ∧ p x = false := by
  cases rest with
  | nil => exact Or.inl rfl
  | cons x xs =>
    right
    refine ⟨x, xs, rfl, ?_⟩
    by_cases hp : p x = true
    · simp [hp] at h
    · simpa using hp

theorem take_length_takeWhile (p : Nat → Bool) (xs : JSString) :
    xs.take (xs.takeWhile p).length = xs.takeWhile p := by
  induction xs with
  | nil => rfl
  | cons x xs ih =>
    by_cases hp : p x = true
    · simp [hp, ih]
    · have hp2 : p x = false := by simpa using hp
      simp [hp2]

/-- A capturing `(X+)` fails where no `X` stands. -/
theorem run_group_plus_none (n : Nat) (p : Nat → Bool) (s : MState)
    (k : MState → Option MState) (h : s.rest.takeWhile p = []) :
    run (.group n (.plus p)) s k = none := by
  obtain ⟨i, rest, caps⟩ := s
  rcases takeWhile_eq_nil_cases p rest h with rfl | ⟨x, xs, rfl, hp⟩
  · simp [run]
  · simp [run, hp]

/-- A capturing `(X+)` takes the longest run of `X` when the continuation accepts
it, and records that run. -/
theorem run_group_plus_some (n : Nat) (p : Nat → Bool) (s : MState)
    (k : MState → Option MState) (r : MState) (h : s.rest.takeWhile p ≠ [])
    (hk : k ⟨s.endIndex + (s.rest.takeWhile p).length, s.rest.dropWhile p,
      (n, s.rest.takeWhile p) :: s.captures⟩ = some r) :
    run (.group n (.plus p)) s k = some r := by
  obtain ⟨i, rest, caps⟩ := s
  cases rest with
  | nil => simp at h
  | cons x xs =>
    by_cases hp : p x = true
    · simp only [run, hp, if_true]
      apply repeatMatcher_greedy
      simp only [hp, List.takeWhile_cons_of_pos, List.dropWhile_cons_of_pos,
        List.length_cons] at hk
      have e : i + 1 + (xs.takeWhile p).length - i = (xs.takeWhile p).length + 1 := by omega
      have e2 : i + ((xs.takeWhile p).length + 1) = i + 1 + (xs.takeWhile p).length := by omega
      have e3 := take_length_takeWhile p xs
      simp only [e, List.take_succ_cons, e3]
      rw [← e2]
      exact hk
    · simp [hp] at h

/-! ## `parseChapterInfo` -/

theorem isWhiteSpace_not_isDigit {c : Nat} (h : isWhiteSpace c = true) : isDigit c = false := by
  simp only [isWhiteSpace, Bool.or_eq_true, beq_iff_eq, Bool.and_eq_true, decide_eq_true_eq] at h
  simp only [isDigit, Bool.and_eq_false_iff, decide_eq_false_iff_not]
  omega

theorem isWhiteSpace_not_isDash {c : Nat} (h : isWhiteSpace c = true) : isDash c = false := by
  simp only [isWhiteSpace, Bool.or_eq_true, beq_iff_eq, Bool.and_eq_true, decide_eq_true_eq] at h
  simp only [isDash, Bool.or_eq_false_iff, beq_eq_false_iff_ne, ne_eq]
  omega

theorem isDash_not_isDigit {c : Nat} (h : isDash c = true) : isDigit c = false := by
  simp only [isDash, Bool.or_eq_true, beq_iff_eq] at h
  simp only [isDigit, Bool.and_eq_false_iff, decide_eq_false_iff_not]
  omega

theorem isDash_not_isWhiteSpace {c : Nat} (h : isDash c = true) : isWhiteSpace c = false := by
  cases hw : isWhiteSpace c with
  | false => rfl
  | true => rw [isWhiteSpace_not_isDash hw] at h; cases h

theorem parseInt_takeWhile (s : JSString) : parseInt (s.takeWhile isDigit) = parseInt s := by
  unfold parseInt decimalValue
  rw [List.takeWhile_takeWhile]
  simp

theorem execFrom_map {α : Type} (r : Regex) (f : MatchResult → α) (marker : JSString → Option α)
    (h : ∀ i s, (matchAt r i s).map f = marker s) (s : JSString) :
    ∀ i, (execFrom r i s).map f = firstMarker marker s := by
  induction s with
  | nil => intro i; simpa [execFrom, firstMarker] using h i []
  | cons c cs ih =>
    intro i
    have hm := h i (c :: cs)
    unfold execFrom firstMarker
    cases hr : matchAt r i (c :: cs) with
    | some m =>
      rw [hr] at hm
      simp only [Option.map_some'] at hm
      simp [← hm]
    | none =>
      rw [hr] at hm
      simp only [Option.map_none'] at hm
      simp only [← hm]
      exact ih (i + 1)

/-- The continuation `\s*(\d+)` followed by an accepting continuation: white space
is skipped, the longest run of digits is captured. -/
theorem run_space_digits (n : Nat) (t : MState) (k : MState → Option MState) :
    run (.star isWhiteSpace) t (fun u => run (.group n (.plus isDigit)) u k) =
      run (.group n (.plus isDigit))
        ⟨t.endIndex + (t.rest.takeWhile isWhiteSpace).length, t.rest.dropWhile isWhiteSpace,
          t.captures⟩ k := by
  simp only [run]
  apply repeatMatcher_of_fail
  intro j c cs hc
  have := run_group_plus_none n isDigit ⟨j, c :: cs, t.captures⟩ k
    (by simp [isWhiteSpace_not_isDigit hc])
  simpa only [run] using this

theorem run_space_digits_end (n : Nat) (t : MState) :
    run (Regex.cat [.star isWhiteSpace, .group n (.plus isDigit)]) t some =
      if (t.rest.dropWhile isWhiteSpace).takeWhile isDigit = [] then none
      else some
        ⟨t.endIndex + (t.rest.takeWhile isWhiteSpace).length +
            ((t.rest.dropWhile isWhiteSpace).takeWhile isDigit).length,
          (t.rest.dropWhile isWhiteSpace).dropWhile isDigit,
          (n, (t.rest.dropWhile isWhiteSpace).takeWhile isDigit) :: t.captures⟩ := by
  rw [run_cat_cons]
  simp only [run_cat_cons, run_cat_nil]
  rw [run_space_digits]
  split
  · next h => exact run_group_plus_none _ _ _ _ h
  · next h => exact run_group_plus_some _ _ _ _ _ h rfl

/-- The optional period `\.?` in front of a continuation that rejects a period. -/
theorem run_opt_period (t : MState) (k : MState → Option MState)
    (hk : ∀ j xs caps, k ⟨j, 46 :: xs, caps⟩ = none) :
    run (.opt (.chr 46)) t k =
      k (if t.rest.head? = some 46 then ⟨t.endIndex + 1, t.rest.tail, t.captures⟩ else t) := by
  obtain ⟨i, rest, caps⟩ := t
  cases rest with
  | nil => simp [run]
  | cons x xs =>
    by_cases hx : x = 46
    · subst hx
      simp only [run, if_true, List.head?_cons, List.tail_cons]
      have : ¬ (i + 1 = i) := by omega
      simp only [this, if_false]
      cases hr : k ⟨i + 1, xs, caps⟩ with
      | some r => rfl
      | none => simp [hk]
    · have hc : ¬ canonicalize x = canonicalize 46 := fun h =>
        hx (canonicalize_eq_of_not_letter (by omega) h)
      simp [run, hc, hx]

theorem js_Vol : js "Vol" = [86, 111, 108] := by decide

theorem js_Chapter : js "Chapter" = [67, 104, 97, 112, 116, 101, 114] := by decide

/-- One attempt of the volume pattern is the volume marker of the specification. -/
theorem matchAt_volPattern (i : Nat) (s : JSString) :
    (matchAt volPattern i s).map (fun m => parseInt ((m.capture 1).getD [])) = volMarker s := by
  unfold matchAt volPattern volMarker
  rw [run_cat_cons, run_lit]
  by_cases hs : startsWithIgnoreCase (js "Vol") s = true
  · simp only [hs, if_true]
    rw [run_cat_cons, run_opt_period]
    · rw [run_space_digits_end]
      simp only [js_Vol, List.length_cons, List.length_nil, Nat.zero_add, Nat.reduceAdd]
      generalize List.drop 3 s = r
      by_cases h46 : r.head? = some 46
      · simp only [h46, if_true]
        by_cases hd : (r.tail.dropWhile isWhiteSpace).takeWhile isDigit = []
        · simp only [hd, if_true, Option.map_none']
        · simp only [hd, if_false, Option.map_some', MatchResult.capture, List.find?,
            beq_self_eq_true, Option.getD_some, parseInt_takeWhile]
      · simp only [h46, if_false]
        by_cases hd : (r.dropWhile isWhiteSpace).takeWhile isDigit = []
        · simp only [hd, if_true, Option.map_none']
        · simp only [hd, if_false, Option.map_some', MatchResult.capture, List.find?,
            beq_self_eq_true, Option.getD_some, parseInt_takeWhile]
    · intro j xs caps
      rw [run_space_digits_end]
      simp [isWhiteSpace, isDigit]
  · simp [hs]

theorem exec_volPattern (title : JSString) :
    (exec volPattern title).map (fun m => parseInt ((m.capture 1).getD [])) =
      firstMarker volMarker title :=
  execFrom_map volPattern _ volMarker matchAt_volPattern title 0

/-- The optional range tail `(?:\s*[-–]\s*(\d+))?` at the end of the pattern: it is
taken exactly when a dash and a second integer follow. -/
theorem run_range_tail (t : MState) :
    run (Regex.cat [.opt (Regex.cat
        [.star isWhiteSpace, .cls isDash, .star isWhiteSpace, .group 2 (.plus isDigit)])]) t some =
      some
        (match t.rest.dropWhile isWhiteSpace with
          | [] => t
          | c :: r3 =>
            if isDash c then
              if (r3.dropWhile isWhiteSpace).takeWhile isDigit = [] then t
              else
                ⟨t.endIndex + (t.rest.takeWhile isWhiteSpace).length + 1 +
                    (r3.takeWhile isWhiteSpace).length +
                    ((r3.dropWhile isWhiteSpace).takeWhile isDigit).length,
                  (r3.dropWhile isWhiteSpace).dropWhile isDigit,
                  (2, (r3.dropWhile isWhiteSpace).takeWhile isDigit) :: t.captures⟩
            else t) := by
  rw [run_cat_cons]
  simp only [run_cat_nil]
  have body : ∀ k : MState → Option MState,
      run (Regex.cat
        [.star isWhiteSpace, .cls isDash, .star isWhiteSpace, .group 2 (.plus isDigit)]) t k =
      (match t.rest.dropWhile isWhiteSpace with
        | [] => none
        | c :: r3 =>
          if isDash c then
            run (.group 2 (.plus isDigit))
              ⟨t.endIndex + (t.rest.takeWhile isWhiteSpace).length + 1 +
                (r3.takeWhile isWhiteSpace).length, r3.dropWhile isWhiteSpace, t.captures⟩ k
          else none) := by
    intro k
    rw [run_cat_cons]
    have h1 : run (.star isWhiteSpace) t
        (fun s1 => run (Regex.cat [.cls isDash, .star isWhiteSpace, .group 2 (.plus isDigit)]) s1 k) =
        run (Regex.cat [.cls isDash, .star isWhiteSpace, .group 2 (.plus isDigit)])
          ⟨t.endIndex + (t.rest.takeWhile isWhiteSpace).length, t.rest.dropWhile isWhiteSpace,
            t.captures⟩ k := by
      simp only [run]
      apply repeatMatcher_of_fail
      intro j c cs hc
      simp [Regex.cat, run, isWhiteSpace_not_isDash hc]
    rw [h1, run_cat_cons]
    cases hr : t.rest.dropWhile isWhiteSpace with
    | nil => simp [run]
    | cons c r3 =>
      by_cases hd : isDash c = true
      · simp only [hd, if_true]
        have h2 : run (.cls isDash)
            ⟨t.endIndex + (t.rest.takeWhile isWhiteSpace).length, c :: r3, t.captures⟩
            (fun s1 => run (Regex.cat [.star isWhiteSpace, .group 2 (.plus isDigit)]) s1 k) =
            run (Regex.cat [.star isWhiteSpace, .group 2 (.plus isDigit)])
              ⟨t.endIndex + (t.rest.takeWhile isWhiteSpace).length + 1, r3, t.captures⟩ k := by
          simp [run, hd]
        rw [h2, run_cat_cons]
        simp only [run_cat_cons, run_cat_nil]
        rw [run_space_digits]
      · have hd2 : isDash c = false := by simpa using hd
        simp [run, hd2]
  rw [run_opt, body]
  cases hr : t.rest.dropWhile isWhiteSpace with
  | nil => simp
  | cons c r3 =>
    by_cases hd : isDash c = true
    · simp only [hd, if_true]
      by_cases hn : (r3.dropWhile isWhiteSpace).takeWhile isDigit = []
      · rw [run_group_plus_none _ _ _ _ hn]
        simp [hn]
      · rw [run_group_plus_some _ _ _ _ _ hn (by
          simp only
          have : ¬ (t.endIndex + (t.rest.takeWhile isWhiteSpace).length + 1 +
              (r3.takeWhile isWhiteSpace).length +
              ((r3.dropWhile isWhiteSpace).takeWhile isDigit).length = t.endIndex) := by omega
          rw [if_neg this])]
        simp [hn]
    · have hd2 : isDash c = false := by simpa using hd
      simp [hd2]

/-- One attempt of the chapter pattern is the chapter marker of the
specification. -/
theorem matchAt_chapterRangePattern (i : Nat) (s : JSString) :
    (matchAt chapterRangePattern i s).map rangeOfMatch = chapterMarker s := by
  unfold matchAt chapterRangePattern chapterMarker
  rw [run_cat_cons, run_lit]
  by_cases hs : startsWithIgnoreCase (js "Chapter") s = true
  · simp only [hs, if_true]
    rw [run_cat_cons]
    simp only [run_cat_cons (.group 1 (.plus isDigit))]
    rw [run_space_digits]
    simp only [js_Chapter, List.length_cons, List.length_nil, Nat.zero_add, Nat.reduceAdd]
    generalize List.drop 7 s = r0
    by_cases hd : (r0.dropWhile isWhiteSpace).takeWhile isDigit = []
    · rw [run_group_plus_none _ _ _ _ hd]
      simp [hd]
    · rw [run_group_plus_some _ _ _ _ _ hd (run_range_tail _)]
      simp only [hd, if_false, Option.map_some']
      cases hr2 : ((r0.dropWhile isWhiteSpace).dropWhile isDigit).dropWhile isWhiteSpace with
      | nil =>
        simp [rangeOfMatch, MatchResult.capture, List.find?, parseInt_takeWhile]
      | cons c r3 =>
        by_cases hc : isDash c = true
        · simp only [hc, if_true]
          by_cases hd2 : (r3.dropWhile isWhiteSpace).takeWhile isDigit = []
          · simp [hd2, rangeOfMatch, MatchResult.capture, List.find?, parseInt_takeWhile]
          · simp [hd2, rangeOfMatch, MatchResult.capture, List.find?, parseInt_takeWhile]
        · have hc2 : isDash c = false := by simpa using hc
          simp [hc2, rangeOfMatch, MatchResult.capture, List.find?, parseInt_takeWhile]
  · simp [hs]

theorem exec_chapterRangePattern (title : JSString) :
    (exec chapterRangePattern title).map rangeOfMatch = firstMarker chapterMarker title :=
  execFrom_map chapterRangePattern _ chapterMarker matchAt_chapterRangePattern title 0

/-- The title parser of the program is the title parser of the specification. -/
theorem parseChapterInfo_eq_spec (title : JSString) :
    parseChapterInfo title = specChapterInfo title := by
  unfold parseChapterInfo specChapterInfo
  rw [← exec_volPattern, ← exec_chapterRangePattern]
  cases exec volPattern title <;> cases exec chapterRangePattern title <;>
    simp [rangeOfMatch]

theorem firstMarker_none {α : Type} (marker : JSString → Option α) (s : JSString) :
    (∀ k, k ≤ s.length → marker (s.drop k) = none) → firstMarker marker s = none := by
  induction s with
  | nil => intro h; simpa [firstMarker] using h 0 (le_refl _)
  | cons c cs ih =>
    intro h
    have h0 := h 0 (Nat.zero_le _)
    simp only [List.drop_zero] at h0
    unfold firstMarker
    rw [h0]
    apply ih
    intro k hk
    have := h (k + 1) (by simp; omega)
    simpa using this

theorem firstMarker_first {α : Type} (marker : JSString → Option α) (s : JSString) :
    ∀ (k : Nat) (v : α), marker (s.drop k) = some v →
      (∀ j, j < k → marker (s.drop j) = none) → firstMarker marker s = some v := by
  induction s with
  | nil => intro k v h _; simpa [firstMarker] using h
  | cons c cs ih =>
    intro k v h hlt
    cases k with
    | zero =>
      simp only [List.drop_zero] at h
      unfold firstMarker
      rw [h]
    | succ k =>
      have h0 := hlt 0 (Nat.succ_pos _)
      simp only [List.drop_zero] at h0
      unfold firstMarker
      rw [h0]
      apply ih k v
      · simpa using h
      · intro j hj
        have := hlt (j + 1) (by omega)
        simpa using this

/-! ## Titles of the shape `[Vol. v] Chapter a-b: text` -/

theorem natToString_isDigit (n : Nat) : ∀ x ∈ natToString n, isDigit x = true := by
  intro x hx
  rw [natToString_eq] at hx
  split at hx
  · simp only [List.mem_singleton] at hx
    subst hx
    decide
  · simp only [List.mem_map, List.mem_reverse] at hx
    obtain ⟨d, hd, rfl⟩ := hx
    have := Nat.digits_lt_base (by norm_num : 1 < 10) hd
    simp only [isDigit, Bool.and_eq_true, decide_eq_true_eq]
    omega

theorem natToString_ne_nil (n : Nat) : natToString n ≠ [] := by
  rw [natToString_eq]
  split
  · simp
  · next h =>
    simp only [ne_eq, List.map_eq_nil_iff, List.reverse_eq_nil_iff]
    exact Nat.digits_ne_nil_iff_ne_zero.mpr h

theorem foldr_digits (L : List Nat) :
    L.foldr (fun d acc => acc * 10 + d) 0 = Nat.ofDigits 10 L := by
  induction L with
  | nil => rfl
  | cons d L ih =>
    simp only [List.foldr_cons, ih, Nat.ofDigits_cons]
    omega

theorem foldl_natToString (n : Nat) :
    (natToString n).foldl (fun acc c => acc * 10 + (c - 48)) 0 = n := by
  rw [natToString_eq]
  split
  · next h => simp [h]
  · rw [List.foldl_map, List.foldl_reverse]
    simp only [Nat.add_sub_cancel]
    rw [foldr_digits, Nat.ofDigits_digits]

theorem dropWhile_of_takeWhile_nil (p : Nat → Bool) (R : JSString) (h : R.takeWhile p = []) :
    R.dropWhile p = R := by
  have := List.takeWhile_append_dropWhile p R
  rw [h] at this
  simpa using this

theorem takeWhile_nil_append (p : Nat → Bool) (W R : JSString) (hW : ∀ x ∈ W, p x = false)
    (hR : R.takeWhile p = []) : (W ++ R).takeWhile p = [] := by
  cases W with
  | nil => simpa using hR
  | cons w W => simp [hW w (List.mem_cons_self _ _)]

theorem takeWhile_natToString (n : Nat) (R : JSString) (hR : R.takeWhile isDigit = []) :
    (natToString n ++ R).takeWhile isDigit = natToString n := by
  rw [List.takeWhile_append_of_pos (natToString_isDigit n), hR]
  simp

theorem dropWhile_natToString (n : Nat) (R : JSString) (hR : R.takeWhile isDigit = []) :
    (natToString n ++ R).dropWhile isDigit = R := by
  rw [List.dropWhile_append_of_pos (natToString_isDigit n)]
  exact dropWhile_of_takeWhile_nil _ _ hR

theorem decimalValue_natToString (n : Nat) (R : JSString) (hR : R.takeWhile isDigit = []) :
    decimalValue (natToString n ++ R) = n := by
  unfold decimalValue
  rw [takeWhile_natToString n R hR, foldl_natToString]

theorem parseInt_natToString (n : Nat) (hn : n < 2 ^ 53) (R : JSString)
    (hR : R.takeWhile isDigit = []) :
    parseInt (natToString n ++ R) = n := by
  unfold parseInt
  rw [decimalValue_natToString n R hR, roundToDouble_of_lt hn]

theorem takeWhile_isWhiteSpace_natToString (n : Nat) (R : JSString) :
    (natToString n ++ R).takeWhile isWhiteSpace = [] := by
  cases h : natToString n with
  | nil => exact absurd h (natToString_ne_nil n)
  | cons d D =>
    have hd : isDigit d = true := natToString_isDigit n d (by rw [h]; exact List.mem_cons_self _ _)
    have hw : isWhiteSpace d = false := by
      cases hw : isWhiteSpace d with
      | false => rfl
      | true => rw [isWhiteSpace_not_isDigit hw] at hd; cases hd
    simp [hw]

/-- White space, then a number: skipping the white space leaves the number. -/
theorem dropWhile_space_natToString (W : JSString) (n : Nat) (R : JSString)
    (hW : ∀ x ∈ W, isWhiteSpace x = true) :
    (W ++ (natToString n ++ R)).dropWhile isWhiteSpace = natToString n ++ R := by
  rw [List.dropWhile_append_of_pos hW]
  exact dropWhile_of_takeWhile_nil _ _ (takeWhile_isWhiteSpace_natToString n R)

theorem volMarker_value (v : Nat) (hv : v < 2 ^ 53) (W R : JSString)
    (hW : ∀ x ∈ W, isWhiteSpace x = true) (hR : R.takeWhile isDigit = []) :
    volMarker (86 :: 111 :: 108 :: 46 :: (W ++ (natToString v ++ R))) = some v := by
  have h1 : startsWithIgnoreCase (js "Vol")
      (86 :: 111 :: 108 :: 46 :: (W ++ (natToString v ++ R))) = true := by
    simp [js_Vol, startsWithIgnoreCase]
  unfold volMarker
  simp only [h1, if_true, List.drop_succ_cons, List.drop_zero, List.head?_cons, List.tail_cons]
  rw [dropWhile_space_natToString W v R hW, takeWhile_natToString v R hR,
    parseInt_natToString v hv R hR]
  simp [natToString_ne_nil]

theorem chapterMarker_value (a b : Nat) (ha : a < 2 ^ 53) (hb : b < 2 ^ 53)
    (W0 W1 W2 R : JSString) (dash : Nat)
    (h0 : ∀ x ∈ W0, isWhiteSpace x = true) (h1 : ∀ x ∈ W1, isWhiteSpace x = true)
    (h2 : ∀ x ∈ W2, isWhiteSpace x = true) (hdash : isDash dash = true)
    (hR : R.takeWhile isDigit = []) :
    chapterMarker (67 :: 104 :: 97 :: 112 :: 116 :: 101 :: 114 ::
      (W0 ++ (natToString a ++ (W1 ++ (dash :: (W2 ++ (natToString b ++ R))))))) =
      some (a, some b) := by
  have hs : startsWithIgnoreCase (js "Chapter") (67 :: 104 :: 97 :: 112 :: 116 :: 101 :: 114 ::
      (W0 ++ (natToString a ++ (W1 ++ (dash :: (W2 ++ (natToString b ++ R))))))) = true := by
    simp [js_Chapter, startsWithIgnoreCase]
  have hR1 : (W1 ++ (dash :: (W2 ++ (natToString b ++ R)))).takeWhile isDigit = [] := by
    apply takeWhile_nil_append
    · intro x hx; exact isWhiteSpace_not_isDigit (h1 x hx)
    · simp [isDash_not_isDigit hdash]
  have hdrop : (W1 ++ (dash :: (W2 ++ (natToString b ++ R)))).dropWhile isWhiteSpace =
      dash :: (W2 ++ (natToString b ++ R)) := by
    rw [List.dropWhile_append_of_pos h1]
    simp [isDash_not_isWhiteSpace hdash]
  unfold chapterMarker
  simp only [hs, if_true, List.drop_succ_cons, List.drop_zero]
  rw [dropWhile_space_natToString W0 a _ h0, takeWhile_natToString a _ hR1,
    parseInt_natToString a ha _ hR1, dropWhile_natToString a _ hR1, hdrop]
  simp only [natToString_ne_nil, if_false, hdash, if_true]
  rw [dropWhile_space_natToString W2 b R h2, takeWhile_natToString b R hR,
    parseInt_natToString b hb R hR]
  simp [natToString_ne_nil]

theorem chapterMarker_none_of_head {x : Nat} (xs : JSString) (h1 : x ≠ 67) (h2 : x ≠ 99) :
    chapterMarker (x :: xs) = none := by
  have : startsWithIgnoreCase (js "Chapter") (x :: xs) = false := by
    have hc : canonicalize x ≠ canonicalize 67 := by
      unfold canonicalize
      split <;> simp <;> omega
    simp [js_Chapter, startsWithIgnoreCase, hc]
  simp [chapterMarker, this]

/-- A chapter marker is not found inside a stretch without the letter `c`. -/
theorem firstMarker_chapterMarker_skip (pre post : JSString) (x0 : Nat)
    (h : ∀ x ∈ pre, x ≠ 67 ∧ x ≠ 99) :
    firstMarker chapterMarker (pre ++ x0 :: post) = firstMarker chapterMarker (x0 :: post) := by
  induction pre with
  | nil => rfl
  | cons x pre ih =>
    have hx := h x (List.mem_cons_self _ _)
    simp only [List.cons_append]
    unfold firstMarker
    rw [chapterMarker_none_of_head _ hx.1 hx.2]
    simp only
    rw [ih (fun y hy => h y (List.mem_cons_of_mem _ hy))]
    rfl

theorem js_volOpen : js "[Vol. " = [91, 86, 111, 108, 46, 32] := by decide

theorem js_chapterOpen : js "] Chapter " = [93, 32, 67, 104, 97, 112, 116, 101, 114, 32] := by
  decide

theorem js_colon : js ": " = [58, 32] := by decide

theorem specChapterInfo_range (v a b : Nat) (hv : v < 2 ^ 53) (ha : a < 2 ^ 53)
    (hb : b < 2 ^ 53) (ws1 ws2 text : JSString) (dash : Nat)
    (hdash : dash = 45 ∨ dash = 0x2013)
    (h1 : ∀ x ∈ ws1, isWhiteSpace x = true) (h2 : ∀ x ∈ ws2, isWhiteSpace x = true) :
    specChapterInfo
      (js "[Vol. " ++ natToString v ++ js "] Chapter " ++ natToString a ++ ws1 ++ [dash] ++ ws2 ++
        natToString b ++ js ": " ++ text) = ⟨v, some a, some b⟩ := by
  have hd : isDash dash = true := by
    rcases hdash with rfl | rfl <;> decide
  have hsp : ∀ x ∈ [32], isWhiteSpace x = true := by
    intro x hx
    simp only [List.mem_singleton] at hx
    subst hx
    decide
  have hvol : firstMarker volMarker
      (js "[Vol. " ++ natToString v ++ js "] Chapter " ++ natToString a ++ ws1 ++ [dash] ++ ws2 ++
        natToString b ++ js ": " ++ text) = some v := by
    apply firstMarker_first volMarker _ 1 v
    · have := volMarker_value v hv [32]
        (93 :: 32 :: 67 :: 104 :: 97 :: 112 :: 116 :: 101 :: 114 :: 32 ::
          (natToString a ++ (ws1 ++ (dash :: (ws2 ++ (natToString b ++ (58 :: 32 :: text)))))))
        hsp (by simp [isDigit])
      simpa [js_volOpen, js_chapterOpen, js_colon] using this
    · intro j hj
      have : j = 0 := by omega
      subst this
      simp [js_volOpen, volMarker, js_Vol, startsWithIgnoreCase, canonicalize]
  have hch : firstMarker chapterMarker
      (js "[Vol. " ++ natToString v ++ js "] Chapter " ++ natToString a ++ ws1 ++ [dash] ++ ws2 ++
        natToString b ++ js ": " ++ text) = some (a, some b) := by
    have e : js "[Vol. " ++ natToString v ++ js "] Chapter " ++ natToString a ++ ws1 ++ [dash] ++ ws2 ++
        natToString b ++ js ": " ++ text =
        ([91, 86, 111, 108, 46, 32] ++ natToString v ++ [93, 32]) ++ 67 ::
          (104 :: 97 :: 112 :: 116 :: 101 :: 114 ::
            ([32] ++ (natToString a ++ (ws1 ++ (dash :: (ws2 ++ (natToString b ++
              (58 :: 32 :: text)))))))) := by
      simp [js_volOpen, js_chapterOpen, js_colon]
    rw [e, firstMarker_chapterMarker_skip]
    · unfold firstMarker
      rw [chapterMarker_value a b ha hb [32] ws1 ws2 (58 :: 32 :: text) dash hsp h1 h2 hd
        (by simp [isDigit])]
    · intro x hx
      simp only [List.mem_append, List.mem_cons, List.mem_singleton, List.not_mem_nil,
        or_false] at hx
      rcases hx with (hx | hx) | hx
      · omega
      · have := natToString_isDigit v x hx
        simp only [isDigit, Bool.and_eq_true, decide_eq_true_eq] at this
        omega
      · omega
  unfold specChapterInfo
  rw [hvol, hch]
  rfl

/-! ## `cleanText`: lines and the double line break -/

theorem split_ne_nil (sep : Nat) (s : JSString) : split sep s ≠ [] := by
  cases s with
  | nil => simp [split]
  | cons c cs =>
    unfold split
    split
    · simp
    · split <;> simp

theorem split_cons_sep (sep : Nat) (cs : JSString) :
    split sep (sep :: cs) = [] :: split sep cs := by
  rw [split]; simp

theorem split_cons_of_ne {sep c : Nat} {cs l : JSString} {ls : List JSString} (h : c ≠ sep)
    (hs : split sep cs = l :: ls) : split sep (c :: cs) = (c :: l) :: ls := by
  rw [split]; simp [h, hs]

theorem mem_intersperse_cases {α : Type} (sep x : α) (ls : List α)
    (h : x ∈ List.intersperse sep ls) : x = sep ∨ x ∈ ls := by
  induction ls with
  | nil => simp at h
  | cons l ls ih =>
    cases ls with
    | nil => simp at h; exact Or.inr (by simp [h])
    | cons l2 ls =>
      simp only [List.intersperse, List.mem_cons] at h
      rcases h with rfl | rfl | h
      · exact Or.inr (List.mem_cons_self _ _)
      · exact Or.inl rfl
      · rcases ih (by simpa [List.intersperse] using h) with h | h
        · exact Or.inl h
        · exact Or.inr (List.mem_cons_of_mem _ h)

theorem split_of_not_mem (sep : Nat) (l : JSString) (h : sep ∉ l) : split sep l = [l] := by
  induction l with
  | nil => rfl
  | cons c cs ih =>
    have hc : c ≠ sep := fun e => h (by simp [e])
    have hcs : sep ∉ cs := fun e => h (List.mem_cons_of_mem _ e)
    exact split_cons_of_ne hc (ih hcs)

theorem split_append_sep (sep : Nat) (l rest : JSString) (h : sep ∉ l) :
    split sep (l ++ sep :: rest) = l :: split sep rest := by
  induction l with
  | nil => exact split_cons_sep sep rest
  | cons c cs ih =>
    have hc : c ≠ sep := fun e => h (by simp [e])
    have hcs : sep ∉ cs := fun e => h (List.mem_cons_of_mem _ e)
    simp only [List.cons_append]
    exact split_cons_of_ne hc (ih hcs)

/-- No line produced by `split` contains the separator. -/
theorem split_not_mem (sep : Nat) (s : JSString) : ∀ l ∈ split sep s, sep ∉ l := by
  induction s with
  | nil => intro l hl; simp [split] at hl; simp [hl]
  | cons c cs ih =>
    intro l hl
    unfold split at hl
    split at hl
    · rcases List.mem_cons.mp hl with rfl | hl
      · simp
      · exact ih l hl
    · next hc =>
      split at hl
      · next hnil => exact absurd hnil (split_ne_nil sep cs)
      · next l0 ls hsplit =>
        rcases List.mem_cons.mp hl with rfl | hl
        · have h0 : sep ∉ l0 := ih l0 (by rw [hsplit]; exact List.mem_cons_self _ _)
          intro hmem
          rcases List.mem_cons.mp hmem with e | hmem
          · exact hc e.symm
          · exact h0 hmem
        · exact ih l (by rw [hsplit]; exact List.mem_cons_of_mem _ hl)

/-- Splitting a double-line-break join of lines without line breaks gives the lines
back with one empty line between each two of them. -/
theorem split_join (ls : List JSString) (hne : ls ≠ []) (h : ∀ l ∈ ls, 10 ∉ l) :
    split 10 (join [10, 10] ls) = List.intersperse [] ls := by
  induction ls with
  | nil => exact absurd rfl hne
  | cons l ls ih =>
    cases ls with
    | nil =>
      simp only [join, List.intersperse_single]
      exact split_of_not_mem 10 l (h l (List.mem_cons_self _ _))
    | cons l2 ls =>
      have hl : 10 ∉ l := h l (List.mem_cons_self _ _)
      have ih2 := ih (by simp) (fun x hx => h x (List.mem_cons_of_mem _ hx))
      have e : join [10, 10] (l :: l2 :: ls) = l ++ 10 :: (10 :: join [10, 10] (l2 :: ls)) := by
        simp [join]
      rw [e, split_append_sep 10 l _ hl]
      rw [split_cons_sep, ih2]
      simp [List.intersperse]

theorem cleanText_lines (text : JSString) :
    ∀ line ∈ split 10 (cleanText text),
      line = [] ∨ (line ∈ split 10 text ∧ keepLine line = true) := by
  intro line hline
  unfold cleanText at hline
  simp only at hline
  by_cases hne : (split 10 text).filter keepLine = []
  · rw [hne] at hline
    simp [join, split] at hline
    exact Or.inl hline
  · rw [split_join _ hne (fun l hl => split_not_mem 10 text l (List.mem_filter.mp hl).1)] at hline
    rcases mem_intersperse_cases _ _ _ hline with h | h
    · exact Or.inl h
    · exact Or.inr (List.mem_filter.mp h)

theorem keepLine_length {line : JSString} (h : keepLine line = true) :
    3 ≤ (trim line).length := by
  unfold keepLine at h
  simp only at h
  split at h
  · cases h
  · split at h
    · cases h
    · omega

/-! ## `cleanText`: the boilerplate patterns -/

theorem execFrom_bol (rs : List Regex) (s : JSString) :
    ∀ i, 0 < i → execFrom (Regex.cat (.bol :: rs)) i s = none := by
  have hm : ∀ i (t : JSString), 0 < i → matchAt (Regex.cat (.bol :: rs)) i t = none := by
    intro i t hi
    have : ¬ (i = 0) := by omega
    simp [matchAt, run_cat_cons, run, this]
  induction s with
  | nil => intro i hi; simp [execFrom, hm i [] hi]
  | cons c cs ih =>
    intro i hi
    unfold execFrom
    rw [hm i _ hi]
    exact ih (i + 1) (by omega)

/-- A pattern anchored by `^` is tested at index 0 only. -/
theorem test_bol (rs : List Regex) (t : JSString) :
    test (Regex.cat (.bol :: rs)) t = (run (Regex.cat rs) ⟨0, t, []⟩ some).isSome := by
  have hm : (matchAt (Regex.cat (.bol :: rs)) 0 t).isSome =
      (run (Regex.cat rs) ⟨0, t, []⟩ some).isSome := by
    simp only [matchAt, run_cat_cons, run, if_true]
    cases run (Regex.cat rs) ⟨0, t, []⟩ some <;> rfl
  unfold test exec
  cases t with
  | nil => simpa [execFrom] using hm
  | cons c cs =>
    unfold execFrom
    rw [execFrom_bol rs cs 1 (by omega)]
    rw [← hm]
    cases matchAt (Regex.cat (.bol :: rs)) 0 (c :: cs) <;> rfl

theorem eqIgnoreCase_append (w w2 : JSString) :
    ∀ r : JSString, eqIgnoreCase r (w ++ w2) ↔
      (startsWithIgnoreCase w r = true ∧ eqIgnoreCase (r.drop w.length) w2) := by
  induction w with
  | nil => intro r; simp [startsWithIgnoreCase]
  | cons c w ih =>
    intro r
    cases r with
    | nil => simp [eqIgnoreCase, startsWithIgnoreCase]
    | cons x xs =>
      have := ih xs
      unfold eqIgnoreCase at this ⊢
      simp only [List.cons_append, List.map_cons, List.cons.injEq, startsWithIgnoreCase,
        Bool.and_eq_true, beq_iff_eq, List.length_cons, List.drop_succ_cons]
      rw [this]
      tauto

theorem eqIgnoreCase_nil (r : JSString) : eqIgnoreCase r [] ↔ r = [] := by
  simp [eqIgnoreCase]

theorem eqIgnoreCase_iff (w r : JSString) :
    eqIgnoreCase r w ↔ (startsWithIgnoreCase w r = true ∧ r.drop w.length = []) := by
  have := eqIgnoreCase_append w [] r
  simpa [eqIgnoreCase_nil] using this

theorem test_start (w : String) (t : JSString) :
    test (Regex.cat [.bol, .lit w]) t = startsWithIgnoreCase (js w) t := by
  rw [test_bol, run_cat_cons, run_lit]
  simp only [run_cat_nil]
  cases startsWithIgnoreCase (js w) t <;> simp

theorem test_whole (w : String) (t : JSString) :
    test (Regex.cat [.bol, .lit w, .eol]) t = decide (eqIgnoreCase t (js w)) := by
  rw [test_bol, run_cat_cons, run_lit]
  simp only [run_cat_cons, run_cat_nil]
  have hiff := eqIgnoreCase_iff (js w) t
  cases hs : startsWithIgnoreCase (js w) t with
  | false =>
    simp only [hs, Bool.false_eq_true, false_and, iff_false] at hiff
    simp [hiff]
  | true =>
    simp only [hs, true_and] at hiff
    simp only [if_true]
    cases hd : List.drop (js w).length t with
    | nil =>
      have : eqIgnoreCase t (js w) := hiff.mpr hd
      simp [run, this]
    | cons x xs =>
      have : ¬ eqIgnoreCase t (js w) := fun h => by
        rw [hiff.mp h] at hd
        cases hd
      simp [run, this]

/-- The quantifier `X+` in front of a continuation that rejects every state starting with `X`:
only the longest run is handed on. -/
theorem run_plus_of_fail (p : Nat → Bool) (s : MState) (k : MState → Option MState)
    (hk : ∀ (j c : Nat) (cs : JSString), p c = true → k ⟨j, c :: cs, s.captures⟩ = none) :
    run (.plus p) s k =
      if s.rest.takeWhile p = [] then none
      else k ⟨s.endIndex + (s.rest.takeWhile p).length, s.rest.dropWhile p, s.captures⟩ := by
  obtain ⟨i, rest, caps⟩ := s
  cases rest with
  | nil => simp [run]
  | cons x xs =>
    by_cases hp : p x = true
    · simp only [run, hp, if_true, List.takeWhile_cons_of_pos, List.dropWhile_cons_of_pos,
        List.length_cons]
      rw [repeatMatcher_of_fail p k caps hk xs (i + 1)]
      have e : i + ((xs.takeWhile p).length + 1) = i + 1 + (xs.takeWhile p).length := by omega
      simp [e]
    · have hp2 : p x = false := by simpa using hp
      simp [run, hp2]

theorem js_comment : js " comment" = [32, 99, 111, 109, 109, 101, 110, 116] := by decide

theorem js_comments : js " comments" = js " comment" ++ [115] := by decide

/-- The end of the counter pattern, `s?$`. -/
theorem run_plural_end (u : MState) :
    (run (Regex.cat [.opt (.chr 115), .eol]) u some).isSome =
      (decide (eqIgnoreCase u.rest []) || decide (eqIgnoreCase u.rest [115])) := by
  obtain ⟨i, rest, caps⟩ := u
  rw [run_cat_cons, run_opt]
  simp only [run_cat_cons, run_cat_nil]
  cases rest with
  | nil => simp [run, eqIgnoreCase]
  | cons x xs =>
    by_cases hc : canonicalize x = canonicalize 115
    · cases xs with
      | nil => simp [run, hc, eqIgnoreCase]
      | cons y ys => simp [run, hc, eqIgnoreCase]
    · simp [run, hc, eqIgnoreCase]

theorem test_counter (t : JSString) :
    test (Regex.cat [.bol, .plus isDigit, .lit " comment", .opt (.chr 115), .eol]) t =
      isCommentCounter t := by
  rw [test_bol, run_cat_cons, run_plus_of_fail]
  · unfold isCommentCounter
    simp only
    by_cases hd : t.takeWhile isDigit = []
    · simp [hd]
    · simp only [hd, if_false, run_cat_cons, run_cat_nil, run_lit]
      have h1 := eqIgnoreCase_append (js " comment") [] (t.dropWhile isDigit)
      have h2 := eqIgnoreCase_append (js " comment") [115] (t.dropWhile isDigit)
      rw [List.append_nil] at h1
      rw [← js_comments] at h2
      have hne : (t.takeWhile isDigit).isEmpty = false := by
        cases h : t.takeWhile isDigit with
        | nil => exact absurd h hd
        | cons _ _ => rfl
      rw [hne]
      cases hs : startsWithIgnoreCase (js " comment") (t.dropWhile isDigit) with
      | false =>
        simp only [hs, Bool.false_eq_true, false_and, iff_false] at h1 h2
        simp [h1, h2]
      | true =>
        simp only [hs, true_and] at h1 h2
        simp only [if_true]
        have := run_plural_end ⟨0 + (t.takeWhile isDigit).length + (js " comment").length,
          (t.dropWhile isDigit).drop (js " comment").length, []⟩
        simp only [run_cat_cons, run_cat_nil] at this
        rw [this]
        simp only [Bool.not_false, Bool.true_and]
        congr 1
        · exact decide_eq_decide.mpr h1.symm
        · exact decide_eq_decide.mpr h2.symm
  · intro j c cs hc
    rw [run_cat_cons, run_lit]
    have : canonicalize c ≠ canonicalize 32 := by
      simp only [isDigit, Bool.and_eq_true, decide_eq_true_eq] at hc
      unfold canonicalize
      split <;> simp <;> omega
    simp [js_comment, startsWithIgnoreCase, this]

/-- The pattern list of the program recognises the boilerplate of the
specification. -/
theorem skipPatterns_any (t : JSString) :
    skipPatterns.any (fun pattern => test pattern t) = isBoilerplate t := by
  unfold skipPatterns isBoilerplate startLabels wholeLabels
  simp only [List.any_cons, List.any_nil, test_start, test_whole, test_counter, Bool.or_false]
  cases startsWithIgnoreCase (js ">> Next Chapter") t <;>
  cases startsWithIgnoreCase (js "<< Previous Chapter") t <;>
  cases startsWithIgnoreCase (js "Support me") t <;>
  cases startsWithIgnoreCase (js "Buy me a coffee") t <;>
  cases startsWithIgnoreCase (js "Ko-fi") t <;>
  cases isCommentCounter t <;> simp

theorem keepLine_eq_spec (line : JSString) : keepLine line = specKeepLine line := by
  unfold keepLine specKeepLine
  simp only [skipPatterns_any]
  by_cases h0 : (trim line).length = 0
  · simp [h0]
  · by_cases h3 : (trim line).length < 3
    · have : ¬ (3 ≤ (trim line).length) := by omega
      simp [h0, h3, this]
    · have : 3 ≤ (trim line).length := by omega
      simp [h0, h3, this]

theorem isCommentCounter_of_shape (n : Nat) (w : JSString)
    (hw : eqIgnoreCase w (js "comment") ∨ eqIgnoreCase w (js "comments")) :
    isCommentCounter (natToString n ++ 32 :: w) = true := by
  have ht : (32 :: w).takeWhile isDigit = [] := by simp [isDigit]
  have e1 : js " comment" = 32 :: js "comment" := by decide
  have e2 : js " comments" = 32 :: js "comments" := by decide
  unfold isCommentCounter
  rw [takeWhile_natToString n _ ht, dropWhile_natToString n _ ht, e1, e2]
  have hne : (natToString n).isEmpty = false := by
    cases h : natToString n with
    | nil => exact absurd h (natToString_ne_nil n)
    | cons _ _ => rfl
  rw [hne]
  unfold eqIgnoreCase at hw ⊢
  rcases hw with hw | hw
  · simp [hw]
  · simp [hw]

theorem isBoilerplate_of_counterOrLabel {t : JSString} (h : IsCounterOrLabel t) :
    isBoilerplate t = true := by
  unfold isBoilerplate
  rcases h with ⟨n, w, hw, rfl⟩ | ⟨w, hmem, heq⟩
  · simp [isCommentCounter_of_shape n w hw]
  · rcases List.mem_append.mp hmem with hs | hwhole
    · have : startLabels.any (fun w => startsWithIgnoreCase w t) = true :=
        List.any_eq_true.mpr ⟨w, hs, ((eqIgnoreCase_iff w t).mp heq).1⟩
      simp [this]
    · have : wholeLabels.any (fun w => decide (eqIgnoreCase t w)) = true :=
        List.any_eq_true.mpr ⟨w, hwhole, decide_eq_true heq⟩
      simp [this]

/-! ## `escapeXML` and `exportToXML` -/

theorem replaceAll_append (c : Nat) (b x y : JSString) :
    replaceAll c b (x ++ y) = replaceAll c b x ++ replaceAll c b y := by
  simp [replaceAll]

theorem replaceAll_nil (c : Nat) (b : JSString) : replaceAll c b [] = [] := rfl

theorem replaceAll_singleton_ne {c x : Nat} (b : JSString) (h : x ≠ c) :
    replaceAll c b [x] = [x] := by
  simp [replaceAll, h]

theorem escapeXML_nil : escapeXML [] = [] := rfl

/-- The five successive replacements escape each code unit on its own. -/
theorem escapeXML_cons (c : Nat) (s : JSString) :
    escapeXML (c :: s) = escapeChar c ++ escapeXML s := by
  have e : c :: s = [c] ++ s := rfl
  unfold escapeXML
  rw [e]
  simp only [replaceAll_append]
  congr 1
  unfold escapeChar
  by_cases h38 : c = 38
  · subst h38; decide
  · by_cases h60 : c = 60
    · subst h60; decide
    · by_cases h62 : c = 62
      · subst h62; decide
      · by_cases h34 : c = 34
        · subst h34; decide
        · by_cases h39 : c = 39
          · subst h39; decide
          · simp only [h38, h60, h62, h34, h39, if_false]
            rw [replaceAll_singleton_ne _ h38, replaceAll_singleton_ne _ h60,
              replaceAll_singleton_ne _ h62, replaceAll_singleton_ne _ h34,
              replaceAll_singleton_ne _ h39]

theorem unescapeXML_cons_ne {c : Nat} (rest : JSString) (h : c ≠ 38) :
    unescapeXML (c :: rest) = c :: unescapeXML rest := by
  conv_lhs => unfold unescapeXML
  split
  · next h2 => exact absurd h2 h
  · rfl

theorem unescapeXML_escapeChar (c : Nat) (s : JSString) :
    unescapeXML (escapeChar c ++ s) = c :: unescapeXML s := by
  unfold escapeChar
  by_cases h38 : c = 38
  · subst h38
    have : js "&amp;" = [38, 97, 109, 112, 59] := by decide
    simp [this, unescapeXML]
  · by_cases h60 : c = 60
    · subst h60
      have : js "&lt;" = [38, 108, 116, 59] := by decide
      simp [this, unescapeXML]
    · by_cases h62 : c = 62
      · subst h62
        have : js "&gt;" = [38, 103, 116, 59] := by decide
        simp [this, unescapeXML]
      · by_cases h34 : c = 34
        · subst h34
          have : js "&quot;" = [38, 113, 117, 111, 116, 59] := by decide
          simp [this, unescapeXML]
        · by_cases h39 : c = 39
          · subst h39
            have : js "&apos;" = [38, 97, 112, 111, 115, 59] := by decide
            simp [this, unescapeXML]
          · simp only [h38, h60, h62, h34, h39, if_false, List.cons_append, List.nil_append]
            exact unescapeXML_cons_ne s h38

/-- Unescaping undoes `escapeXML`. -/
theorem unescapeXML_escapeXML (s : JSString) : unescapeXML (escapeXML s) = s := by
  induction s with
  | nil => rfl
  | cons c s ih => rw [escapeXML_cons, unescapeXML_escapeChar, ih]

theorem foldl_append_chapterXML (chs : List Chapter) :
    ∀ init : JSString,
      chs.foldl (fun xml chapter => xml ++ chapterXML chapter) init =
        init ++ chs.flatMap chapterXML := by
  induction chs with
  | nil => intro init; simp
  | cons c chs ih =>
    intro init
    simp only [List.foldl_cons, ih, List.flatMap_cons, List.append_assoc]

/-- The exported document: the declaration and the opening root tag, the chapter
elements in order, the closing root tag. -/
theorem exportToXML_eq (chs : List Chapter) :
    exportToXML chs =
      js "<?xml version=\"1.0\" encoding=\"UTF-8\"?>\n<chapters>\n" ++
        (chs.flatMap chapterXML ++ js "</chapters>") := by
  unfold exportToXML
  simp only [foldl_append_chapterXML, List.append_assoc]

theorem expect_append (w s : JSString) : expect w (w ++ s) = some s := by
  simp [expect]

theorem escapeXML_no_lt (t : JSString) : ∀ x ∈ escapeXML t, x ≠ 60 := by
  induction t with
  | nil => intro x hx; simp [escapeXML_nil] at hx
  | cons c t ih =>
    intro x hx
    rw [escapeXML_cons] at hx
    rcases List.mem_append.mp hx with h | h
    · unfold escapeChar at h
      have e1 : js "&amp;" = [38, 97, 109, 112, 59] := by decide
      have e2 : js "&lt;" = [38, 108, 116, 59] := by decide
      have e3 : js "&gt;" = [38, 103, 116, 59] := by decide
      have e4 : js "&quot;" = [38, 113, 117, 111, 116, 59] := by decide
      have e5 : js "&apos;" = [38, 97, 112, 111, 115, 59] := by decide
      rw [e1, e2, e3, e4, e5] at h
      split at h
      · simp at h; omega
      · split at h
        · simp at h; omega
        · split at h
          · simp at h; omega
          · split at h
            · simp at h; omega
            · split at h
              · simp at h; omega
              · simp at h; omega
    · exact ih x h

theorem readText_escapeXML (t rest : JSString) :
    readText (escapeXML t ++ 60 :: rest) = (t, 60 :: rest) := by
  have hall : ∀ x ∈ escapeXML t, (fun c => c != 60) x = true := by
    intro x hx
    simpa using escapeXML_no_lt t x hx
  unfold readText
  rw [List.takeWhile_append_of_pos hall, List.dropWhile_append_of_pos hall]
  simp [unescapeXML_escapeXML]

theorem readInt_intToString (z : Int) (hsafe : isSafeInteger z = true) (rest : JSString)
    (hrest : rest.takeWhile isDigit = []) :
    readInt (intToString z ++ rest) = (z, rest) := by
  rw [intToString_of_safe hsafe]
  unfold readInt
  by_cases hz : z < 0
  · simp only [hz, if_true, List.cons_append, List.head?_cons, List.tail_cons]
    rw [decimalValue_natToString _ _ hrest, dropWhile_natToString _ _ hrest]
    have : -((z.natAbs : Nat) : Int) = z := by omega
    rw [this]
  · simp only [hz, if_false]
    have hhead : (natToString z.natAbs ++ rest).head? ≠ some 45 := by
      cases h : natToString z.natAbs with
      | nil => exact absurd h (natToString_ne_nil _)
      | cons d D =>
        have hd : isDigit d = true :=
          natToString_isDigit z.natAbs d (by rw [h]; exact List.mem_cons_self _ _)
        simp only [isDigit, Bool.and_eq_true, decide_eq_true_eq] at hd
        simp only [List.cons_append, List.head?_cons, ne_eq, Option.some.injEq]
        omega
    simp only [hhead, if_false]
    rw [decimalValue_natToString _ _ hrest, dropWhile_natToString _ _ hrest]
    have : ((z.natAbs : Nat) : Int) = z := by omega
    rw [this]

theorem readChapter_chapterXML (c : Chapter) (hid : isSafeInteger c.id = true)
    (hvol : isSafeInteger c.volume = true) (rest : JSString) :
    readChapter (chapterXML c ++ rest) = some (c, rest) := by
  have q1 : js "\" volume=\"" = 34 :: js " volume=\"" := by decide
  have q2 : js "\">\n    <title>" = 34 :: js ">\n    <title>" := by decide
  have q3 : js "</title>\n    <text>" = 60 :: js "/title>\n    <text>" := by decide
  have q4 : js "</text>\n  </chapter>\n" = 60 :: js "/text>\n  </chapter>\n" := by decide
  have hd : ∀ r : JSString, (34 :: r).takeWhile isDigit = [] := by
    intro r; simp [isDigit]
  unfold readChapter chapterXML
  simp only [List.append_assoc]
  rw [expect_append]
  simp only
  have r1 : readInt (intToString c.id ++ (js "\" volume=\"" ++ (intToString c.volume ++
      (js "\">\n" ++ (js "    <title>" ++ (escapeXML c.title ++ (js "</title>\n" ++
        (js "    <text>" ++ (escapeXML c.content ++ (js "</text>\n" ++
          (js "  </chapter>\n" ++ rest)))))))))) ) =
      (c.id, js "\" volume=\"" ++ (intToString c.volume ++
      (js "\">\n" ++ (js "    <title>" ++ (escapeXML c.title ++ (js "</title>\n" ++
        (js "    <text>" ++ (escapeXML c.content ++ (js "</text>\n" ++
          (js "  </chapter>\n" ++ rest)))))))))) := by
    apply readInt_intToString _ hid
    rw [q1]
    exact hd _
  rw [r1]
  simp only
  rw [expect_append]
  simp only
  have e2 : js "\">\n" ++ (js "    <title>" ++ (escapeXML c.title ++ (js "</title>\n" ++
        (js "    <text>" ++ (escapeXML c.content ++ (js "</text>\n" ++
          (js "  </chapter>\n" ++ rest)))))))
      = js "\">\n    <title>" ++ (escapeXML c.title ++ (js "</title>\n    <text>" ++
          (escapeXML c.content ++ (js "</text>\n  </chapter>\n" ++ rest)))) := by
    have a1 : js "\">\n    <title>" = js "\">\n" ++ js "    <title>" := by decide
    have a2 : js "</title>\n    <text>" = js "</title>\n" ++ js "    <text>" := by decide
    have a3 : js "</text>\n  </chapter>\n" = js "</text>\n" ++ js "  </chapter>\n" := by decide
    rw [a1, a2, a3]
    simp only [List.append_assoc]
  rw [e2]
  have r2 : readInt (intToString c.volume ++ (js "\">\n    <title>" ++ (escapeXML c.title ++
      (js "</title>\n    <text>" ++ (escapeXML c.content ++
        (js "</text>\n  </chapter>\n" ++ rest)))))) =
      (c.volume, js "\">\n    <title>" ++ (escapeXML c.title ++
      (js "</title>\n    <text>" ++ (escapeXML c.content ++
        (js "</text>\n  </chapter>\n" ++ rest))))) := by
    apply readInt_intToString _ hvol
    rw [q2]
    exact hd _
  rw [r2]
  simp only
  rw [expect_append]
  simp only
  have r3 : readText (escapeXML c.title ++ (js "</title>\n    <text>" ++ (escapeXML c.content ++
        (js "</text>\n  </chapter>\n" ++ rest)))) =
      (c.title, js "</title>\n    <text>" ++ (escapeXML c.content ++
        (js "</text>\n  </chapter>\n" ++ rest))) := by
    rw [q3]
    exact readText_escapeXML _ _
  rw [r3]
  simp only
  rw [expect_append]
  simp only
  have r4 : readText (escapeXML c.content ++ (js "</text>\n  </chapter>\n" ++ rest)) =
      (c.content, js "</text>\n  </chapter>\n" ++ rest) := by
    rw [q4]
    exact readText_escapeXML _ _
  rw [r4]
  simp only
  rw [expect_append]

theorem chapterXML_append_ne_footer (c : Chapter) (rest : JSString) :
    chapterXML c ++ rest ≠ js "</chapters>" := by
  have e1 : js "  <chapter number=\"" = 32 :: js " <chapter number=\"" := by decide
  have e2 : js "</chapters>" = 60 :: js "/chapters>" := by decide
  unfold chapterXML
  simp only [List.append_assoc]
  rw [e1, e2]
  simp

theorem readChapters_flatMap (chs : List Chapter) :
    (∀ c ∈ chs, isSafeInteger c.id = true ∧ isSafeInteger c.volume = true) →
    ∀ fuel, chs.length < fuel →
      readChapters fuel (chs.flatMap chapterXML ++ js "</chapters>") = some chs := by
  induction chs with
  | nil =>
    intro _ fuel h
    cases fuel with
    | zero => omega
    | succ fuel => simp [readChapters]
  | cons c chs ih =>
    intro hsafe fuel h
    cases fuel with
    | zero => omega
    | succ fuel =>
      have hc := hsafe c (List.mem_cons_self _ _)
      simp only [List.length_cons, Nat.add_lt_add_iff_right] at h
      simp only [List.flatMap_cons, List.append_assoc]
      unfold readChapters
      rw [if_neg (chapterXML_append_ne_footer c _), readChapter_chapterXML c hc.1 hc.2]
      simp only
      rw [ih (fun x hx => hsafe x (List.mem_cons_of_mem _ hx)) fuel h]

theorem chapterXML_length_pos (c : Chapter) : 0 < (chapterXML c).length := by
  have e1 : js "  <chapter number=\"" = 32 :: js " <chapter number=\"" := by decide
  unfold chapterXML
  simp only [List.append_assoc]
  rw [e1]
  simp

theorem length_le_flatMap_chapterXML (chs : List Chapter) :
    chs.length ≤ (chs.flatMap chapterXML).length := by
  induction chs with
  | nil => simp
  | cons c chs ih =>
    have := chapterXML_length_pos c
    simp only [List.length_cons, List.flatMap_cons, List.length_append]
    omega

/-- Re-parsing an exported document gives the chapters back. -/
theorem parseXML_exportToXML (chs : List Chapter)
    (hsafe : ∀ c ∈ chs, isSafeInteger c.id = true ∧ isSafeInteger c.volume = true) :
    parseXML (exportToXML chs) = some chs := by
  rw [exportToXML_eq]
  unfold parseXML
  rw [expect_append]
  simp only
  apply readChapters_flatMap chs hsafe
  have := length_le_flatMap_chapterXML chs
  simp only [List.length_append]
  omega

/-! ## The exported document and its file name -/

theorem escapeXML_eq_flatMap (s : JSString) : escapeXML s = s.flatMap escapeChar := by
  induction s with
  | nil => rfl
  | cons c s ih => rw [escapeXML_cons, ih, List.flatMap_cons]

theorem chapterXML_eq_chapterElement (c : Chapter) : chapterXML c = chapterElement c := by
  unfold chapterXML chapterElement
  simp only [escapeXML_eq_flatMap, List.append_assoc]

theorem foldl_min_spec (xs : List Int) :
    ∀ x : Int,
      xs.foldl (fun lowest n => if n < lowest then n else lowest) x ∈ x :: xs ∧
      ∀ y ∈ x :: xs, xs.foldl (fun lowest n => if n < lowest then n else lowest) x ≤ y := by
  induction xs with
  | nil => intro x; simp
  | cons a xs ih =>
    intro x
    simp only [List.foldl_cons]
    by_cases hax : a < x
    · simp only [hax, if_true]
      obtain ⟨hmem, hle⟩ := ih a
      refine ⟨List.mem_cons_of_mem _ hmem, ?_⟩
      intro y hy
      have h0 := hle a (List.mem_cons_self _ _)
      rcases List.mem_cons.mp hy with rfl | hy
      · omega
      · exact hle y hy
    · simp only [hax, if_false]
      obtain ⟨hmem, hle⟩ := ih x
      constructor
      · rcases List.mem_cons.mp hmem with h | h
        · rw [h]; exact List.mem_cons_self _ _
        · exact List.mem_cons_of_mem _ (List.mem_cons_of_mem _ h)
      · intro y hy
        have h0 := hle x (List.mem_cons_self _ _)
        rcases List.mem_cons.mp hy with rfl | hy
        · exact h0
        · rcases List.mem_cons.mp hy with rfl | hy
          · omega
          · exact hle y (List.mem_cons_of_mem _ hy)

theorem foldl_max_spec (xs : List Int) :
    ∀ x : Int,
      xs.foldl (fun highest n => if n > highest then n else highest) x ∈ x :: xs ∧
      ∀ y ∈ x :: xs, y ≤ xs.foldl (fun highest n => if n > highest then n else highest) x := by
  induction xs with
  | nil => intro x; simp
  | cons a xs ih =>
    intro x
    simp only [List.foldl_cons]
    by_cases hax : a > x
    · simp only [hax, if_true]
      obtain ⟨hmem, hle⟩ := ih a
      refine ⟨List.mem_cons_of_mem _ hmem, ?_⟩
      intro y hy
      have h0 := hle a (List.mem_cons_self _ _)
      rcases List.mem_cons.mp hy with rfl | hy
      · omega
      · exact hle y hy
    · simp only [hax, if_false]
      obtain ⟨hmem, hle⟩ := ih x
      constructor
      · rcases List.mem_cons.mp hmem with h | h
        · rw [h]; exact List.mem_cons_self _ _
        · exact List.mem_cons_of_mem _ (List.mem_cons_of_mem _ h)
      · intro y hy
        have h0 := hle x (List.mem_cons_self _ _)
        rcases List.mem_cons.mp hy with rfl | hy
        · exact h0
        · rcases List.mem_cons.mp hy with rfl | hy
          · omega
          · exact hle y (List.mem_cons_of_mem _ hy)

/-- The least argument is what `Math.min` returns. -/
theorem mathMin_eq {ids : List Int} {lo : Int} (hmem : lo ∈ ids) (hlo : ∀ x ∈ ids, lo ≤ x) :
    mathMin ids = .finite lo := by
  cases ids with
  | nil => simp at hmem
  | cons x xs =>
    obtain ⟨h1, h2⟩ := foldl_min_spec xs x
    have a := h2 lo hmem
    have b := hlo _ h1
    simp only [mathMin, JSNumber.finite.injEq]
    omega

/-- The greatest argument is what `Math.max` returns. -/
theorem mathMax_eq {ids : List Int} {hi : Int} (hmem : hi ∈ ids) (hhi : ∀ x ∈ ids, x ≤ hi) :
    mathMax ids = .finite hi := by
  cases ids with
  | nil => simp at hmem
  | cons x xs =>
    obtain ⟨h1, h2⟩ := foldl_max_spec xs x
    have a := h2 hi hmem
    have b := hhi _ h1
    simp only [mathMax, JSNumber.finite.injEq]
    omega

/-! ## The next-chapter link -/

theorem firstNextHref_eq_find (toLowerCase : JSString → JSString) (links : List Link) :
    firstNextHref toLowerCase links = (links.find? (isNextText toLowerCase)).map Link.href := by
  induction links with
  | nil => rfl
  | cons l links ih =>
    unfold firstNextHref
    by_cases h : isNextText toLowerCase l = true
    · simp [h]
    · have h2 : isNextText toLowerCase l = false := by simpa using h
      simp [h2, ih]

theorem findNextChapterLink_eq (toLowerCase : JSString → JSString) (links : List Link) :
    findNextChapterLink toLowerCase links =
      match links.find? (isNextText toLowerCase) with
      | some link => some link.href
      | none =>
        ((links.filter (fun l => includes l.href (js "ko-fi.com/post"))).getLast?).map
          Link.href := by
  unfold findNextChapterLink
  rw [firstNextHref_eq_find]
  cases links.find? (isNextText toLowerCase) with
  | some link => rfl
  | none =>
    simp only [Option.map_none']
    rw [List.getLast?_eq_getElem?]
    cases hp : links.filter (fun l => includes l.href (js "ko-fi.com/post")) with
    | nil => simp
    | cons p ps => simp

/-- The next-chapter link of `extractChapterContent` is the one of the
specification with the guard of the program. -/
theorem extractChapterContent_next (toLowerCase : JSString → JSString) (page : Page) :
    (extractChapterContent toLowerCase page).nextChapterUrl =
      specNextChapterUrl toLowerCase
        (match page.shadow with
          | some root => root.links
          | none => []) page.links := by
  unfold extractChapterContent specNextChapterUrl
  simp only [findNextChapterLink_eq]
  cases page.shadow with
  | none => simp [truthy]
  | some root =>
    simp only [firstNextHref_eq_find]
    cases root.links.find? (isNextText toLowerCase) with
    | none => simp [truthy]
    | some link =>
      by_cases h : link.href = []
      · simp [truthy, h]
      · have : link.href.isEmpty = false := by
          cases hh : link.href with
          | nil => exact absurd hh h
          | cons _ _ => rfl
        simp [truthy, h, this]

/-! ## One invocation of the walker -/

theorem scrapeChapter_chapters (toLowerCase : JSString → JSString) (page : Page) :
    (scrapeChapter toLowerCase page).2.1 = pageChapters page := rfl

theorem scrapeChapter_data (toLowerCase : JSString → JSString) (page : Page) :
    (scrapeChapter toLowerCase page).1 = extractChapterContent toLowerCase page := rfl

/-- With a next link and `count > 1` the invocation waits, navigates, writes the
store and returns. -/
theorem scrapeMultipleChapters_navigating (toLowerCase : JSString → JSString) (count : Nat)
    (env : Env) (hnext : truthy (extractChapterContent toLowerCase env.page).nextChapterUrl = true)
    (hcount : 1 < count) :
    scrapeMultipleChapters toLowerCase count env =
      (invocationPrelude toLowerCase count env.page ++
        [Effect.log (.waiting 2000), Effect.delay 2000,
          Effect.navigate ((extractChapterContent toLowerCase env.page).nextChapterUrl.getD []),
          Effect.setItem (js "kofi_scraper_progress") ⟨1, count, pageChapters env.page⟩],
        .navigating (pageChapters env.page)
          ((extractChapterContent toLowerCase env.page).nextChapterUrl.getD [])) := by
  obtain ⟨n, rfl⟩ : ∃ n, count = n + 1 := ⟨count - 1, by omega⟩
  have h0 : 0 < n + 1 - 1 := by omega
  unfold scrapeMultipleChapters
  rw [walkLoop]
  simp only [scrapeChapter_data, scrapeChapter_chapters, hnext, h0, decide_True, Bool.and_self,
    if_true, List.nil_append, invocationPrelude, delayBetweenChapters, List.append_assoc,
    List.cons_append, Nat.zero_add, List.map_cons]

/-- Without a next link the invocation reports it and returns what it has. -/
theorem scrapeMultipleChapters_noNext (toLowerCase : JSString → JSString) (count : Nat)
    (env : Env) (hnext : truthy (extractChapterContent toLowerCase env.page).nextChapterUrl = false)
    (hcount : 1 ≤ count) :
    scrapeMultipleChapters toLowerCase count env =
      (invocationPrelude toLowerCase count env.page ++
        [Effect.log .noNextLink, Effect.log (.completed (pageChapters env.page).length)],
        .finished (pageChapters env.page) (pageChapters env.page).length) := by
  obtain ⟨n, rfl⟩ : ∃ n, count = n + 1 := ⟨count - 1, by omega⟩
  unfold scrapeMultipleChapters
  rw [walkLoop]
  simp only [scrapeChapter_data, scrapeChapter_chapters, hnext, Bool.false_and,
    Bool.false_eq_true, if_false, Bool.not_false, if_true, List.nil_append, invocationPrelude,
    List.append_assoc, List.cons_append, Nat.zero_add, List.map_cons]

/-- With a next link and `count = 1` the loop ends after its only iteration. -/
theorem scrapeMultipleChapters_one (toLowerCase : JSString → JSString) (env : Env)
    (hnext : truthy (extractChapterContent toLowerCase env.page).nextChapterUrl = true) :
    scrapeMultipleChapters toLowerCase 1 env =
      (invocationPrelude toLowerCase 1 env.page ++
        [Effect.log (.completed (pageChapters env.page).length)],
        .finished (pageChapters env.page) (pageChapters env.page).length) := by
  unfold scrapeMultipleChapters
  rw [walkLoop]
  simp only [scrapeChapter_data, scrapeChapter_chapters, hnext, Nat.lt_irrefl, decide_False,
    Bool.and_false, Bool.false_eq_true, if_false, Bool.not_true, List.nil_append,
    invocationPrelude, List.append_assoc, List.cons_append, Nat.zero_add, Nat.sub_self,
    walkLoop, List.map_cons]

theorem persisted_append (a b : List Effect) : persisted (a ++ b) = persisted a ++ persisted b := by
  induction a with
  | nil => rfl
  | cons e a ih => cases e <;> simp [persisted, ih]

theorem navigations_append (a b : List Effect) :
    navigations (a ++ b) = navigations a ++ navigations b := by
  induction a with
  | nil => rfl
  | cons e a ih => cases e <;> simp [navigations, ih]

theorem pagesProcessed_append (a b : List Effect) :
    pagesProcessed (a ++ b) = pagesProcessed a + pagesProcessed b := by
  simp [pagesProcessed]

theorem persisted_map_log (ms : List LogMessage) : persisted (ms.map Effect.log) = [] := by
  induction ms with
  | nil => rfl
  | cons m ms ih => simp [persisted, ih]

theorem navigations_map_log (ms : List LogMessage) : navigations (ms.map Effect.log) = [] := by
  induction ms with
  | nil => rfl
  | cons m ms ih => simp [navigations, ih]

theorem scrapeChapter_messages (toLowerCase : JSString → JSString) (page : Page) :
    ∃ ms : List LogMessage,
      (scrapeChapter toLowerCase page).2.2 = LogMessage.extracting page.url :: ms ∧
      ∀ m ∈ ms, ∀ url, m ≠ LogMessage.extracting url := by
  refine ⟨LogMessage.extracted (pageChapters page).length ::
    ((pageChapters page).map (fun ch => LogMessage.chapterLine ch.id ch.title ch.content.length) ++
      (if truthy (extractChapterContent toLowerCase page).nextChapterUrl then
        [LogMessage.nextChapter ((extractChapterContent toLowerCase page).nextChapterUrl.getD [])]
        else [])), rfl, ?_⟩
  intro m hm url
  simp only [List.mem_cons, List.mem_append, List.mem_map] at hm
  rcases hm with rfl | ⟨ch, -, rfl⟩ | hm
  · simp
  · simp
  · split at hm
    · simp only [List.mem_singleton] at hm
      subst hm
      simp
    · simp at hm

theorem invocationPrelude_persisted (toLowerCase : JSString → JSString) (count : Nat)
    (page : Page) : persisted (invocationPrelude toLowerCase count page) = [] := by
  unfold invocationPrelude
  rw [persisted_map_log]

theorem invocationPrelude_navigations (toLowerCase : JSString → JSString) (count : Nat)
    (page : Page) : navigations (invocationPrelude toLowerCase count page) = [] := by
  unfold invocationPrelude
  rw [navigations_map_log]

theorem invocationPrelude_pagesProcessed (toLowerCase : JSString → JSString) (count : Nat)
    (page : Page) : pagesProcessed (invocationPrelude toLowerCase count page) = 1 := by
  obtain ⟨ms, h, hms⟩ := scrapeChapter_messages toLowerCase page
  unfold invocationPrelude
  rw [h]
  have hnone : (ms.map Effect.log).filter (fun e =>
      match e with
      | .log (.extracting _) => true
      | _ => false) = [] := by
    rw [List.filter_eq_nil_iff]
    intro e he
    obtain ⟨m, hm, rfl⟩ := List.mem_map.mp he
    cases m <;> simp
    exact hms _ hm _ rfl
  simp only [pagesProcessed, List.map_cons, List.filter_cons, hnone]
  simp

theorem scrapeMultipleChapters_zero (toLowerCase : JSString → JSString) (env : Env) :
    scrapeMultipleChapters toLowerCase 0 env =
      ([Effect.log (.start 0), Effect.log (.completed 0)], .finished [] 0) := by
  simp [scrapeMultipleChapters, walkLoop]

/-- An invocation with `count ≥ 1` extracts exactly one page. -/
theorem scrapeMultipleChapters_pagesProcessed (toLowerCase : JSString → JSString) (count : Nat)
    (env : Env) (hcount : 1 ≤ count) :
    pagesProcessed (scrapeMultipleChapters toLowerCase count env).1 = 1 := by
  by_cases hnext : truthy (extractChapterContent toLowerCase env.page).nextChapterUrl = true
  · by_cases h1 : count = 1
    · subst h1
      rw [scrapeMultipleChapters_one toLowerCase env hnext, pagesProcessed_append,
        invocationPrelude_pagesProcessed]
      rfl
    · rw [scrapeMultipleChapters_navigating toLowerCase count env hnext (by omega),
        pagesProcessed_append, invocationPrelude_pagesProcessed]
      rfl
  · have hnext2 : truthy (extractChapterContent toLowerCase env.page).nextChapterUrl = false := by
      simpa using hnext
    rw [scrapeMultipleChapters_noNext toLowerCase count env hnext2 hcount, pagesProcessed_append,
      invocationPrelude_pagesProcessed]
    rfl

/-- The value in the store plays no part in an invocation. -/
theorem walkLoop_stored (toLowerCase : JSString → JSString) (page : Page)
    (stored stored2 : Option WalkState) (count : Nat) :
    ∀ (fuel i : Nat) (allChapters : List Chapter) (effects : List Effect),
      walkLoop toLowerCase ⟨page, stored⟩ count fuel i allChapters effects =
        walkLoop toLowerCase ⟨page, stored2⟩ count fuel i allChapters effects := by
  intro fuel
  induction fuel with
  | zero => intro i a e; rfl
  | succ fuel ih =>
    intro i a e
    rw [walkLoop, walkLoop]
    simp only [ih]

theorem runWalk_cons_navigating (toLowerCase : JSString → JSString) (count : Nat)
    (hcount : 1 < count) (p : Page) (rest : List Page) (stored : Option WalkState)
    (hp : truthy (extractChapterContent toLowerCase p).nextChapterUrl = true) :
    runWalk toLowerCase count (p :: rest) stored =
      scrapeMultipleChapters toLowerCase count ⟨p, stored⟩ ::
        runWalk toLowerCase count rest
          (storeAfter stored (scrapeMultipleChapters toLowerCase count ⟨p, stored⟩).1) := by
  have h := scrapeMultipleChapters_navigating toLowerCase count ⟨p, stored⟩ hp hcount
  have h2 : (scrapeMultipleChapters toLowerCase count ⟨p, stored⟩).2 =
      .navigating (pageChapters p) ((extractChapterContent toLowerCase p).nextChapterUrl.getD []) := by
    rw [h]
  rw [runWalk]
  simp only [h2]

theorem runWalk_singleton_noNext (toLowerCase : JSString → JSString) (count : Nat)
    (hcount : 1 ≤ count) (p : Page) (stored : Option WalkState)
    (hp : truthy (extractChapterContent toLowerCase p).nextChapterUrl = false) :
    runWalk toLowerCase count [p] stored =
      [(invocationPrelude toLowerCase count p ++
          [Effect.log .noNextLink, Effect.log (.completed (pageChapters p).length)],
        .finished (pageChapters p) (pageChapters p).length)] := by
  have h := scrapeMultipleChapters_noNext toLowerCase count ⟨p, stored⟩ hp hcount
  rw [runWalk]
  simp only [h]

/-- A walk over a chain whose pages all carry a next link, except the last one:
one invocation per page, each extracting one page, the last one ending in the
branch without a next link. -/
theorem runWalk_chain (toLowerCase : JSString → JSString) (count : Nat) (hcount : 1 < count)
    (last : Page)
    (hlast : truthy (extractChapterContent toLowerCase last).nextChapterUrl = false)
    (front : List Page) :
    (∀ p ∈ front, truthy (extractChapterContent toLowerCase p).nextChapterUrl = true) →
    ∀ stored : Option WalkState,
      (runWalk toLowerCase count (front ++ [last]) stored).length = front.length + 1 ∧
      (∀ r ∈ runWalk toLowerCase count (front ++ [last]) stored, pagesProcessed r.1 = 1) ∧
      (runWalk toLowerCase count (front ++ [last]) stored).getLast? =
        some (invocationPrelude toLowerCase count last ++
          [Effect.log .noNextLink, Effect.log (.completed (pageChapters last).length)],
          .finished (pageChapters last) (pageChapters last).length) := by
  induction front with
  | nil =>
    intro _ stored
    have hp := scrapeMultipleChapters_pagesProcessed toLowerCase count ⟨last, stored⟩ (by omega)
    rw [scrapeMultipleChapters_noNext toLowerCase count ⟨last, stored⟩ hlast (by omega)] at hp
    rw [List.nil_append, runWalk_singleton_noNext toLowerCase count (by omega) last stored hlast]
    refine ⟨rfl, ?_, rfl⟩
    intro r hr
    rw [List.mem_singleton] at hr
    rw [hr]
    exact hp
  | cons p front ih =>
    intro hfront stored
    have hp := hfront p (List.mem_cons_self _ _)
    have hpp := scrapeMultipleChapters_pagesProcessed toLowerCase count ⟨p, stored⟩ (by omega)
    obtain ⟨i1, i2, i3⟩ := ih (fun q hq => hfront q (List.mem_cons_of_mem _ hq))
      (storeAfter stored (scrapeMultipleChapters toLowerCase count ⟨p, stored⟩).1)
    rw [List.cons_append, runWalk_cons_navigating toLowerCase count hcount p _ stored hp]
    refine ⟨by simp [i1], ?_, ?_⟩
    · intro r hr
      rcases List.mem_cons.mp hr with rfl | hr
      · exact hpp
      · exact i2 r hr
    · rw [List.getLast?_cons, i3]
      rfl

theorem precedes_map_log_append (p q : Effect → Bool) (hp : ∀ m, p (.log m) = false)
    (ms : List LogMessage) (tail : List Effect) :
    precedes p q (ms.map Effect.log ++ tail) = precedes p q tail := by
  induction ms with
  | nil => rfl
  | cons m ms ih => simp [precedes, hp, ih]

theorem cleanText_of_all_dropped (rawText : JSString)
    (h : ∀ line ∈ split 10 rawText, keepLine line = false) : cleanText rawText = [] := by
  unfold cleanText
  have : (split 10 rawText).filter keepLine = [] := by
    rw [List.filter_eq_nil_iff]
    intro line hline
    simp [h line hline]
  simp only [this, join]

theorem matchAll_chapterPattern_nil : matchAll chapterPattern [] = [] := by decide!

/-! ## Stored state of the reading site -/

theorem spread_defaults : spread [] (.object defaults) = defaults := by
  rfl

theorem spread_null (fields : List (JSString × JSValue)) : spread fields .null = fields := rfl

theorem parseItem_absent (jsonParse : JSString → Option JSValue)
    (localStorage : JSString → Option JSString) (key : JSString)
    (hnull : jsonParse (js "null") = some .null) (h : localStorage key = none) :
    parseItem jsonParse localStorage key = some .null := by
  simp [parseItem, h, hnull]

theorem parseItem_unparseable (jsonParse : JSString → Option JSValue)
    (localStorage : JSString → Option JSString) (key text : JSString)
    (h : localStorage key = some text) (hbad : jsonParse text = none) :
    parseItem jsonParse localStorage key = none := by
  simp [parseItem, h, hbad]

theorem getProgress_of_parseItem (jsonParse : JSString → Option JSValue)
    (localStorage : JSString → Option JSString)
    (h : parseItem jsonParse localStorage getStorageKey = some .null ∨
      parseItem jsonParse localStorage getStorageKey = none) :
    getProgress jsonParse localStorage = .object [] := by
  unfold getProgress
  rcases h with h | h
  · rw [h]; rfl
  · rw [h]

theorem getSettings_of_parseItem (jsonParse : JSString → Option JSValue)
    (localStorage : JSString → Option JSString)
    (h : parseItem jsonParse localStorage readerSettingsKey = some .null ∨
      parseItem jsonParse localStorage readerSettingsKey = none) :
    getSettings jsonParse localStorage = .object defaults := by
  unfold getSettings
  rcases h with h | h <;> rw [h] <;> simp only [spread_defaults, spread_null]


/-! ## Further lemmas on cleaning and splitting -/

theorem filter_intersperse_nil (p : JSString → Bool) (hp : p [] = false) :
    ∀ ls : List JSString, (∀ l ∈ ls, p l = true) →
      (List.intersperse [] ls).filter p = ls := by
  intro ls
  induction ls with
  | nil => intro _; rfl
  | cons l ls ih =>
    intro h
    cases ls with
    | nil =>
      simp only [List.intersperse_single]
      rw [List.filter_cons_of_pos (h l (List.mem_cons_self _ _))]
      rfl
    | cons l2 rest =>
      rw [List.intersperse_cons_cons, List.filter_cons_of_pos (h l (List.mem_cons_self _ _)),
        List.filter_cons_of_neg (by simp [hp]),
        ih (fun x hx => h x (List.mem_cons_of_mem _ hx))]

theorem keepLine_nil : keepLine [] = false := by decide!

theorem cleanText_join_kept (kept : List JSString) (hline : ∀ l ∈ kept, 10 ∉ l)
    (hkeep : ∀ l ∈ kept, keepLine l = true) :
    cleanText (join [10, 10] kept) = join [10, 10] kept := by
  by_cases hne : kept = []
  · subst hne
    decide!
  · unfold cleanText
    simp only
    rw [split_join kept hne hline, filter_intersperse_nil keepLine keepLine_nil kept hkeep]

theorem Ordered.mem {hi : Nat} :
    ∀ (ms : List MatchResult) (lo : Nat) (m : MatchResult), Ordered lo hi ms → m ∈ ms →
      lo ≤ m.index ∧ m.index + m.text.length ≤ hi := by
  intro ms
  induction ms with
  | nil => intro lo m _ h; simp at h
  | cons m0 rest ih =>
    intro lo m ho h
    rcases List.mem_cons.mp h with rfl | h
    · exact ⟨ho.1, ho.2.1⟩
    · have := ih _ m ho.2.2 h
      exact ⟨by have := ho.1; omega, this.2⟩

theorem trimStart_length_le (s : JSString) : (trimStart s).length ≤ s.length :=
  (List.dropWhile_sublist _).length_le

theorem trimEnd_length_le (s : JSString) : (trimEnd s).length ≤ s.length := by
  unfold trimEnd
  rw [List.length_reverse]
  exact le_trans (List.dropWhile_sublist _).length_le (by simp)

theorem trim_length_le (s : JSString) : (trim s).length ≤ s.length :=
  le_trans (trimEnd_length_le _) (trimStart_length_le _)

theorem slice_suffix (s x t : JSString) (i : Nat)
    (h : (s.drop i).take (x ++ t).length = x ++ t) :
    (s.drop (i + x.length)).take t.length = t := by
  have h2 : ((s.drop i).take (x ++ t).length).drop x.length = t := by
    rw [h]
    simp
  rw [List.drop_take] at h2
  rw [List.length_append, Nat.add_sub_cancel_left, List.drop_drop] at h2
  exact h2

/-- The matches after the first start at or after the end of the first. -/
theorem matchAll_after_first {r : Regex} {content : JSString} {first : MatchResult}
    {rest : List MatchResult} (h : matchAll r content = first :: rest) :
    ∀ m ∈ matchAll r content,
      first.index ≤ m.index ∧
      first.index + first.text.length ≤ m.index + m.text.length ∧
      m.index + m.text.length ≤ content.length := by
  intro m hm
  have ho := matchAll_ordered r content
  rw [h] at ho hm
  rcases List.mem_cons.mp hm with rfl | hm
  · exact ⟨le_refl _, le_refl _, ho.2.1⟩
  · have := Ordered.mem rest _ m ho.2.2 hm
    exact ⟨by omega, by omega, this.2⟩

theorem IsHeadingMarker.text_pos {text num title : JSString}
    (h : IsHeadingMarker text num title) :
    ∃ x, text = x ++ title ∧ 0 < x.length := by
  obtain ⟨vol, ws1, n, ws2, chap, ws3, ws4, htext, -⟩ := h
  refine ⟨vol ++ ws1 ++ n ++ [93] ++ ws2 ++ chap ++ ws3 ++ num ++ [58] ++ ws4, htext, ?_⟩
  simp only [List.length_append, List.length_singleton]
  omega

/-! ## The slug of a title -/

theorem isSlugChar_ne_hyphen {c : Nat} (h : isSlugChar c = true) : c ≠ 45 := by
  intro hc
  subst hc
  revert h
  decide

theorem hyphenateFrom_mem (s : JSString) :
    ∀ (inRun : Bool), ∀ c ∈ hyphenateFrom inRun s, isSlugChar c = true ∨ c = 45 := by
  induction s with
  | nil => intro inRun c hc; simp [hyphenateFrom] at hc
  | cons x xs ih =>
    intro inRun c hc
    unfold hyphenateFrom at hc
    by_cases hx : isSlugChar x = true
    · simp only [hx, if_true] at hc
      rcases List.mem_cons.mp hc with rfl | hc
      · exact Or.inl hx
      · exact ih _ c hc
    · simp only [hx] at hc
      cases inRun with
      | true =>
        simp only [if_true, Bool.false_eq_true, if_false] at hc
        exact ih _ c hc
      | false =>
        simp only [Bool.false_eq_true, if_false] at hc
        rcases List.mem_cons.mp hc with rfl | hc
        · exact Or.inr rfl
        · exact ih _ c hc

theorem hyphenateFrom_chain (s : JSString) :
    ∀ (inRun : Bool),
      List.Chain' (fun a b => ¬(a = 45 ∧ b = 45)) (hyphenateFrom inRun s) ∧
      (inRun = true → (hyphenateFrom inRun s).head? ≠ some 45) := by
  induction s with
  | nil => intro inRun; simp [hyphenateFrom]
  | cons x xs ih =>
    intro inRun
    unfold hyphenateFrom
    by_cases hx : isSlugChar x = true
    · simp only [hx, if_true]
      refine ⟨?_, fun _ => ?_⟩
      · rw [List.chain'_cons']
        refine ⟨?_, (ih false).1⟩
        intro y _ hxy
        exact isSlugChar_ne_hyphen hx hxy.1
      · simp only [List.head?_cons, ne_eq, Option.some.injEq]
        exact isSlugChar_ne_hyphen hx
    · simp only [hx]
      cases inRun with
      | true =>
        simp only [if_true, Bool.false_eq_true, if_false]
        exact ⟨(ih true).1, fun _ => (ih true).2 rfl⟩
      | false =>
        simp only [Bool.false_eq_true, if_false]
        refine ⟨?_, fun h => by cases h⟩
        rw [List.chain'_cons']
        refine ⟨?_, (ih true).1⟩
        intro y hy hxy
        rw [Option.mem_def] at hy
        rw [hxy.2] at hy
        exact (ih true).2 rfl hy

theorem stripHyphens_append (s : JSString) :
    ∃ x, s.dropWhile (fun c => c == 45) = stripHyphens s ++ x := by
  refine ⟨(((s.dropWhile (fun c => c == 45)).reverse).takeWhile (fun c => c == 45)).reverse, ?_⟩
  unfold stripHyphens
  rw [← List.reverse_append, List.takeWhile_append_dropWhile, List.reverse_reverse]

theorem substring_zero (s : JSString) (n : Nat) : substring s 0 n = s.take n := by
  unfold substring
  simp only [Nat.zero_min, Nat.zero_le, min_eq_left, List.drop_zero, max_eq_right, Nat.sub_zero]
  by_cases h : n ≤ s.length
  · rw [min_eq_left h]
  · rw [min_eq_right (by omega), List.take_of_length_le (le_refl _),
      List.take_of_length_le (by omega)]

/-- The parts of the slug contract that hold for every title: at most 50 code
units, only `[a-z0-9]` and the hyphen, no two hyphens in a row, no hyphen at the
start. -/
theorem generateSlug_shape (toLowerCase normalizeNFD : JSString → JSString) (title : JSString) :
    (generateSlug toLowerCase normalizeNFD title).length ≤ 50 ∧
    (∀ c ∈ generateSlug toLowerCase normalizeNFD title, isSlugChar c = true ∨ c = 45) ∧
    List.Chain' (fun a b => ¬(a = 45 ∧ b = 45)) (generateSlug toLowerCase normalizeNFD title) ∧
    (generateSlug toLowerCase normalizeNFD title).head? ≠ some 45 := by
  unfold generateSlug
  rw [substring_zero]
  generalize replaceAll 0x111 (js "d") (removeMarks (normalizeNFD (toLowerCase title))) = u
  obtain ⟨x, hx⟩ := stripHyphens_append (hyphenate u)
  have hchain : List.Chain' (fun a b => ¬(a = 45 ∧ b = 45)) (stripHyphens (hyphenate u)) := by
    have h1 := ((hyphenateFrom_chain u false).1).suffix (List.dropWhile_suffix (fun c => c == 45))
    unfold hyphenate at hx ⊢
    rw [hx] at h1
    exact h1.left_of_append
  refine ⟨List.length_take_le _ _, ?_, hchain.take 50, ?_⟩
  · intro c hc
    have h1 : c ∈ stripHyphens (hyphenate u) := List.mem_of_mem_take hc
    have h2 : c ∈ (hyphenate u).dropWhile (fun c => c == 45) := by
      rw [hx]
      exact List.mem_append_left _ h1
    exact hyphenateFrom_mem u false c ((List.dropWhile_sublist _).subset h2)
  · intro hhead
    have hnot := List.head?_dropWhile_not (fun c => c == 45) (hyphenate u)
    rw [hx] at hnot
    cases hr : stripHyphens (hyphenate u) with
    | nil => rw [hr] at hhead; simp at hhead
    | cons c r =>
      rw [hr] at hhead hnot
      simp only [List.take_succ_cons, List.head?_cons, Option.some.injEq] at hhead
      subst hhead
      simp at hnot
/-! ## The chapter splitter: claims -/

/-- C1: when the heading marker occurs `k ≥ 1` times in `content` (the matches of
`matchAll`), `splitIntoChapters` returns exactly `k` chapters; the `i`-th match is a
heading marker standing at its index in `content`, the `i`-th chapter's title is
the trimmed title text of that marker, and its content is the trimmed piece of
`content` from the end of the `i`-th match to the start of the next one (to the
end of `content` for the last match). -/
theorem splitIntoChapters_markers (content title : JSString)
    (h : matchAll chapterPattern content ≠ []) :
    (splitIntoChapters content title).length = (matchAll chapterPattern content).length ∧
    ∀ (i : Nat) (m : MatchResult), (matchAll chapterPattern content)[i]? = some m →
      ∃ num text,
        IsHeadingMarker m.text num text ∧
        (content.drop m.index).take m.text.length = m.text ∧
        ∃ c, (splitIntoChapters content title)[i]? = some c ∧
          c.title = trim text ∧
          c.content = trim ((content.drop (m.index + m.text.length)).take
            ((match (matchAll chapterPattern content)[i + 1]? with
              | some m2 => m2.index
              | none => content.length) - (m.index + m.text.length))) := by
  refine ⟨splitIntoChapters_length content title h, ?_⟩
  intro i m hm
  have hmem := List.getElem?_mem hm
  obtain ⟨num, text, -, h2, hshape⟩ := chapterPattern_shape (matchAll_mem hmem)
  refine ⟨num, text, hshape, matchAll_text hmem, _, splitIntoChapters_getElem? content title i m hm,
    ?_, rfl⟩
  simp [h2]

/-- C1, the two-marker page of the specification: the hypothesis holds, the two
chapters are the expected ones, and the count is the number of matches. -/
theorem splitIntoChapters_markers_witness :
    splitIntoChapters
        (js "[Vol. 9] Chapter 137: Title A\nbody1\n[Vol. 9] Chapter 138: Title B\nbody2")
        (js "[Vol. 9] Chapter 137-138") =
      [⟨137, 9, js "Title A", js "body1"⟩, ⟨138, 9, js "Title B", js "body2"⟩] ∧
    (splitIntoChapters
        (js "[Vol. 9] Chapter 137: Title A\nbody1\n[Vol. 9] Chapter 138: Title B\nbody2")
        (js "[Vol. 9] Chapter 137-138")).length =
      (matchAll chapterPattern
        (js "[Vol. 9] Chapter 137: Title A\nbody1\n[Vol. 9] Chapter 138: Title B\nbody2")).length :=
  ⟨by decide!, (splitIntoChapters_markers _ _ (by decide!)).1⟩

/-- C2 at the title `Chapter 0`: the title parser reports chapter `0`, and the page
without markers becomes a chapter with id `1`; with the title `Chapter 5` the id
is `5`. -/
theorem splitIntoChapters_chapter_zero :
    parseChapterInfo (js "Chapter 0") = ⟨1, some 0, none⟩ ∧
    matchAll chapterPattern (js "no markers here") = [] ∧
    splitIntoChapters (js "no markers here") (js "Chapter 0") =
      [⟨1, 1, js "Chapter 0", js "no markers here"⟩] ∧
    splitIntoChapters (js "no markers here") (js "Chapter 5") =
      [⟨5, 1, js "Chapter 5", js "no markers here"⟩] := by
  decide!

/-- C3: `splitIntoChapters` never returns the empty sequence. -/
theorem splitIntoChapters_nonempty (content title : JSString) :
    splitIntoChapters content title ≠ [] := by
  by_cases h : matchAll chapterPattern content = []
  · rw [splitIntoChapters_nil content title h]
    simp
  · intro hnil
    have hlen := splitIntoChapters_length content title h
    rw [hnil] at hlen
    exact h (List.length_eq_zero.mp hlen.symm)

/-- C4: with at least one heading marker, the ids of the returned chapters are the
chapter numbers written in the markers, one per match and in the order of the
matches, which is the order of their positions in the text. -/
theorem splitIntoChapters_ids (content title : JSString)
    (h : matchAll chapterPattern content ≠ []) :
    (∃ nums : List JSString,
      List.Forall₂ (fun m num => ∃ text, IsHeadingMarker m.text num text)
        (matchAll chapterPattern content) nums ∧
      (splitIntoChapters content title).map Chapter.id =
        nums.map (fun num => (parseInt num : Int))) ∧
    Ordered 0 content.length (matchAll chapterPattern content) := by
  refine ⟨⟨(matchAll chapterPattern content).map (fun m => (m.capture 1).getD []), ?_, ?_⟩,
    matchAll_ordered _ _⟩
  · rw [List.forall₂_map_right_iff, List.forall₂_same]
    intro m hmem
    obtain ⟨num, text, h1, -, hshape⟩ := chapterPattern_shape (matchAll_mem hmem)
    exact ⟨text, by simpa [h1] using hshape⟩
  · apply List.ext_getElem?
    intro i
    simp only [List.getElem?_map]
    cases hm : (matchAll chapterPattern content)[i]? with
    | none =>
      have hlen := splitIntoChapters_length content title h
      have : (splitIntoChapters content title)[i]? = none := by
        rw [List.getElem?_eq_none_iff] at hm ⊢
        omega
      simp [this]
    | some m =>
      rw [splitIntoChapters_getElem? content title i m hm]
      simp

/-- C4, markers out of numeric order and markers with the same number. -/
theorem splitIntoChapters_ids_witness :
    (splitIntoChapters (js "[Vol. 9] Chapter 138: B\nx\n[Vol. 9] Chapter 137: A\ny")
        (js "t")).map Chapter.id = [138, 137] ∧
    (splitIntoChapters (js "[Vol. 9] Chapter 7: A\nx\n[Vol. 9] Chapter 7: B\ny")
        (js "t")).map Chapter.id = [7, 7] ∧
    Ordered 0 (js "[Vol. 9] Chapter 138: B\nx\n[Vol. 9] Chapter 137: A\ny").length
      (matchAll chapterPattern (js "[Vol. 9] Chapter 138: B\nx\n[Vol. 9] Chapter 137: A\ny")) :=
  ⟨by decide!, by decide!, (splitIntoChapters_ids _ (js "t") (by decide!)).2⟩

/-! ## The title parser: claims -/

/-- C6: for every title, the volume is the integer of the first "Vol" marker (the
word up to case, an optional period, optional white space, an integer) and is 1
when no position of the title carries such a marker; `chapterStart` and
`chapterEnd` are both `null` when no position carries a "Chapter <integer>" marker;
otherwise they are the integer of the first chapter marker and its second integer,
which is `null` when no dash and second integer follow the first. -/
theorem parseChapterInfo_markers (title : JSString) :
    ((∀ k, k ≤ title.length → volMarker (title.drop k) = none) →
      (parseChapterInfo title).volume = 1) ∧
    (∀ k v, volMarker (title.drop k) = some v →
      (∀ j, j < k → volMarker (title.drop j) = none) →
      (parseChapterInfo title).volume = v) ∧
    ((∀ k, k ≤ title.length → chapterMarker (title.drop k) = none) →
      (parseChapterInfo title).chapterStart = none ∧
      (parseChapterInfo title).chapterEnd = none) ∧
    (∀ k a e, chapterMarker (title.drop k) = some (a, e) →
      (∀ j, j < k → chapterMarker (title.drop j) = none) →
      (parseChapterInfo title).chapterStart = some a ∧
      (parseChapterInfo title).chapterEnd = e) := by
  rw [parseChapterInfo_eq_spec]
  unfold specChapterInfo
  refine ⟨?_, ?_, ?_, ?_⟩
  · intro h
    simp [firstMarker_none volMarker title h]
  · intro k v h hlt
    simp [firstMarker_first volMarker title k v h hlt]
  · intro h
    simp [firstMarker_none chapterMarker title h]
  · intro k a e h hlt
    simp [firstMarker_first chapterMarker title k (a, e) h hlt]

/-- C6 at the title `Chapter 4`: no volume marker, a chapter marker at index 0
without a second integer. -/
theorem parseChapterInfo_markers_witness :
    parseChapterInfo (js "Chapter 4") = ⟨1, some 4, none⟩ ∧
    (parseChapterInfo (js "Chapter 4")).volume = 1 ∧
    ((parseChapterInfo (js "Chapter 4")).chapterStart = some 4 ∧
      (parseChapterInfo (js "Chapter 4")).chapterEnd = none) :=
  ⟨by decide!, (parseChapterInfo_markers (js "Chapter 4")).1 (by decide!),
    (parseChapterInfo_markers (js "Chapter 4")).2.2.2 0 4 none (by decide!) (by decide!)⟩

/-- C5 as stated fails for a number from `2 ^ 53` on: in the title
`[Vol. 3] Chapter 9007199254740993-12: X` the first chapter number is
`2 ^ 53 + 1`, which no Number holds, and `parseInt` gives the nearest double,
`9007199254740992`. -/
theorem parseChapterInfo_large_number :
    js "[Vol. 3] Chapter 9007199254740993-12: X" =
      js "[Vol. " ++ natToString 3 ++ js "] Chapter " ++ natToString 9007199254740993 ++ [] ++
        [45] ++ [] ++ natToString 12 ++ js ": " ++ js "X" ∧
    parseChapterInfo (js "[Vol. 3] Chapter 9007199254740993-12: X") =
      ⟨3, some 9007199254740992, some 12⟩ ∧
    parseChapterInfo (js "[Vol. 3] Chapter 9007199254740993-12: X") ≠
      ⟨3, some 9007199254740993, some 12⟩ := by
  decide!

/-- C5, amended: for natural numbers `v`, `a`, `b` below `2 ^ 53`, a title of the
shape `[Vol. v] Chapter a-b: text`, the dash being a hyphen or an en dash with
optional white space around it, is parsed to volume `v`, `chapterStart` `a` and
`chapterEnd` `b`. -/
theorem parseChapterInfo_range (v a b : Nat) (hv : v < 2 ^ 53) (ha : a < 2 ^ 53)
    (hb : b < 2 ^ 53) (ws1 ws2 text : JSString) (dash : Nat)
    (hdash : dash = 45 ∨ dash = 0x2013)
    (h1 : ∀ x ∈ ws1, isWhiteSpace x = true) (h2 : ∀ x ∈ ws2, isWhiteSpace x = true) :
    parseChapterInfo
      (js "[Vol. " ++ natToString v ++ js "] Chapter " ++ natToString a ++ ws1 ++ [dash] ++ ws2 ++
        natToString b ++ js ": " ++ text) = ⟨v, some a, some b⟩ := by
  rw [parseChapterInfo_eq_spec]
  exact specChapterInfo_range v a b hv ha hb ws1 ws2 text dash hdash h1 h2

/-- C5, amended, at the title `[Vol. 3] Chapter 10-12: X` of the specification. -/
theorem parseChapterInfo_range_witness :
    js "[Vol. 3] Chapter 10-12: X" =
      js "[Vol. " ++ natToString 3 ++ js "] Chapter " ++ natToString 10 ++ [] ++ [45] ++ [] ++
        natToString 12 ++ js ": " ++ js "X" ∧
    parseChapterInfo
      (js "[Vol. " ++ natToString 3 ++ js "] Chapter " ++ natToString 10 ++ [] ++ [45] ++ [] ++
        natToString 12 ++ js ": " ++ js "X") = ⟨3, some 10, some 12⟩ :=
  ⟨by decide!, parseChapterInfo_range 3 10 12 (by decide) (by decide) (by decide) [] []
    (js "X") 45 (Or.inl rfl)
    (fun _ h => absurd h (List.not_mem_nil _)) (fun _ h => absurd h (List.not_mem_nil _))⟩

/-! ## The text cleaner: claims -/

/-- C7 as stated fails: two kept lines are joined by a double line break, so the
result split on line breaks has an empty line between them, which is shorter
than 3 characters after trimming. -/
theorem cleanText_blank_line :
    cleanText (js "hello\nworld") = js "hello\n\nworld" ∧
    split 10 (cleanText (js "hello\nworld")) = [js "hello", [], js "world"] ∧
    [] ∈ split 10 (cleanText (js "hello\nworld")) ∧ (trim []).length < 3 := by
  decide!

/-- C7, amended: every line of the result of `cleanText`, split on line breaks, is
either empty (a separator of the double-line-break join, or the empty result) or a
line of the input that has at least 3 characters after trimming. -/
theorem cleanText_lines_trimmed (text : JSString) (line : JSString)
    (h : line ∈ split 10 (cleanText text)) :
    line = [] ∨ (line ∈ split 10 text ∧ 3 ≤ (trim line).length) := by
  rcases cleanText_lines text line h with h | ⟨h1, h2⟩
  · exact Or.inl h
  · exact Or.inr ⟨h1, keepLine_length h2⟩

/-- C7, amended, on a two-line text. -/
theorem cleanText_lines_trimmed_witness :
    js "world" ∈ split 10 (cleanText (js "hello\nworld")) ∧
    (js "world" = [] ∨
      (js "world" ∈ split 10 (js "hello\nworld") ∧ 3 ≤ (trim (js "world")).length)) :=
  ⟨by decide!, cleanText_lines_trimmed (js "hello\nworld") (js "world") (by decide!)⟩

/-- C8: `cleanText` returns the lines of the text (split on the line break) whose
trimmed form has at least 3 characters and is not boilerplate, whole and in their
order, joined by a double line break; a line is dropped exactly when its trimmed
form is empty, shorter than 3 characters, or boilerplate. -/
theorem cleanText_spec (text : JSString) :
    cleanText text = join [10, 10] ((split 10 text).filter specKeepLine) ∧
    ∀ line, (keepLine line = false ↔
      ((trim line).length = 0 ∨ (trim line).length < 3 ∨ isBoilerplate (trim line) = true)) := by
  constructor
  · unfold cleanText
    have : keepLine = specKeepLine := funext keepLine_eq_spec
    rw [this]
  · intro line
    rw [keepLine_eq_spec]
    unfold specKeepLine
    cases hb : isBoilerplate (trim line) with
    | true => simp
    | false =>
      simp only [Bool.not_false, Bool.and_true, decide_eq_false_iff_not, Bool.false_eq_true,
        or_false]
      omega

/-- C9: a line whose trimmed form is a comment counter (`<n> comment` or
`<n> comments`, the word in any casing) or any casing of a fixed label is dropped
by the line filter of `cleanText`, so it is not among the lines `cleanText`
joins. -/
theorem cleanText_drops_boilerplate (line : JSString) (h : IsCounterOrLabel (trim line)) :
    keepLine line = false ∧
    ∀ text, cleanText text = join [10, 10] ((split 10 text).filter keepLine) ∧
      line ∉ (split 10 text).filter keepLine := by
  have hk : keepLine line = false := by
    rw [keepLine_eq_spec]
    unfold specKeepLine
    simp [isBoilerplate_of_counterOrLabel h]
  refine ⟨hk, fun text => ⟨rfl, ?_⟩⟩
  intro hmem
  have := (List.mem_filter.mp hmem).2
  rw [hk] at this
  cases this

/-- C9 on the line `  12 COMMENTS `, and a text with the labels `SHARE`, `like` and
`see all` of the claim. -/
theorem cleanText_drops_boilerplate_witness :
    IsCounterOrLabel (trim (js "  12 COMMENTS ")) ∧
    keepLine (js "  12 COMMENTS ") = false ∧
    IsCounterOrLabel (trim (js "SHARE")) ∧ IsCounterOrLabel (trim (js "like")) ∧
    IsCounterOrLabel (trim (js "see all")) ∧
    cleanText (js "Some text\n12 COMMENTS\nSHARE\nlike\nsee all\nMore text") =
      js "Some text\n\nMore text" :=
  ⟨Or.inl ⟨12, js "COMMENTS", Or.inr (by decide!), by decide!⟩,
    (cleanText_drops_boilerplate (js "  12 COMMENTS ")
      (Or.inl ⟨12, js "COMMENTS", Or.inr (by decide!), by decide!⟩)).1,
    Or.inr ⟨js "Share", by decide!, by decide!⟩,
    Or.inr ⟨js "Like", by decide!, by decide!⟩,
    Or.inr ⟨js "See all", by decide!, by decide!⟩,
    by decide!⟩

/-! ## The exporter: claims -/

/-- C10 as stated fails for an id from `1e21` on: the page title
`Chapter 1000000000000000000000` gives a chapter with that id, the template
literal of `exportToXML` writes it as `1e+21`, and a reader of the `number`
attribute that expects an integer does not get the id back. -/
theorem exportToXML_exponent_id :
    (splitIntoChapters (js "text") (js "Chapter 1000000000000000000000")).map Chapter.id =
      [1000000000000000000000] ∧
    exportToXML [⟨1000000000000000000000, 1, js "A", js "x"⟩] =
      js ("<?xml version=\"1.0\" encoding=\"UTF-8\"?>\n<chapters>\n" ++
        "  <chapter number=\"1e+21\" volume=\"1\">\n    <title>A</title>\n" ++
        "    <text>x</text>\n  </chapter>\n</chapters>") ∧
    parseXML (exportToXML [⟨1000000000000000000000, 1, js "A", js "x"⟩]) ≠
      some [⟨1000000000000000000000, 1, js "A", js "x"⟩] := by
  decide!

/-- C10, amended: round trip for safe integers. For chapters whose id and volume
have an absolute value below `2 ^ 53`, re-parsing the output of `exportToXML`
(reading the `number` and `volume` attributes, unescaping the entities of the
title and text content) gives back the chapters exactly, whatever their strings;
and unescaping undoes `escapeXML` on every string. -/
theorem exportToXML_roundtrip :
    (∀ chapters : List Chapter,
      (∀ c ∈ chapters, isSafeInteger c.id = true ∧ isSafeInteger c.volume = true) →
      parseXML (exportToXML chapters) = some chapters) ∧
    (∀ s : JSString, unescapeXML (escapeXML s) = s) :=
  ⟨parseXML_exportToXML, unescapeXML_escapeXML⟩

/-- C10, amended, on two chapters whose strings hold the five special characters
and entity-like text, one of them with a negative id. -/
theorem exportToXML_roundtrip_witness :
    parseXML (exportToXML [⟨137, 9, js "A & B", js "<x> \"q\" 'r' &lt;"⟩, ⟨-1, 0, js "t", []⟩]) =
      some [⟨137, 9, js "A & B", js "<x> \"q\" 'r' &lt;"⟩, ⟨-1, 0, js "t", []⟩] :=
  exportToXML_roundtrip.1 _ (by decide)

/-- C11: the exported document is the XML declaration line and the opening root
tag, then one `<chapter>` element per input chapter in input order (attributes
`number` and `volume`, children `<title>` and `<text>` holding the escaped title and
content), then the closing root tag; for no chapters it is the declaration and
an empty root element. -/
theorem exportToXML_structure (chapters : List Chapter) :
    exportToXML chapters =
      js "<?xml version=\"1.0\" encoding=\"UTF-8\"?>\n" ++ js "<chapters>\n" ++
        chapters.flatMap chapterElement ++ js "</chapters>" ∧
    exportToXML [] = js "<?xml version=\"1.0\" encoding=\"UTF-8\"?>\n<chapters>\n</chapters>" := by
  have hfun : chapterXML = chapterElement := funext chapterXML_eq_chapterElement
  have hhead : js "<?xml version=\"1.0\" encoding=\"UTF-8\"?>\n<chapters>\n" =
      js "<?xml version=\"1.0\" encoding=\"UTF-8\"?>\n" ++ js "<chapters>\n" := by decide!
  constructor
  · rw [exportToXML_eq, hfun, hhead]
    simp only [List.append_assoc]
  · decide!

/-- C12: for a non-empty list of chapters whose ids have least element `lo` and
greatest element `hi`, in any order, the export file name is `ch<lo>.vn.txt` when
`lo = hi` and `ch<lo>_<hi>.vn.txt` otherwise. -/
theorem exportFilename_range (chapters : List Chapter) (lo hi : Int)
    (hlo : lo ∈ chapters.map (fun c => c.id)) (hhi : hi ∈ chapters.map (fun c => c.id))
    (hmin : ∀ x ∈ chapters.map (fun c => c.id), lo ≤ x)
    (hmax : ∀ x ∈ chapters.map (fun c => c.id), x ≤ hi) :
    exportFilename chapters =
      if lo = hi then js "ch" ++ intToString lo ++ js ".vn.txt"
      else js "ch" ++ intToString lo ++ js "_" ++ intToString hi ++ js ".vn.txt" := by
  unfold exportFilename
  simp only [mathMin_eq hlo hmin, mathMax_eq hhi hmax, JSNumber.finite.injEq, numberToString]

/-- C12 on the ids `[5, 6, 7]`, on the same ids out of order and on the single
id `5`. -/
theorem exportFilename_range_witness :
    exportFilename [⟨5, 1, [], []⟩, ⟨6, 1, [], []⟩, ⟨7, 1, [], []⟩] = js "ch5_7.vn.txt" ∧
    exportFilename [⟨7, 1, [], []⟩, ⟨5, 1, [], []⟩, ⟨6, 1, [], []⟩] = js "ch5_7.vn.txt" ∧
    exportFilename [⟨5, 1, [], []⟩] = js "ch5.vn.txt" ∧
    exportFilename [⟨7, 1, [], []⟩, ⟨5, 1, [], []⟩, ⟨6, 1, [], []⟩] =
      (if (5 : Int) = 7 then js "ch" ++ intToString 5 ++ js ".vn.txt"
        else js "ch" ++ intToString 5 ++ js "_" ++ intToString 7 ++ js ".vn.txt") :=
  ⟨by decide!, by decide!, by decide!,
    exportFilename_range [⟨7, 1, [], []⟩, ⟨5, 1, [], []⟩, ⟨6, 1, [], []⟩] 5 7
      (by decide!) (by decide!) (by decide!) (by decide!)⟩

/-! ## Links and the walker: claims -/

/-- C13 as stated fails: the first region anchor with a next-chapter text has an
empty destination (an anchor without `href`), and the result is the destination of
a main-document anchor instead of that of the region anchor. -/
theorem extractChapterContent_empty_href :
    (extractChapterContent asciiLower
      ⟨js "https://ko-fi.com/post/1", js "Chapter 1",
        some ⟨js "text", [⟨js "Next Chapter", []⟩]⟩, [],
        [⟨js "Next Chapter", js "https://ko-fi.com/post/2"⟩]⟩).nextChapterUrl =
      some (js "https://ko-fi.com/post/2") ∧
    (extractChapterContent asciiLower
      ⟨js "https://ko-fi.com/post/1", js "Chapter 1",
        some ⟨js "text", [⟨js "Next Chapter", []⟩]⟩, [],
        [⟨js "Next Chapter", js "https://ko-fi.com/post/2"⟩]⟩).nextChapterUrl ≠
      some (Link.href ⟨js "Next Chapter", []⟩) := by
  decide!

/-- C13, amended: the next-chapter link of `extractChapterContent` is the
destination of the first region anchor whose lower-cased text contains
`next chapter` or `>> next`, when that destination is not empty; otherwise the
destination of the first main-document anchor with such a text; otherwise the
destination of the last main-document anchor whose destination contains
`ko-fi.com/post`; otherwise none. -/
theorem extractChapterContent_nextChapterUrl (toLowerCase : JSString → JSString) (page : Page) :
    (extractChapterContent toLowerCase page).nextChapterUrl =
      specNextChapterUrl toLowerCase
        (match page.shadow with
          | some root => root.links
          | none => []) page.links :=
  extractChapterContent_next toLowerCase page

/-- C14 as stated fails: over a chain with two next-chapter links (three pages)
one invocation with `count = 3` extracts one page and navigates away, and the walk
of invocations extracts three pages, ending without a next link on the third. -/
theorem runWalk_three_pages :
    pagesProcessed (scrapeMultipleChapters asciiLower 3 ⟨examplePage 1 true, none⟩).1 = 1 ∧
    (scrapeMultipleChapters asciiLower 3 ⟨examplePage 1 true, none⟩).2 =
      .navigating (pageChapters (examplePage 1 true)) (js "https://ko-fi.com/post/2") ∧
    ((runWalk asciiLower 3 exampleChain none).map (fun r => pagesProcessed r.1)).sum = 3 ∧
    ((runWalk asciiLower 3 exampleChain none).map (fun r => pagesProcessed r.1)).sum ≠ 2 ∧
    (runWalk asciiLower 3 exampleChain none).map
        (fun r => decide (Effect.log .noNextLink ∈ r.1)) = [false, false, true] := by
  decide!

/-- C14, amended: a walk with `count = 3` over a page chain with two next-chapter
links, three pages of which the first two carry a next link and the third does
not, makes one invocation per page; each invocation extracts exactly one page,
three pages in all, and the third invocation ends in the branch without a next
link and returns the chapters of the third page. -/
theorem runWalk_pages (toLowerCase : JSString → JSString) (p1 p2 p3 : Page)
    (stored : Option WalkState)
    (h1 : truthy (extractChapterContent toLowerCase p1).nextChapterUrl = true)
    (h2 : truthy (extractChapterContent toLowerCase p2).nextChapterUrl = true)
    (h3 : truthy (extractChapterContent toLowerCase p3).nextChapterUrl = false) :
    (runWalk toLowerCase 3 [p1, p2, p3] stored).length = 3 ∧
    (∀ r ∈ runWalk toLowerCase 3 [p1, p2, p3] stored, pagesProcessed r.1 = 1) ∧
    ((runWalk toLowerCase 3 [p1, p2, p3] stored).map (fun r => pagesProcessed r.1)).sum = 3 ∧
    (runWalk toLowerCase 3 [p1, p2, p3] stored).getLast? =
      some (invocationPrelude toLowerCase 3 p3 ++
        [Effect.log .noNextLink, Effect.log (.completed (pageChapters p3).length)],
        .finished (pageChapters p3) (pageChapters p3).length) := by
  have hfront : ∀ p ∈ [p1, p2],
      truthy (extractChapterContent toLowerCase p).nextChapterUrl = true := by
    intro p hp
    simp only [List.mem_cons, List.mem_singleton, List.not_mem_nil, or_false] at hp
    rcases hp with rfl | rfl
    · exact h1
    · exact h2
  obtain ⟨hlen, hone, hlast⟩ :=
    runWalk_chain toLowerCase 3 (by decide) p3 h3 [p1, p2] hfront stored
  refine ⟨hlen, hone, ?_, hlast⟩
  obtain ⟨a, b, c, habc⟩ := List.length_eq_three.mp hlen
  have habc2 : runWalk toLowerCase 3 [p1, p2, p3] stored = [a, b, c] := habc
  have ha := hone a (by rw [habc]; simp)
  have hb := hone b (by rw [habc]; simp)
  have hc := hone c (by rw [habc]; simp)
  rw [habc2]
  simp [ha, hb, hc]

/-- C14, amended, on the example chain with two next links. -/
theorem runWalk_pages_witness :
    exampleChain = [examplePage 1 true, examplePage 2 true, examplePage 3 false] ∧
    ((runWalk asciiLower 3 [examplePage 1 true, examplePage 2 true, examplePage 3 false]
      none).map (fun r => pagesProcessed r.1)).sum = 3 :=
  ⟨rfl,
    (runWalk_pages asciiLower (examplePage 1 true) (examplePage 2 true) (examplePage 3 false)
      none (by decide!) (by decide!) (by decide!)).2.2.1⟩

/-- C15 as stated fails: with a next link and `count = 2` the navigation is issued
before the store is written, and no store write precedes the navigation. -/
theorem scrapeMultipleChapters_navigates_first :
    precedes Effect.isSetItem Effect.isNavigate
      (scrapeMultipleChapters asciiLower 2 ⟨examplePage 1 true, none⟩).1 = false ∧
    precedes Effect.isNavigate Effect.isSetItem
      (scrapeMultipleChapters asciiLower 2 ⟨examplePage 1 true, none⟩).1 = true ∧
    (scrapeMultipleChapters asciiLower 2 ⟨examplePage 1 true, none⟩).1.drop 6 =
      [Effect.log (.waiting 2000), Effect.delay 2000,
        Effect.navigate (js "https://ko-fi.com/post/2"),
        Effect.setItem (js "kofi_scraper_progress")
          ⟨1, 2, pageChapters (examplePage 1 true)⟩] := by
  decide!

/-- C15, amended: for every page with a next-chapter link and every `count > 1`, the
effects of one invocation end with the delay, the navigation to the next URL and
then the write of the walk state `{currentIndex: 1, totalCount: count, chapters}`;
nothing before them navigates or writes the store, so the navigation precedes the
store write and no store write precedes the navigation. -/
theorem scrapeMultipleChapters_effects (toLowerCase : JSString → JSString) (count : Nat)
    (env : Env) (hnext : truthy (extractChapterContent toLowerCase env.page).nextChapterUrl = true)
    (hcount : 1 < count) :
    (∃ before : List Effect,
      (scrapeMultipleChapters toLowerCase count env).1 =
        before ++
          [Effect.log (.waiting 2000), Effect.delay 2000,
            Effect.navigate
              ((extractChapterContent toLowerCase env.page).nextChapterUrl.getD []),
            Effect.setItem (js "kofi_scraper_progress") ⟨1, count, pageChapters env.page⟩] ∧
      persisted before = [] ∧ navigations before = []) ∧
    precedes Effect.isNavigate Effect.isSetItem
      (scrapeMultipleChapters toLowerCase count env).1 = true ∧
    precedes Effect.isSetItem Effect.isNavigate
      (scrapeMultipleChapters toLowerCase count env).1 = false := by
  rw [scrapeMultipleChapters_navigating toLowerCase count env hnext hcount]
  refine ⟨⟨_, rfl, invocationPrelude_persisted _ _ _, invocationPrelude_navigations _ _ _⟩, ?_, ?_⟩
  · unfold invocationPrelude
    rw [precedes_map_log_append _ _ (fun _ => rfl)]
    simp [precedes, Effect.isSetItem, Effect.isNavigate]
  · unfold invocationPrelude
    rw [precedes_map_log_append _ _ (fun _ => rfl)]
    simp [precedes, Effect.isSetItem, Effect.isNavigate]

/-- C15, amended, on the first page of the example chain with `count = 2`. -/
theorem scrapeMultipleChapters_effects_witness :
    precedes Effect.isNavigate Effect.isSetItem
      (scrapeMultipleChapters asciiLower 2 ⟨examplePage 1 true, none⟩).1 = true :=
  (scrapeMultipleChapters_effects asciiLower 2 ⟨examplePage 1 true, none⟩
    (by decide!) (by decide)).2.1

/-- C16: the persisted chapters are not append-only over a walk. Over the example
chain with `count = 3` the state persisted on the second page holds the chapter
of the second page only, not the chapter persisted on the first page followed by
it: every invocation starts from the empty chapter list and overwrites the
store. -/
theorem runWalk_persisted_replaced :
    (runWalk asciiLower 3 exampleChain none).flatMap (fun r => persisted r.1) =
      [⟨1, 3, pageChapters (examplePage 1 true)⟩, ⟨1, 3, pageChapters (examplePage 2 true)⟩] ∧
    carriesOver (pageChapters (examplePage 1 true)) (pageChapters (examplePage 2 true)) = false ∧
    appendOnly ((runWalk asciiLower 3 exampleChain none).flatMap (fun r => persisted r.1)) =
      false := by
  decide!

/-- Whatever the store holds, an invocation persists at most one walk state, and
the chapters of that state are exactly the chapters extracted from the page of
that invocation, with `currentIndex` 1; nothing persisted earlier is carried into
it. -/
theorem scrapeMultipleChapters_persisted (toLowerCase : JSString → JSString) (count : Nat)
    (env : Env) :
    persisted (scrapeMultipleChapters toLowerCase count env).1 = [] ∨
    persisted (scrapeMultipleChapters toLowerCase count env).1 =
      [⟨1, count, pageChapters env.page⟩] := by
  by_cases h0 : count = 0
  · subst h0
    rw [scrapeMultipleChapters_zero]
    exact Or.inl rfl
  · by_cases hnext : truthy (extractChapterContent toLowerCase env.page).nextChapterUrl = true
    · by_cases h1 : count = 1
      · subst h1
        rw [scrapeMultipleChapters_one toLowerCase env hnext, persisted_append,
          invocationPrelude_persisted]
        exact Or.inl rfl
      · rw [scrapeMultipleChapters_navigating toLowerCase count env hnext (by omega),
          persisted_append, invocationPrelude_persisted]
        exact Or.inr rfl
    · have hnext2 : truthy (extractChapterContent toLowerCase env.page).nextChapterUrl = false := by
        simpa using hnext
      rw [scrapeMultipleChapters_noNext toLowerCase count env hnext2 (by omega), persisted_append,
        invocationPrelude_persisted]
      exact Or.inl rfl

/-- C17: a fresh invocation does not resume from the persisted walk state. With
the state `{currentIndex: 1, totalCount: 3, chapters}` in the store, the invocation
on the third page of the example chain reports its iteration as 1 of 3, not 2 of
3, and returns the chapter of that page only, without the stored chapters. -/
theorem scrapeMultipleChapters_fresh_start :
    Effect.log (.processing 1 3) ∈
      (scrapeMultipleChapters asciiLower 3
        ⟨examplePage 3 false, some ⟨1, 3, pageChapters (examplePage 2 true)⟩⟩).1 ∧
    Effect.log (.processing 2 3) ∉
      (scrapeMultipleChapters asciiLower 3
        ⟨examplePage 3 false, some ⟨1, 3, pageChapters (examplePage 2 true)⟩⟩).1 ∧
    (scrapeMultipleChapters asciiLower 3
        ⟨examplePage 3 false, some ⟨1, 3, pageChapters (examplePage 2 true)⟩⟩).2 =
      .finished (pageChapters (examplePage 3 false)) 1 ∧
    carriesOver (pageChapters (examplePage 2 true))
      (scrapeMultipleChapters asciiLower 3
        ⟨examplePage 3 false, some ⟨1, 3, pageChapters (examplePage 2 true)⟩⟩).2.chapters =
      false := by
  decide!

/-- An invocation does not read the persisted walk state. Whatever is stored, its
effects and its result are the same; for `count ≥ 1` its first iteration is
reported as 1 of `count` and the chapters it returns are those of the current page
only. -/
theorem scrapeMultipleChapters_ignores_store (toLowerCase : JSString → JSString) (count : Nat)
    (page : Page) (stored stored2 : Option WalkState) (hcount : 1 ≤ count) :
    scrapeMultipleChapters toLowerCase count ⟨page, stored⟩ =
      scrapeMultipleChapters toLowerCase count ⟨page, stored2⟩ ∧
    Effect.log (.processing 1 count) ∈
      (scrapeMultipleChapters toLowerCase count ⟨page, stored⟩).1 ∧
    (scrapeMultipleChapters toLowerCase count ⟨page, stored⟩).2.chapters = pageChapters page := by
  refine ⟨walkLoop_stored toLowerCase page stored stored2 count count 0 [] _, ?_⟩
  by_cases hnext : truthy (extractChapterContent toLowerCase page).nextChapterUrl = true
  · by_cases h1 : count = 1
    · subst h1
      rw [scrapeMultipleChapters_one toLowerCase ⟨page, stored⟩ hnext]
      exact ⟨by simp [invocationPrelude], rfl⟩
    · rw [scrapeMultipleChapters_navigating toLowerCase count ⟨page, stored⟩ hnext (by omega)]
      exact ⟨by simp [invocationPrelude], rfl⟩
  · have hnext2 : truthy (extractChapterContent toLowerCase page).nextChapterUrl = false := by
      simpa using hnext
    rw [scrapeMultipleChapters_noNext toLowerCase count ⟨page, stored⟩ hnext2 hcount]
    exact ⟨by simp [invocationPrelude], rfl⟩

/-- The store is not read: the third page of the example chain with a stored
state and without one. -/
theorem scrapeMultipleChapters_ignores_store_witness :
    scrapeMultipleChapters asciiLower 3
        ⟨examplePage 3 false, some ⟨1, 3, pageChapters (examplePage 2 true)⟩⟩ =
      scrapeMultipleChapters asciiLower 3 ⟨examplePage 3 false, none⟩ :=
  (scrapeMultipleChapters_ignores_store asciiLower 3 (examplePage 3 false)
    (some ⟨1, 3, pageChapters (examplePage 2 true)⟩) none (by decide)).1

/-- C18: for `count ≥ 1`, on a page without a next-chapter link, and for `count = 1`
on a page with one, `scrapeMultipleChapters` returns a result, issues no
navigation and no store write, has extracted one page, and returns the chapters of
that page with `totalChapters` equal to their number. -/
theorem scrapeMultipleChapters_completes (toLowerCase : JSString → JSString) (count : Nat)
    (env : Env) (hcount : 1 ≤ count)
    (h : truthy (extractChapterContent toLowerCase env.page).nextChapterUrl = false ∨ count = 1) :
    navigations (scrapeMultipleChapters toLowerCase count env).1 = [] ∧
    persisted (scrapeMultipleChapters toLowerCase count env).1 = [] ∧
    pagesProcessed (scrapeMultipleChapters toLowerCase count env).1 = 1 ∧
    (scrapeMultipleChapters toLowerCase count env).2 =
      .finished (pageChapters env.page) (pageChapters env.page).length := by
  refine ⟨?_, ?_, scrapeMultipleChapters_pagesProcessed toLowerCase count env hcount, ?_⟩
  all_goals
    by_cases hnext : truthy (extractChapterContent toLowerCase env.page).nextChapterUrl = true
    · have h1 : count = 1 := by
        rcases h with h | h
        · rw [hnext] at h; cases h
        · exact h
      subst h1
      rw [scrapeMultipleChapters_one toLowerCase env hnext]
      try first
        | rfl
        | (rw [navigations_append, invocationPrelude_navigations]; rfl)
        | (rw [persisted_append, invocationPrelude_persisted]; rfl)
    · have hnext2 : truthy (extractChapterContent toLowerCase env.page).nextChapterUrl = false := by
        simpa using hnext
      rw [scrapeMultipleChapters_noNext toLowerCase count env hnext2 hcount]
      try first
        | rfl
        | (rw [navigations_append, invocationPrelude_navigations]; rfl)
        | (rw [persisted_append, invocationPrelude_persisted]; rfl)

/-- C18 on the last page of the example chain with `count = 3`, and on its first
page with `count = 1`. -/
theorem scrapeMultipleChapters_completes_witness :
    (scrapeMultipleChapters asciiLower 3 ⟨examplePage 3 false, none⟩).2 =
      .finished (pageChapters (examplePage 3 false)) (pageChapters (examplePage 3 false)).length ∧
    navigations (scrapeMultipleChapters asciiLower 1 ⟨examplePage 1 true, none⟩).1 = [] :=
  ⟨(scrapeMultipleChapters_completes asciiLower 3 ⟨examplePage 3 false, none⟩ (by decide)
      (Or.inl (by decide!))).2.2.2,
    (scrapeMultipleChapters_completes asciiLower 1 ⟨examplePage 1 true, none⟩ (by decide)
      (Or.inr rfl)).1⟩

/-- C19: when the raw page text is empty, or every one of its lines is dropped by
the cleaner, `splitIntoChapters (cleanText rawText) title` is exactly one chapter,
with the empty string as content and the page title as title. -/
theorem splitIntoChapters_cleanText_empty (rawText title : JSString)
    (h : rawText = [] ∨ ∀ line ∈ split 10 rawText, keepLine line = false) :
    ∃ c, splitIntoChapters (cleanText rawText) title = [c] ∧ c.content = [] ∧ c.title = title := by
  have hall : ∀ line ∈ split 10 rawText, keepLine line = false := by
    rcases h with rfl | h
    · intro line hline
      simp only [split, List.mem_singleton] at hline
      subst hline
      decide
    · exact h
  rw [cleanText_of_all_dropped rawText hall,
    splitIntoChapters_nil [] title matchAll_chapterPattern_nil]
  exact ⟨_, rfl, rfl, rfl⟩

/-- C19 on a text whose lines are all dropped, with the title `Chapter 3`. -/
theorem splitIntoChapters_cleanText_empty_witness :
    splitIntoChapters (cleanText (js "ab\n\nShare\n  \n12 comments")) (js "Chapter 3") =
      [⟨3, 1, js "Chapter 3", []⟩] ∧
    ∃ c, splitIntoChapters (cleanText (js "ab\n\nShare\n  \n12 comments")) (js "Chapter 3") = [c] ∧
      c.content = [] ∧ c.title = js "Chapter 3" :=
  ⟨by decide!,
    splitIntoChapters_cleanText_empty (js "ab\n\nShare\n  \n12 comments") (js "Chapter 3")
      (Or.inr (by decide!))⟩

/-! ## Stored state: claims -/

/-- C20: when the value under the progress key is absent or is not parseable as
JSON, `getProgress` returns the empty object and `getLastChapter` returns `null`;
when the value under the reader-settings key is absent or not parseable,
`getSettings` returns exactly the default settings, font size 18, line height
1.8, maximal width 720 and the dark theme. The parser is any parser that reads the
text `null` as `null`. -/
theorem storedState_defaults (jsonParse : JSString → Option JSValue)
    (localStorage : JSString → Option JSString)
    (hnull : jsonParse (js "null") = some .null) :
    ((localStorage getStorageKey = none ∨
        ∃ text, localStorage getStorageKey = some text ∧ jsonParse text = none) →
      getProgress jsonParse localStorage = .object [] ∧
      getLastChapter jsonParse localStorage = .null) ∧
    ((localStorage readerSettingsKey = none ∨
        ∃ text, localStorage readerSettingsKey = some text ∧ jsonParse text = none) →
      getSettings jsonParse localStorage =
        .object [(js "fontSize", .number 18), (js "lineHeight", .number (9 / 5)),
          (js "maxWidth", .number 720), (js "theme", .string (js "dark"))]) := by
  constructor
  · intro h
    have hp : getProgress jsonParse localStorage = .object [] := by
      apply getProgress_of_parseItem
      rcases h with h | ⟨text, h, hbad⟩
      · exact Or.inl (parseItem_absent jsonParse localStorage _ hnull h)
      · exact Or.inr (parseItem_unparseable jsonParse localStorage _ text h hbad)
    refine ⟨hp, ?_⟩
    unfold getLastChapter
    rw [hp]
    rfl
  · intro h
    have : getSettings jsonParse localStorage = .object defaults := by
      apply getSettings_of_parseItem
      rcases h with h | ⟨text, h, hbad⟩
      · exact Or.inl (parseItem_absent jsonParse localStorage _ hnull h)
      · exact Or.inr (parseItem_unparseable jsonParse localStorage _ text h hbad)
    rw [this]
    rfl

/-- C20 on an empty store and on a store that holds the text `oops` under both
keys. -/
theorem storedState_defaults_witness :
    (getProgress parseNullOnly (fun _ => none) = .object [] ∧
      getLastChapter parseNullOnly (fun _ => none) = .null) ∧
    getSettings parseNullOnly (fun _ => some (js "oops")) =
      .object [(js "fontSize", .number 18), (js "lineHeight", .number (9 / 5)),
        (js "maxWidth", .number 720), (js "theme", .string (js "dark"))] :=
  ⟨(storedState_defaults parseNullOnly (fun _ => none) rfl).1 (Or.inl rfl),
    (storedState_defaults parseNullOnly (fun _ => some (js "oops")) rfl).2
      (Or.inr ⟨js "oops", rfl, rfl⟩)⟩


/-! ## Implicit behaviour of the text pipeline: claims -/

/-- C22: every chapter returned by `splitIntoChapters` has the volume of the page
title, `parseChapterInfo(title).volume`, whatever volume its own heading marker
names. -/
theorem splitIntoChapters_volume (content title : JSString) :
    ∀ c ∈ splitIntoChapters content title,
      c.volume = ((parseChapterInfo title).volume : Int) := by
  intro c hc
  unfold splitIntoChapters at hc
  simp only at hc
  split at hc
  · obtain ⟨i, -, rfl⟩ := List.mem_map.mp hc
    rfl
  · rw [List.mem_singleton] at hc
    rw [hc]

/-- C22 on the content `[Vol. 9] Chapter 137: A` under a page title without a
volume marker: the one chapter has volume 1, not 9. -/
theorem splitIntoChapters_volume_witness :
    splitIntoChapters (js "[Vol. 9] Chapter 137: A") (js "Max Level Priest") =
      [{ id := 137, volume := 1, title := js "A", content := [] }] ∧
    (parseChapterInfo (js "Max Level Priest")).volume = 1 ∧
    ({ id := 137, volume := 1, title := js "A", content := [] } : Chapter).volume =
      ((parseChapterInfo (js "Max Level Priest")).volume : Int) :=
  ⟨by decide!, by decide!,
    splitIntoChapters_volume (js "[Vol. 9] Chapter 137: A") (js "Max Level Priest") _
      (by decide!)⟩

/-- C26: `cleanText` is idempotent: cleaning a cleaned text gives the cleaned text
again. -/
theorem cleanText_idempotent (text : JSString) :
    cleanText (cleanText text) = cleanText text := by
  have h : cleanText text = join [10, 10] ((split 10 text).filter keepLine) := rfl
  rw [h]
  apply cleanText_join_kept
  · intro l hl
    exact split_not_mem 10 text l (List.mem_filter.mp hl).1
  · intro l hl
    exact (List.mem_filter.mp hl).2

/-- C23: when the content has a heading marker, every returned chapter is drawn
from the input at or after the first marker: its content is the trimmed slice
`[a, b)` of the input with `a` at or after the end of the first match, its title
is a trimmed slice that starts at or after the start of the first match, and its
content is shorter than the input. Nothing of the returned chapters is read from
the positions before the first marker. Without a marker the single chapter has
the entire input as its content. -/
theorem splitIntoChapters_after_first_marker (content title : JSString) :
    (∀ (first : MatchResult) (rest : List MatchResult),
      matchAll chapterPattern content = first :: rest →
      ∀ c ∈ splitIntoChapters content title,
        (∃ a b, first.index + first.text.length ≤ a ∧ a ≤ b ∧ b ≤ content.length ∧
          c.content = trim ((content.drop a).take (b - a))) ∧
        (∃ a b, first.index ≤ a ∧ a ≤ b ∧ b ≤ content.length ∧
          c.title = trim ((content.drop a).take (b - a))) ∧
        c.content.length < content.length) ∧
    (matchAll chapterPattern content = [] →
      ∀ c ∈ splitIntoChapters content title, c.content = content) := by
  constructor
  · intro first rest h c hc
    have hne : matchAll chapterPattern content ≠ [] := by rw [h]; simp
    obtain ⟨i, hi⟩ := List.mem_iff_getElem?.mp hc
    have hlt : i < (matchAll chapterPattern content).length := by
      rw [← splitIntoChapters_length content title hne]
      exact (List.getElem?_eq_some.mp hi).1
    obtain ⟨m, hm⟩ : ∃ m, (matchAll chapterPattern content)[i]? = some m :=
      ⟨_, List.getElem?_eq_getElem hlt⟩
    have hmem : m ∈ matchAll chapterPattern content := List.mem_iff_getElem?.mpr ⟨i, hm⟩
    rw [splitIntoChapters_getElem? content title i m hm] at hi
    obtain ⟨h1, h2, h3⟩ := matchAll_after_first h m hmem
    obtain ⟨hn1, hn2⟩ := Ordered.index _ 0 i m (matchAll_ordered chapterPattern content) hm
    obtain ⟨num, t, -, hcap, hshape⟩ := chapterPattern_shape (matchAll_mem hmem)
    obtain ⟨x, hx, hxpos⟩ := hshape.text_pos
    have htext := matchAll_text hmem
    have hfirst : 0 < first.text.length := by
      obtain ⟨_, _, -, -, hs⟩ := chapterPattern_shape
        (matchAll_mem (show first ∈ matchAll chapterPattern content by rw [h]; simp))
      obtain ⟨y, hy, hypos⟩ := hs.text_pos
      rw [hy, List.length_append]
      omega
    have hc2 := Option.some.inj hi
    subst hc2
    refine ⟨⟨_, _, h2, hn1, hn2, rfl⟩, ⟨m.index + x.length, m.index + m.text.length,
      by omega, ?_, h3, ?_⟩, ?_⟩
    · rw [hx, List.length_append]
      omega
    · simp only [hcap, Option.getD_some]
      have hlen : m.index + m.text.length - (m.index + x.length) = t.length := by
        rw [hx, List.length_append]
        omega
      rw [hlen, slice_suffix content x t m.index (by rw [← hx]; exact htext)]
    · refine lt_of_le_of_lt (trim_length_le _) ?_
      rw [List.length_take, List.length_drop]
      omega
  · intro h c hc
    rw [splitIntoChapters_nil content title h, List.mem_singleton] at hc
    rw [hc]

/-- C23 on a page whose marker follows the line `intro`: the one chapter is read
from the positions after the marker and the line `intro` is in no field of it;
and on a page without a marker, where the chapter has the entire input. -/
theorem splitIntoChapters_after_first_marker_witness :
    (matchAll chapterPattern (js "intro\n[Vol. 9] Chapter 137: A\nbody") =
        [⟨6, js "[Vol. 9] Chapter 137: A", [(2, js "A"), (1, js "137")]⟩] ∧
      splitIntoChapters (js "intro\n[Vol. 9] Chapter 137: A\nbody") (js "t") =
        [⟨137, 1, js "A", js "body"⟩]) ∧
    ((∃ a b,
        (⟨6, js "[Vol. 9] Chapter 137: A", [(2, js "A"), (1, js "137")]⟩ : MatchResult).index +
          (⟨6, js "[Vol. 9] Chapter 137: A",
            [(2, js "A"), (1, js "137")]⟩ : MatchResult).text.length ≤ a ∧
        a ≤ b ∧ b ≤ (js "intro\n[Vol. 9] Chapter 137: A\nbody").length ∧
        (⟨137, 1, js "A", js "body"⟩ : Chapter).content =
          trim (((js "intro\n[Vol. 9] Chapter 137: A\nbody").drop a).take (b - a))) ∧
      (∃ a b,
        (⟨6, js "[Vol. 9] Chapter 137: A", [(2, js "A"), (1, js "137")]⟩ : MatchResult).index ≤
          a ∧
        a ≤ b ∧ b ≤ (js "intro\n[Vol. 9] Chapter 137: A\nbody").length ∧
        (⟨137, 1, js "A", js "body"⟩ : Chapter).title =
          trim (((js "intro\n[Vol. 9] Chapter 137: A\nbody").drop a).take (b - a))) ∧
      (⟨137, 1, js "A", js "body"⟩ : Chapter).content.length <
        (js "intro\n[Vol. 9] Chapter 137: A\nbody").length) ∧
    (⟨1, 1, js "t", js "intro\nbody"⟩ : Chapter).content = js "intro\nbody" :=
  ⟨⟨by decide!, by decide!⟩,
    (splitIntoChapters_after_first_marker (js "intro\n[Vol. 9] Chapter 137: A\nbody")
      (js "t")).1 _ [] (by decide!) _ (by decide!),
    (splitIntoChapters_after_first_marker (js "intro\nbody") (js "t")).2 (by decide!) _
      (by decide!)⟩

/-! ## One invocation of the walker: claims -/

/-- C24: one invocation of `scrapeMultipleChapters` extracts at most one page. For
`count ≥ 1` the loop body runs exactly once: the invocation returns after
navigating (next link and `count > 1`), or ends on a missing next link, or ends
because `count = 1`; in each case the returned chapters are exactly those of the
current page and every walk state written to the store has `currentIndex` 1. For
`count ≤ 0` no page is extracted and the result is the empty chapter list with
`totalChapters` 0. -/
theorem scrapeMultipleChapters_single_page (toLowerCase : JSString → JSString) (count : Nat)
    (env : Env) :
    pagesProcessed (scrapeMultipleChapters toLowerCase count env).1 ≤ 1 ∧
    (1 ≤ count →
      pagesProcessed (scrapeMultipleChapters toLowerCase count env).1 = 1 ∧
      (scrapeMultipleChapters toLowerCase count env).2.chapters = pageChapters env.page ∧
      (∀ s ∈ persisted (scrapeMultipleChapters toLowerCase count env).1, s.currentIndex = 1) ∧
      ((truthy (extractChapterContent toLowerCase env.page).nextChapterUrl = true ∧ 1 < count ∧
          (scrapeMultipleChapters toLowerCase count env).2 =
            .navigating (pageChapters env.page)
              ((extractChapterContent toLowerCase env.page).nextChapterUrl.getD [])) ∨
        (truthy (extractChapterContent toLowerCase env.page).nextChapterUrl = false ∧
          (scrapeMultipleChapters toLowerCase count env).2 =
            .finished (pageChapters env.page) (pageChapters env.page).length) ∨
        (truthy (extractChapterContent toLowerCase env.page).nextChapterUrl = true ∧ count = 1 ∧
          (scrapeMultipleChapters toLowerCase count env).2 =
            .finished (pageChapters env.page) (pageChapters env.page).length))) ∧
    (count ≤ 0 →
      pagesProcessed (scrapeMultipleChapters toLowerCase count env).1 = 0 ∧
      (scrapeMultipleChapters toLowerCase count env).2 = .finished [] 0) := by
  have hpos : 1 ≤ count →
      pagesProcessed (scrapeMultipleChapters toLowerCase count env).1 = 1 ∧
      (scrapeMultipleChapters toLowerCase count env).2.chapters = pageChapters env.page ∧
      (∀ s ∈ persisted (scrapeMultipleChapters toLowerCase count env).1, s.currentIndex = 1) ∧
      ((truthy (extractChapterContent toLowerCase env.page).nextChapterUrl = true ∧ 1 < count ∧
          (scrapeMultipleChapters toLowerCase count env).2 =
            .navigating (pageChapters env.page)
              ((extractChapterContent toLowerCase env.page).nextChapterUrl.getD [])) ∨
        (truthy (extractChapterContent toLowerCase env.page).nextChapterUrl = false ∧
          (scrapeMultipleChapters toLowerCase count env).2 =
            .finished (pageChapters env.page) (pageChapters env.page).length) ∨
        (truthy (extractChapterContent toLowerCase env.page).nextChapterUrl = true ∧ count = 1 ∧
          (scrapeMultipleChapters toLowerCase count env).2 =
            .finished (pageChapters env.page) (pageChapters env.page).length)) := by
    intro hcount
    refine ⟨scrapeMultipleChapters_pagesProcessed toLowerCase count env hcount, ?_⟩
    by_cases hnext : truthy (extractChapterContent toLowerCase env.page).nextChapterUrl = true
    · by_cases h1 : count = 1
      · subst h1
        rw [scrapeMultipleChapters_one toLowerCase env hnext]
        refine ⟨rfl, ?_, Or.inr (Or.inr ⟨hnext, rfl, rfl⟩)⟩
        rw [persisted_append, invocationPrelude_persisted]
        intro s hs
        simp [persisted] at hs
      · rw [scrapeMultipleChapters_navigating toLowerCase count env hnext (by omega)]
        refine ⟨rfl, ?_, Or.inl ⟨hnext, by omega, rfl⟩⟩
        rw [persisted_append, invocationPrelude_persisted]
        intro s hs
        simp only [persisted, List.nil_append, List.mem_singleton] at hs
        rw [hs]
    · have hnext2 : truthy (extractChapterContent toLowerCase env.page).nextChapterUrl = false := by
        simpa using hnext
      rw [scrapeMultipleChapters_noNext toLowerCase count env hnext2 hcount]
      refine ⟨rfl, ?_, Or.inr (Or.inl ⟨hnext2, rfl⟩)⟩
      rw [persisted_append, invocationPrelude_persisted]
      intro s hs
      simp [persisted] at hs
  have hzero : count ≤ 0 →
      pagesProcessed (scrapeMultipleChapters toLowerCase count env).1 = 0 ∧
      (scrapeMultipleChapters toLowerCase count env).2 = .finished [] 0 := by
    intro h0
    obtain rfl : count = 0 := by omega
    rw [scrapeMultipleChapters_zero]
    exact ⟨rfl, rfl⟩
  refine ⟨?_, hpos, hzero⟩
  by_cases hcount : 1 ≤ count
  · exact le_of_eq (hpos hcount).1
  · rw [(hzero (by omega)).1]
    exact Nat.zero_le _

/-- C24 on the first page of the example chain: with `count = 5` the invocation
navigates after its one page and writes `currentIndex` 1; with `count = 0` it
returns the empty list. -/
theorem scrapeMultipleChapters_single_page_witness :
    (pagesProcessed (scrapeMultipleChapters asciiLower 5 ⟨examplePage 1 true, none⟩).1 = 1 ∧
      (scrapeMultipleChapters asciiLower 5 ⟨examplePage 1 true, none⟩).2.chapters =
        pageChapters (examplePage 1 true)) ∧
    persisted (scrapeMultipleChapters asciiLower 5 ⟨examplePage 1 true, none⟩).1 =
      [⟨1, 5, pageChapters (examplePage 1 true)⟩] ∧
    (scrapeMultipleChapters asciiLower 0 ⟨examplePage 1 true, none⟩).2 = .finished [] 0 :=
  ⟨⟨((scrapeMultipleChapters_single_page asciiLower 5 ⟨examplePage 1 true, none⟩).2.1
        (by decide)).1,
      ((scrapeMultipleChapters_single_page asciiLower 5 ⟨examplePage 1 true, none⟩).2.1
        (by decide)).2.1⟩,
    by decide!,
    ((scrapeMultipleChapters_single_page asciiLower 0 ⟨examplePage 1 true, none⟩).2.2
      (by decide)).2⟩

/-! ## The book form: claims -/

/-- C25: the slug of every title has at most 50 code units, consists only of
`a-z`, `0-9` and the hyphen, has no two hyphens in a row and no hyphen at its
start. It can end with a hyphen: the trailing hyphens are stripped before the cut
at 50 code units, and the slug of the ASCII title
`The Legendary Adventures of the Max Level Priests and Friends` is cut right
after the hyphen that follows `priests`. The built-ins are any functions that
lower-case this title as ASCII text and leave the result unchanged under NFD. -/
theorem generateSlug_trailing_hyphen (toLowerCase normalizeNFD : JSString → JSString)
    (hlower : toLowerCase (js "The Legendary Adventures of the Max Level Priests and Friends") =
      asciiLower (js "The Legendary Adventures of the Max Level Priests and Friends"))
    (hnfd :
      normalizeNFD (asciiLower (js "The Legendary Adventures of the Max Level Priests and Friends")) =
        asciiLower (js "The Legendary Adventures of the Max Level Priests and Friends")) :
    (isAscii (js "The Legendary Adventures of the Max Level Priests and Friends") = true ∧
      generateSlug toLowerCase normalizeNFD
          (js "The Legendary Adventures of the Max Level Priests and Friends") =
        js "the-legendary-adventures-of-the-max-level-priests-" ∧
      (generateSlug toLowerCase normalizeNFD
          (js "The Legendary Adventures of the Max Level Priests and Friends")).getLast? =
        some 45) ∧
    ∀ title : JSString,
      (generateSlug toLowerCase normalizeNFD title).length ≤ 50 ∧
      (∀ c ∈ generateSlug toLowerCase normalizeNFD title, isSlugChar c = true ∨ c = 45) ∧
      List.Chain' (fun a b => ¬(a = 45 ∧ b = 45)) (generateSlug toLowerCase normalizeNFD title) ∧
      (generateSlug toLowerCase normalizeNFD title).head? ≠ some 45 := by
  have h : generateSlug toLowerCase normalizeNFD
      (js "The Legendary Adventures of the Max Level Priests and Friends") =
      js "the-legendary-adventures-of-the-max-level-priests-" := by
    unfold generateSlug
    rw [hlower, hnfd]
    decide!
  refine ⟨⟨by decide!, h, ?_⟩, generateSlug_shape toLowerCase normalizeNFD⟩
  rw [h]
  decide!

/-- C25 with the ASCII lower-casing and the identity as the built-ins. -/
theorem generateSlug_trailing_hyphen_witness :
    generateSlug asciiLower id
        (js "The Legendary Adventures of the Max Level Priests and Friends") =
      js "the-legendary-adventures-of-the-max-level-priests-" ∧
    (generateSlug asciiLower id
        (js "The Legendary Adventures of the Max Level Priests and Friends")).getLast? =
      some 45 :=
  (generateSlug_trailing_hyphen asciiLower id rfl rfl).1.2

/-- C21: the stored book list is parsed without a guard. When the value under
`library_books` is a non-empty text that `JSON.parse` rejects, `loadSavedBooks`
and `saveBookToLibrary` throw its `SyntaxError`; when the text parses to a value
that is not an array, both throw a `TypeError`. Only an absent or empty value is
read as the empty list of books. -/
theorem loadSavedBooks_throws (jsonParse : JSString → Option JSValue)
    (localStorage : JSString → Option JSString) :
    (∀ text, localStorage (js "library_books") = some text → text ≠ [] →
      jsonParse text = none →
      loadSavedBooks jsonParse localStorage = .error .syntaxError ∧
      ∀ now bookData,
        saveBookToLibrary jsonParse localStorage now bookData = .error .syntaxError) ∧
    (∀ text value, localStorage (js "library_books") = some text → text ≠ [] →
      jsonParse text = some value → (∀ books, value ≠ .array books) →
      loadSavedBooks jsonParse localStorage = .error .typeError ∧
      ∀ now bookData,
        saveBookToLibrary jsonParse localStorage now bookData = .error .typeError) ∧
    ((localStorage (js "library_books") = none ∨ localStorage (js "library_books") = some []) →
      jsonParse (js "[]") = some (.array []) →
      loadSavedBooks jsonParse localStorage = .ok [] ∧
      ∀ now bookData,
        saveBookToLibrary jsonParse localStorage now bookData = .ok [bookData.toValue]) := by
  refine ⟨?_, ?_, ?_⟩
  · intro text h hne hbad
    have ht : storedBooksText localStorage = text := by
      unfold storedBooksText
      rw [h]
      simp [hne]
    refine ⟨?_, fun now bookData => ?_⟩
    · unfold loadSavedBooks
      rw [ht, hbad]
    · unfold saveBookToLibrary
      rw [ht, hbad]
  · intro text value h hne hv hnot
    have ht : storedBooksText localStorage = text := by
      unfold storedBooksText
      rw [h]
      simp [hne]
    refine ⟨?_, fun now bookData => ?_⟩
    · unfold loadSavedBooks
      rw [ht, hv]
      cases value with
      | array books => exact absurd rfl (hnot books)
      | _ => rfl
    · unfold saveBookToLibrary
      rw [ht, hv]
      cases value with
      | array books => exact absurd rfl (hnot books)
      | _ => rfl
  · intro h hparse
    have ht : storedBooksText localStorage = js "[]" := by
      unfold storedBooksText
      rcases h with h | h
      · rw [h]
      · rw [h]
        rfl
    refine ⟨?_, fun now bookData => ?_⟩
    · unfold loadSavedBooks
      rw [ht, hparse]
    · unfold saveBookToLibrary
      rw [ht, hparse]
      rfl

/-- C21 on a store that holds the text `oops`, on one that holds the text `null`,
and on an empty store. -/
theorem loadSavedBooks_throws_witness :
    loadSavedBooks parseNullOrEmptyArray (fun _ => some (js "oops")) = .error .syntaxError ∧
    (∀ now bookData,
      saveBookToLibrary parseNullOrEmptyArray (fun _ => some (js "null")) now bookData =
        .error .typeError) ∧
    loadSavedBooks parseNullOrEmptyArray (fun _ => none) = .ok [] :=
  ⟨((loadSavedBooks_throws parseNullOrEmptyArray (fun _ => some (js "oops"))).1 (js "oops") rfl
      (by decide) rfl).1,
    ((loadSavedBooks_throws parseNullOrEmptyArray (fun _ => some (js "null"))).2.1 (js "null")
      .null rfl (by decide) rfl (fun _ h => by cases h)).2,
    ((loadSavedBooks_throws parseNullOrEmptyArray (fun _ => none)).2.2 (Or.inl rfl) rfl).1⟩

end KofiScraper
